import Mathlib

/-!
# DosGuitar: the finite-state-machine engine of `DosGuitar.c`

A shallow embedding of the `Fsm` class (`FSM.h` / `FSM.cpp` part of
`src/DosGuitar.c`), of the sketch's `addTransitions` and `scale`, and theorems
about them.

Modelling conventions.

* A `State*` is an optional address (`none` is `NULL`); the `State` objects are
  owned by the application and are read through `Env.heap`.
* A `void (*)()` callback is an optional callback identity.  Invoking a callback
  appends its identity to `World.trace`.  The `on_enter`, `on_exit` and transition
  callbacks are opaque to the engine and do not call back into it.  An `on_state`
  callback may call `trigger`: `run_machine_delivering` takes the events it
  delivers, and `run_machine` is the case in which it delivers none.
* `millis()` is an oracle: the `k`-th call returns `Env.millis k` reduced to an
  `unsigned long` (32 bits on the target).  `World.reads` counts the calls.
* The two `realloc`-grown arrays are lists; `m_num_transitions` and
  `m_num_timed_transitions` are their lengths.
* Dereferencing `NULL` is undefined behaviour and is modelled as `none`.
* `World.entered` and `World.fired` are ghost fields: they record when the
  current state was last assigned and which timed transitions passed the firing
  test.  No engine decision reads them.
-/

namespace DosGuitar

/-- Identity of a callback function (the address of a `void f()`). -/
abbrev Callback := Nat

/-- A nullable function pointer `void (*)()`; `none` is `NULL`. -/
abbrev FnPtr := Option Callback

/-- A nullable `State*`; `none` is `NULL`, `some a` is the object at address `a`. -/
abbrev StatePtr := Option Nat

/-- The `struct State`: three nullable callbacks. -/
structure State where
  on_enter : FnPtr
  on_state : FnPtr
  on_exit : FnPtr
deriving DecidableEq

/-- The `struct Fsm::Transition`. -/
structure Transition where
  state_from : StatePtr
  state_to : StatePtr
  event : Int
  on_transition : FnPtr
deriving DecidableEq

/-- The `struct Fsm::TimedTransition`; `start` and `interval` are `unsigned long`. -/
structure TimedTransition where
  transition : Transition
  start : Nat
  interval : Nat
deriving DecidableEq

/-- The data members of `class Fsm`. -/
structure Fsm where
  m_current_state : StatePtr
  m_transitions : List Transition
  m_timed_transitions : List TimedTransition
  m_initialized : Bool
deriving DecidableEq

/-- The environment of the engine: the application's `State` objects by address
and the clock read by `millis()`, indexed by the number of earlier reads. -/
structure Env where
  heap : Nat → State
  millis : Nat → Nat

/-- Ghost record of one timed transition that passed the firing test in
`check_timed_transitions`: its table index, the entry as read by the test, the
clock reading `now` of the test and the value of `World.entered` at that time. -/
structure Firing where
  index : Nat
  entry : TimedTransition
  now : Nat
  since : Option Nat
deriving DecidableEq

/-- The engine together with what it has observed and done: the number of
`millis()` calls so far, the callbacks invoked so far (oldest first), and the
ghost fields `entered` (reading taken by the `make_transition` that last assigned
`m_current_state`, `none` if it was only assigned by the constructor) and `fired`
(timed firings so far, oldest first). -/
structure World where
  fsm : Fsm
  reads : Nat
  trace : List Callback
  entered : Option Nat
  fired : List Firing
deriving DecidableEq

/-- Number of values of an `unsigned long` on the target (32 bits). -/
def ULONG_RANGE : Nat := 4294967296

/-- Subtraction of two `unsigned long` values, `a - b` modulo `2^32`. -/
def usub (a b : Nat) : Nat := (a + ULONG_RANGE - b) % ULONG_RANGE

/-- One call of `millis()`: the reading as an `unsigned long`, and the world with
the call counted. -/
def millis (env : Env) (w : World) : Nat × World :=
  (env.millis w.reads % ULONG_RANGE, { w with reads := w.reads + 1 })

/-- The statement `if (f != NULL) f();`. -/
def invoke (f : FnPtr) (w : World) : World :=
  match f with
  | none => w
  | some c => { w with trace := w.trace ++ [c] }

/-- Reading the object behind a `State*`; `none` for `NULL`. -/
def deref (env : Env) (p : StatePtr) : Option State :=
  match p with
  | none => none
  | some a => some (env.heap a)

/-- The constructor `Fsm::Fsm(State* initial_state)`.  Its initialiser list names
`m_transitions(NULL)` and both counts but not the pointer `m_timed_transitions`;
the table of length `m_num_timed_transitions = 0` is the empty list here, which is
what the code has for an engine in zero-initialised storage such as the global
`soundFsm`, where the pointer is null before the constructor runs. -/
def Fsm.ctor (initial_state : StatePtr) : Fsm :=
  { m_current_state := initial_state
    m_transitions := []
    m_timed_transitions := []
    m_initialized := false }

/-- The world right after construction of the engine. -/
def World.boot (initial_state : StatePtr) : World :=
  { fsm := Fsm.ctor initial_state, reads := 0, trace := [], entered := none, fired := [] }

/-- The function `Fsm::create_transition`. -/
def create_transition (state_from state_to : StatePtr) (event : Int)
    (on_transition : FnPtr) : Transition :=
  { state_from := state_from, state_to := state_to, event := event,
    on_transition := on_transition }

/-- The method `Fsm::add_transition`. -/
def Fsm.add_transition (m : Fsm) (state_from state_to : StatePtr) (event : Int)
    (on_transition : FnPtr) : Fsm :=
  if state_from = none ∨ state_to = none then m
  else
    let transition := create_transition state_from state_to event on_transition
    { m with m_transitions := m.m_transitions ++ [transition] }

/-- The method `Fsm::add_timed_transition`. -/
def Fsm.add_timed_transition (m : Fsm) (state_from state_to : StatePtr) (interval : Nat)
    (on_transition : FnPtr) : Fsm :=
  if state_from = none ∨ state_to = none then m
  else
    let transition := create_transition state_from state_to 0 on_transition
    let timed_transition : TimedTransition :=
      { transition := transition, start := 0, interval := interval }
    { m with m_timed_transitions := m.m_timed_transitions ++ [timed_transition] }

/-- The final loop of `make_transition`: every timed transition whose
`state_from` is `cur` gets `start = now`. -/
def arm_all (cur : StatePtr) (now : Nat) (tts : List TimedTransition) :
    List TimedTransition :=
  tts.map (fun tt => if tt.transition.state_from = cur then { tt with start := now } else tt)

/-- The method `Fsm::make_transition`: `on_exit` of the source state, the
transition's action, `on_enter` of the target state, assignment of the current
state, one `millis()` reading, and the re-arming loop.  The ghost field `entered`
records the reading. -/
def make_transition (env : Env) (transition : Transition) (w : World) : Option World :=
  match deref env transition.state_from, deref env transition.state_to with
  | some state_from, some state_to =>
    let w1 := invoke state_from.on_exit w
    let w2 := invoke transition.on_transition w1
    let w3 := invoke state_to.on_enter w2
    let w4 := { w3 with fsm := { w3.fsm with m_current_state := transition.state_to } }
    let (now, w5) := millis env w4
    some { w5 with
      fsm := { w5.fsm with
        m_timed_transitions :=
          arm_all w5.fsm.m_current_state now w5.fsm.m_timed_transitions }
      entered := some now }
  | _, _ => none

/-- The method `Fsm::trigger`. -/
def trigger (env : Env) (event : Int) (w : World) : Option World :=
  if w.fsm.m_initialized then
    match w.fsm.m_transitions.find?
        (fun t => decide (t.state_from = w.fsm.m_current_state ∧ t.event = event)) with
    | some t => make_transition env t w
    | none => some w
  else some w

/-- The assignment `m_timed_transitions[i].start = v`. -/
def set_start (i : Nat) (v : Nat) (w : World) : World :=
  match w.fsm.m_timed_transitions[i]? with
  | none => w
  | some tt =>
    { w with fsm := { w.fsm with
        m_timed_transitions := w.fsm.m_timed_transitions.set i { tt with start := v } } }

/-- The body of the loop of `Fsm::check_timed_transitions` for index `i`.  When
the firing test passes, the ghost field `fired` records it before
`make_transition` runs. -/
def check_timed_step (env : Env) (i : Nat) (w : World) : Option World :=
  match w.fsm.m_timed_transitions[i]? with
  | none => some w
  | some transition =>
    if transition.transition.state_from = w.fsm.m_current_state then
      if transition.start = 0 then
        let (now, w1) := millis env w
        some (set_start i now w1)
      else
        let (now, w1) := millis env w
        if usub now transition.start ≥ transition.interval then
          let w2 := { w1 with fired := w1.fired ++
            [{ index := i, entry := transition, now := now, since := w1.entered }] }
          match make_transition env transition.transition w2 with
          | none => none
          | some w3 => some (set_start i 0 w3)
        else some w1
    else some w

/-- The loop of `Fsm::check_timed_transitions` from index `i` for `n` more
iterations. -/
def check_timed_loop (env : Env) : Nat → Nat → World → Option World
  | 0, _, w => some w
  | n + 1, i, w =>
    match check_timed_step env i w with
    | none => none
    | some w1 => check_timed_loop env n (i + 1) w1

/-- The method `Fsm::check_timed_transitions`: indices `0` to
`m_num_timed_transitions - 1` in order (the body never changes the count). -/
def check_timed_transitions (env : Env) (w : World) : Option World :=
  check_timed_loop env w.fsm.m_timed_transitions.length 0 w

/-- The method `Fsm::run_machine`. -/
def run_machine (env : Env) (w : World) : Option World :=
  match deref env w.fsm.m_current_state with
  | none => none
  | some current =>
    let w1 :=
      if w.fsm.m_initialized then w
      else invoke current.on_enter { w with fsm := { w.fsm with m_initialized := true } }
    let w2 := invoke current.on_state w1
    check_timed_transitions env w2

/-- A call of one of the four public methods of the engine. -/
inductive Op where
  | add_transition (state_from state_to : StatePtr) (event : Int) (on_transition : FnPtr)
  | add_timed_transition (state_from state_to : StatePtr) (interval : Nat)
      (on_transition : FnPtr)
  | trigger (event : Int)
  | run_machine
deriving DecidableEq

/-- Performing one call. -/
def step (env : Env) (op : Op) (w : World) : Option World :=
  match op with
  | .add_transition a b e f => some { w with fsm := w.fsm.add_transition a b e f }
  | .add_timed_transition a b iv f => some { w with fsm := w.fsm.add_timed_transition a b iv f }
  | .trigger e => trigger env e w
  | .run_machine => run_machine env w

/-- Performing a sequence of calls, first to last. -/
def exec (env : Env) : List Op → World → Option World
  | [], w => some w
  | op :: ops, w =>
    match step env op w with
    | none => none
    | some w1 => exec env ops w1

/-! ## `on_state` callbacks that deliver events -/

/-- The `trigger` calls a callback makes before it returns, in order. -/
def deliver (env : Env) : List Int → World → Option World
  | [], w => some w
  | event :: events, w =>
    match trigger env event w with
    | none => none
    | some w1 => deliver env events w1

/-- The method `Fsm::run_machine` when the `on_state` callback it invokes calls
`trigger` for each of `events` before it returns, as `piezo_check`,
`piezo_identify_when` and `after_play_song` do.  A null `on_state` is not called
and delivers nothing.  With no events this is `run_machine`. -/
def run_machine_delivering (env : Env) (events : List Int) (w : World) : Option World :=
  match deref env w.fsm.m_current_state with
  | none => none
  | some current =>
    let w1 :=
      if w.fsm.m_initialized then w
      else invoke current.on_enter { w with fsm := { w.fsm with m_initialized := true } }
    let w2 := invoke current.on_state w1
    let delivered :=
      match current.on_state with
      | none => some w2
      | some _ => deliver env events w2
    match delivered with
    | none => none
    | some w3 => check_timed_transitions env w3

/-- Consecutive `run_machine` calls; the `on_state` callback of the `k`-th call
delivers the `k`-th list of events. -/
def run_calls (env : Env) : List (List Int) → World → Option World
  | [], w => some w
  | events :: rest, w =>
    match run_machine_delivering env events w with
    | none => none
    | some w1 => run_calls env rest w1

/-- One `run_machine` call per listed pair, in order: during the call every
`millis()` returns the pair's clock value and the `on_state` callback delivers the
pair's events. -/
def run_ticks_delivering (heap : Nat → State) : List (Nat × List Int) → World → Option World
  | [], w => some w
  | tick :: ticks, w =>
    match run_machine_delivering { heap := heap, millis := fun _ => tick.1 } tick.2 w with
    | none => none
    | some w1 => run_ticks_delivering heap ticks w1

/-! ## Notions used in the statements -/

/-- Every entry of the timed table has non-null states (what the guard of
`add_timed_transition` establishes). -/
def TimedWF (w : World) : Prop :=
  ∀ tt ∈ w.fsm.m_timed_transitions,
    tt.transition.state_from ≠ none ∧ tt.transition.state_to ≠ none

/-- Number of entries before index `i` whose source is the current state: the
number of `millis()` calls an idle scan makes before it reaches index `i`. -/
def rank (w : World) (i : Nat) : Nat :=
  (w.fsm.m_timed_transitions.take i).countP
    (fun tt => decide (tt.transition.state_from = w.fsm.m_current_state))

/-- One `run_machine` call per listed clock value, in order; during each call
every `millis()` returns that call's value. -/
def run_ticks (heap : Nat → State) : List Nat → World → Option World
  | [], w => some w
  | c :: cs, w =>
    match run_machine { heap := heap, millis := fun _ => c } w with
    | none => none
    | some w1 => run_ticks heap cs w1

/-- The clock value since which the current state has been current: the reading
taken by the `make_transition` that assigned it, or, when only the constructor
assigned it, the first value of the clock (no reading is taken at construction;
under a non-decreasing clock the first value is not before construction). -/
def entered_at (env : Env) (since : Option Nat) : Nat :=
  since.getD (env.millis 0)

/-- A logged firing respects the residency time: the state had been current since
`t_e`, the timer was armed at or after `t_e` and not after the test, and
`now - t_e` is at least the interval. -/
def GoodFiring (env : Env) (f : Firing) : Prop :=
  entered_at env f.since ≤ f.entry.start ∧ f.entry.start ≤ f.now ∧
    f.entry.interval ≤ f.now - entered_at env f.since

/-- The invariant behind "never fires early": the moment the current state was
entered is not after any future reading, every armed timer out of the current
state was armed between that moment and now, and every logged firing is good. -/
def TimerInv (env : Env) (w : World) : Prop :=
  (∀ k, w.reads ≤ k → entered_at env w.entered ≤ env.millis k) ∧
  (∀ tt ∈ w.fsm.m_timed_transitions,
    tt.transition.state_from = w.fsm.m_current_state → tt.start ≠ 0 →
      entered_at env w.entered ≤ tt.start ∧ ∀ k, w.reads ≤ k → tt.start ≤ env.millis k) ∧
  (∀ f ∈ w.fired, GoodFiring env f)

/-- The fields of a timed-table entry that registration fixes: everything but
`start`. -/
def TimedTransition.config (tt : TimedTransition) : Transition × Nat :=
  (tt.transition, tt.interval)

/-- The two tables of `w1` are those of `w` up to the `start` fields: the event
table is the same list, and the timed table has the same length and, entry by
entry, the same transition and interval. -/
def SameTables (w w1 : World) : Prop :=
  w1.fsm.m_transitions = w.fsm.m_transitions ∧
  w1.fsm.m_timed_transitions.map TimedTransition.config
    = w.fsm.m_timed_transitions.map TimedTransition.config

/-! ## The application: tables of the sketch -/

/-- Address of the global `State state_no_sound`. -/
def state_no_sound : Nat := 1

/-- Address of the global `State state_piezo_verify`. -/
def state_piezo_verify : Nat := 2

/-- Address of the global `State state_play_music`. -/
def state_play_music : Nat := 3

/-- Address of the global `State state_play_note`. -/
def state_play_note : Nat := 4

/-- The macro `piezo_no_sinal`. -/
def piezo_no_sinal : Int := 0

/-- The macro `piezo_sinal`. -/
def piezo_sinal : Int := 1

/-- The macro `piezos_musical`. -/
def piezos_musical : Int := 2

/-- The macro `finish_sound`. -/
def finish_sound : Int := 3

/-- The global `Fsm soundFsm(&state_no_sound)`. -/
def soundFsm : Fsm := Fsm.ctor (some state_no_sound)

/-- The function `addTransitions`, as a function of the engine it registers on. -/
def addTransitions (m : Fsm) : Fsm :=
  let m1 := m.add_transition (some state_no_sound) (some state_piezo_verify) piezo_sinal none
  let m2 := m1.add_transition (some state_piezo_verify) (some state_no_sound) piezo_no_sinal none
  let m3 := m2.add_transition (some state_piezo_verify) (some state_play_music) piezos_musical none
  let m4 := m3.add_transition (some state_play_music) (some state_no_sound) finish_sound none
  let m5 := m4.add_transition (some state_piezo_verify) (some state_play_note) piezo_sinal none
  m5.add_transition (some state_play_note) (some state_no_sound) finish_sound none

/-- The array `scale_1`. -/
def scale_1 : List Int := [262, 294, 330, 349, 392]

/-- The array `scale_2`. -/
def scale_2 : List Int := [523, 587, 659, 698, 784]

/-- The array `scale_3`. -/
def scale_3 : List Int := [1047, 1175, 1319, 1397, 1568]

/-- Reading `a[n]` for an `int` index; `none` outside the array, where the read is
undefined behaviour. -/
def array_at (a : List Int) (n : Int) : Option Int :=
  if 0 ≤ n then a[n.toNat]? else none

/-- The function `scale`. -/
def scale (frequencyInHertz n_piezo : Int) : Option Int :=
  if frequencyInHertz ≥ 50 ∧ frequencyInHertz < 500 then array_at scale_1 n_piezo
  else if frequencyInHertz ≥ 501 ∧ frequencyInHertz < 800 then array_at scale_2 n_piezo
  else array_at scale_3 n_piezo

/-- The invariant behind "the current state is never null": both tables hold only
non-null states, and the current state is non-null and is the initial state or
the target of a registered event or timed transition. -/
def StateInv (initial : Nat) (w : World) : Prop :=
  (∀ t ∈ w.fsm.m_transitions, t.state_from ≠ none ∧ t.state_to ≠ none) ∧
  TimedWF w ∧
  w.fsm.m_current_state ≠ none ∧
  (w.fsm.m_current_state = some initial ∨
    (∃ t ∈ w.fsm.m_transitions, t.state_to = w.fsm.m_current_state) ∨
    ∃ tt ∈ w.fsm.m_timed_transitions, tt.transition.state_to = w.fsm.m_current_state)

/-- Every transition the engine has registered: the event table, then the
transitions of the timed table. -/
def registered (w : World) : List Transition :=
  w.fsm.m_transitions ++ w.fsm.m_timed_transitions.map (fun tt => tt.transition)

/-- The callback `c` is not the action of the transition `t` and not a callback of
its target state, unless the target is `S`. -/
def OtherCallbacks (env : Env) (S : Nat) (c : Callback) (t : Transition) : Prop :=
  t.on_transition ≠ some c ∧
  ∀ p, t.state_to = some p → p ≠ S →
    (env.heap p).on_enter ≠ some c ∧ (env.heap p).on_state ≠ some c ∧
      (env.heap p).on_exit ≠ some c

/-- The engine cannot invoke `c` any more: every registered transition has
non-null states, does not lead into `S`, and has callbacks other than `c`; the
current state is non-null and `c` is neither its `on_state` nor its `on_exit`. -/
def Apart (env : Env) (S : Nat) (c : Callback) (w : World) : Prop :=
  (∀ t ∈ registered w,
    (t.state_from ≠ none ∧ t.state_to ≠ none) ∧ t.state_to ≠ some S ∧
      OtherCallbacks env S c t) ∧
  ∃ p, w.fsm.m_current_state = some p ∧
    (env.heap p).on_state ≠ some c ∧ (env.heap p).on_exit ≠ some c

/-- Invariant of one call that started in world `base`, for a world `u` inside the
call with the scan at index `s`: the firing log has only grown, and either no
transition has been executed yet in this call, or the last one read the clock value
`t` now in `entered` and, if `t ≠ 0`, every timed transition out of the current
state has `start = t`, except the entry that fired last in this call (which
`check_timed_transitions` resets after the re-arming). -/
def EntryInv (base : World) (s : Nat) (u : World) : Prop :=
  (∃ rest, u.fired = base.fired ++ rest) ∧
  ((u.entered = base.entered ∧ u.fired = base.fired) ∨
    ∃ t, u.entered = some t ∧
      (t ≠ 0 → ∀ (k : Nat) (x : TimedTransition), u.fsm.m_timed_transitions[k]? = some x →
        x.transition.state_from = u.fsm.m_current_state →
        x.start = t ∨
          (k < s ∧ ∃ rest f, u.fired = base.fired ++ rest ++ [f] ∧ f.index = k ∧
            f.entry.transition = x.transition)))

/-! ## Concrete configurations used as inputs -/

/-- Three application states at addresses 1 (idle), 2 (verifying) and 3
(playing); the state at address `a` has callbacks `10a`, `10a+1`, `10a+2`. -/
def demoHeap (a : Nat) : State :=
  { on_enter := some (10 * a), on_state := some (10 * a + 1), on_exit := some (10 * a + 2) }

/-- The demo states with a clock that starts at 1000 and advances by 100 per
reading. -/
def demoEnv : Env := { heap := demoHeap, millis := fun k => 1000 + 100 * k }

/-- An initialized engine in state 1 whose event table has two entries for
`(state 1, event 1)`: first to state 2, then to state 3. -/
def dupWorld : World :=
  { fsm :=
      { m_current_state := some 1
        m_transitions := [⟨some 1, some 2, 1, some 7⟩, ⟨some 1, some 3, 1, some 8⟩]
        m_timed_transitions := []
        m_initialized := true }
    reads := 0
    trace := [10, 11]
    entered := none
    fired := [] }

/-- A heap in which every state defines only `on_enter` (callback 40). -/
def soloEnv : Env :=
  { heap := fun _ => { on_enter := some 40, on_state := none, on_exit := none }
    millis := fun k => 1000 + 100 * k }

/-- The demo states with a clock that reads 0 first and advances by 100 per
reading. -/
def zeroEnv : Env := { heap := demoHeap, millis := fun k => 100 * k }

/-- Setup of the timer scenario: event 1 leads from state 1 to state 2, and a
timed transition with interval 500 leads from state 2 back to state 1; then the
first `run_machine`. -/
def timerOps : List Op :=
  [.add_transition (some 1) (some 2) 1 none, .add_timed_transition (some 2) (some 1) 500 none,
   .run_machine]

/-- The world after `timerOps` on a fresh engine with initial state 1. -/
def timerWorld : World :=
  { fsm :=
      { m_current_state := some 1
        m_transitions := [⟨some 1, some 2, 1, none⟩]
        m_timed_transitions := [⟨⟨some 2, some 1, 0, none⟩, 0, 500⟩]
        m_initialized := true }
    reads := 0
    trace := [10, 11]
    entered := none
    fired := [] }

/-- The world after `trigger 1` on `timerWorld` when that call reads the clock
value 0: state 2 is current and its timer has `start = 0`. -/
def zeroWorld : World :=
  { fsm :=
      { m_current_state := some 2
        m_transitions := [⟨some 1, some 2, 1, none⟩]
        m_timed_transitions := [⟨⟨some 2, some 1, 0, none⟩, 0, 500⟩]
        m_initialized := true }
    reads := 1
    trace := [10, 11, 12, 20]
    entered := some 0
    fired := [] }

/-- The demo states with a non-decreasing clock that never wraps: 1000, 1100, ...
up to 11000, where it stays. -/
def boundedEnv : Env := { heap := demoHeap, millis := fun k => 1000 + 100 * min k 100 }

/-- The timer scenario run to its firing: setup, `trigger 1` (reading 1000) and
five `run_machine` calls (readings 1100 to 1500). -/
def firingOps : List Op :=
  timerOps ++ [.trigger 1, .run_machine, .run_machine, .run_machine, .run_machine, .run_machine]

/-- The world after `firingOps`: the timed transition fired in the fifth call,
at reading 1500, the state having been entered at reading 1000. -/
def firedWorld : World :=
  { fsm :=
      { m_current_state := some 1
        m_transitions := [⟨some 1, some 2, 1, none⟩]
        m_timed_transitions := [⟨⟨some 2, some 1, 0, none⟩, 0, 500⟩]
        m_initialized := true }
    reads := 7
    trace := [10, 11, 12, 20, 21, 21, 21, 21, 21, 22, 10]
    entered := some 1600
    fired := [⟨0, ⟨⟨some 2, some 1, 0, none⟩, 1000, 500⟩, 1500, some 1000⟩] }

/-- The world after `trigger 1` on `timerWorld` when that call reads the clock
value 1000: state 2 is current and its timer is armed with `start = 1000`. -/
def armedWorld : World :=
  { fsm :=
      { m_current_state := some 2
        m_transitions := [⟨some 1, some 2, 1, none⟩]
        m_timed_transitions := [⟨⟨some 2, some 1, 0, none⟩, 1000, 500⟩]
        m_initialized := true }
    reads := 1
    trace := [10, 11, 12, 20]
    entered := some 1000
    fired := [] }

/-- The calls that build `dupWorld` from a fresh engine. -/
def dupOps : List Op :=
  [.add_transition (some 1) (some 2) 1 (some 7), .add_transition (some 1) (some 3) 1 (some 8),
   .run_machine]

/-- The demo states with a clock that passes `2^32`: true times 4294967000,
4294967500, ... -/
def wrapEnv : Env := { heap := demoHeap, millis := fun k => 4294967000 + 500 * k }

/-- The world after `trigger 1` on `timerWorld` under `wrapEnv`: state 2 is
current and its timer is armed with `start = 4294967000`. -/
def wrapWorld : World :=
  { fsm :=
      { m_current_state := some 2
        m_transitions := [⟨some 1, some 2, 1, none⟩]
        m_timed_transitions := [⟨⟨some 2, some 1, 0, none⟩, 4294967000, 500⟩]
        m_initialized := true }
    reads := 1
    trace := [10, 11, 12, 20]
    entered := some 4294967000
    fired := [] }

/-- Setup with a way out of state 2 by an event: event 1 leads from state 1 to
state 2, event 2 leads back, and a timed transition with interval 500 leads from
state 2 to state 1; then the first `run_machine`, `trigger 1` and `trigger 2`. -/
def staleOps : List Op :=
  [.add_transition (some 1) (some 2) 1 none, .add_transition (some 2) (some 1) 2 none,
   .add_timed_transition (some 2) (some 1) 500 none, .run_machine, .trigger 1, .trigger 2]

/-- The world after `staleOps` under `demoEnv`: state 1 is current again, and the
timer out of state 2 still has the `start` of the entry into state 2. -/
def staleWorld : World :=
  { fsm :=
      { m_current_state := some 1
        m_transitions := [⟨some 1, some 2, 1, none⟩, ⟨some 2, some 1, 2, none⟩]
        m_timed_transitions := [⟨⟨some 2, some 1, 0, none⟩, 1000, 500⟩]
        m_initialized := true }
    reads := 2
    trace := [10, 11, 12, 20, 22, 10]
    entered := some 1100
    fired := [] }

/-- A fresh engine with initial state 1 and one timed self-loop on state 1 with
interval 500. -/
def selfLoopWorld : World :=
  { fsm :=
      { m_current_state := some 1
        m_transitions := []
        m_timed_transitions := [⟨⟨some 1, some 1, 0, none⟩, 0, 500⟩]
        m_initialized := false }
    reads := 0
    trace := []
    entered := none
    fired := [] }

/-- The world after two ticks on `selfLoopWorld`, at clock values 1000 (arming) and
1500 (firing). -/
def selfLoopFired : World :=
  { fsm :=
      { m_current_state := some 1
        m_transitions := []
        m_timed_transitions := [⟨⟨some 1, some 1, 0, none⟩, 0, 500⟩]
        m_initialized := true }
    reads := 3
    trace := [10, 11, 11, 12, 10]
    entered := some 1500
    fired := [⟨0, ⟨⟨some 1, some 1, 0, none⟩, 1000, 500⟩, 1500, none⟩] }

/-- Setup of a self-loop with interval 0 on the initial state, and the first
`run_machine`. -/
def zeroLoopOps : List Op :=
  [.add_timed_transition (some 1) (some 1) 0 none, .run_machine]

/-- The world after `zeroLoopOps` under `zeroEnv`, whose first reading is 0: the
engine is initialized and the arming at reading 0 left `start = 0`. -/
def zeroLoopWorld : World :=
  { fsm :=
      { m_current_state := some 1
        m_transitions := []
        m_timed_transitions := [⟨⟨some 1, some 1, 0, none⟩, 0, 0⟩]
        m_initialized := true }
    reads := 1
    trace := [10, 11]
    entered := none
    fired := [] }

/-- The world after one more `run_machine` on `zeroLoopWorld`, at reading 100: the
timer is armed, nothing fired. -/
def zeroLoopArmed : World :=
  { fsm :=
      { m_current_state := some 1
        m_transitions := []
        m_timed_transitions := [⟨⟨some 1, some 1, 0, none⟩, 100, 0⟩]
        m_initialized := true }
    reads := 2
    trace := [10, 11, 11]
    entered := none
    fired := [] }

/-- The demo states with a clock that starts at 1000 and advances by 500 per
reading. -/
def cascadeEnv : Env := { heap := demoHeap, millis := fun k => 1000 + 500 * k }

/-- Setup of the cascade: a timed transition from state 1 to state 2 with interval
500, then one from state 2 to state 3 with interval 0; then the first
`run_machine`. -/
def cascadeOps : List Op :=
  [.add_timed_transition (some 1) (some 2) 500 none,
   .add_timed_transition (some 2) (some 3) 0 none, .run_machine]

/-- The world after `cascadeOps` under `cascadeEnv`: state 1 is current and its
timer is armed with `start = 1000`. -/
def cascadeWorld : World :=
  { fsm :=
      { m_current_state := some 1
        m_transitions := []
        m_timed_transitions :=
          [⟨⟨some 1, some 2, 0, none⟩, 1000, 500⟩, ⟨⟨some 2, some 3, 0, none⟩, 0, 0⟩]
        m_initialized := true }
    reads := 1
    trace := [10, 11]
    entered := none
    fired := [] }

/-- A fresh engine with initial state 4 and one timed self-loop on state 4 with
interval 0. -/
def soloLoopWorld : World :=
  { fsm :=
      { m_current_state := some 4
        m_transitions := []
        m_timed_transitions := [⟨⟨some 4, some 4, 0, none⟩, 0, 0⟩]
        m_initialized := false }
    reads := 0
    trace := []
    entered := none
    fired := [] }

/-- The demo states, except that state 4 defines only `on_enter` (callback 40). -/
def enterOnlyEnv : Env :=
  { heap := fun a =>
      if a = 4 then { on_enter := some 40, on_state := none, on_exit := none } else demoHeap a
    millis := fun k => 1000 + 100 * k }

/-- A fresh engine with initial state 4, a timed transition with interval 0 from
state 4 to state 2, and event 1 leading from state 2 to state 3. -/
def leaveWorld : World :=
  { fsm :=
      { m_current_state := some 4
        m_transitions := [⟨some 2, some 3, 1, none⟩]
        m_timed_transitions := [⟨⟨some 4, some 2, 0, none⟩, 0, 0⟩]
        m_initialized := false }
    reads := 0
    trace := []
    entered := none
    fired := [] }

/-- The world after the first tick on `selfLoopWorld`, at clock value 1000: the
self-loop is armed with `start = 1000`. -/
def selfLoopArmed : World :=
  { fsm :=
      { m_current_state := some 1
        m_transitions := []
        m_timed_transitions := [⟨⟨some 1, some 1, 0, none⟩, 1000, 500⟩]
        m_initialized := true }
    reads := 1
    trace := [10, 11]
    entered := none
    fired := [] }

/-- Setup of a relay of two timed transitions, from state 1 to state 2 after 300
and from state 2 to state 3 after 500, and the first `run_machine`. -/
def relayOps : List Op :=
  [.add_timed_transition (some 1) (some 2) 300 none,
   .add_timed_transition (some 2) (some 3) 500 none, .run_machine]

/-- The world after `relayOps` on a fresh engine with initial state 1 when the
first call reads the clock value 1000. -/
def relayWorld : World :=
  { fsm :=
      { m_current_state := some 1
        m_transitions := []
        m_timed_transitions :=
          [⟨⟨some 1, some 2, 0, none⟩, 1000, 300⟩, ⟨⟨some 2, some 3, 0, none⟩, 0, 500⟩]
        m_initialized := true }
    reads := 1
    trace := [10, 11]
    entered := none
    fired := [] }

/-- The world after a `run_machine` call on `relayWorld` at clock value 1300: the
first timed transition fired and entered state 2, whose timer has `start = 1300`. -/
def relayEntered : World :=
  { fsm :=
      { m_current_state := some 2
        m_transitions := []
        m_timed_transitions :=
          [⟨⟨some 1, some 2, 0, none⟩, 0, 300⟩, ⟨⟨some 2, some 3, 0, none⟩, 1300, 500⟩]
        m_initialized := true }
    reads := 4
    trace := [10, 11, 11, 12, 20]
    entered := some 1300
    fired := [⟨0, ⟨⟨some 1, some 2, 0, none⟩, 1000, 300⟩, 1300, none⟩] }

/-- Identity of the function `no_sound`. -/
def no_sound : Callback := 101

/-- Identity of the function `piezo_check`. -/
def piezo_check : Callback := 102

/-- Identity of the function `piezo_identify`. -/
def piezo_identify : Callback := 103

/-- Identity of the function `piezo_identify_when`. -/
def piezo_identify_when : Callback := 104

/-- Identity of the function `play_song`. -/
def play_song : Callback := 105

/-- Identity of the function `after_play_song`. -/
def after_play_song : Callback := 106

/-- Identity of the function `play`. -/
def play : Callback := 107

/-- The four global `State` objects of the sketch, by address; none of them has an
`on_exit`. -/
def sketchHeap (a : Nat) : State :=
  if a = state_no_sound then
    { on_enter := some no_sound, on_state := some piezo_check, on_exit := none }
  else if a = state_piezo_verify then
    { on_enter := some piezo_identify, on_state := some piezo_identify_when, on_exit := none }
  else if a = state_play_music then
    { on_enter := some play_song, on_state := some after_play_song, on_exit := none }
  else
    { on_enter := some play, on_state := some after_play_song, on_exit := none }

/-- The states of the sketch with a clock that starts at 1000 and advances by 100
per reading. -/
def sketchEnv : Env := { heap := sketchHeap, millis := fun k => 1000 + 100 * k }

/-- The sketch after `setup()`: `soundFsm` with the table of `addTransitions`,
before the first `run_machine`. -/
def sketchWorld : World :=
  { fsm := addTransitions soundFsm, reads := 0, trace := [], entered := none, fired := [] }

/-! ## Auxiliary facts -/

/-- The first element satisfying `p` is the one at the smallest index that does. -/
theorem find_first_index {α : Type} (p : α → Bool) :
    ∀ (l : List α) (i : Nat) (x : α), l[i]? = some x → p x = true →
      (∀ j y, j < i → l[j]? = some y → p y = false) → l.find? p = some x := by
  intro l
  induction l with
  | nil => intro i x h; simp at h
  | cons a l ih =>
    intro i x h hp hmin
    cases i with
    | zero =>
      simp at h
      subst h
      simp [List.find?, hp]
    | succ i =>
      have ha : p a = false := hmin 0 a (Nat.succ_pos i) (by simp)
      simp only [List.getElem?_cons_succ] at h
      rw [List.find?_cons_of_neg _ (by simp [ha])]
      exact ih i x h hp (fun j y hj hy => hmin (j + 1) y (Nat.succ_lt_succ hj) (by simpa using hy))

/-- Before the first `run_machine`, `trigger` does nothing. -/
theorem trigger_uninitialized (env : Env) (event : Int) (w : World)
    (h : w.fsm.m_initialized = false) : trigger env event w = some w := by
  simp [trigger, h]

/-- Without a matching entry in the event table, `trigger` does nothing. -/
theorem trigger_no_match (env : Env) (event : Int) (w : World)
    (h : ∀ t ∈ w.fsm.m_transitions,
      ¬ (t.state_from = w.fsm.m_current_state ∧ t.event = event)) :
    trigger env event w = some w := by
  unfold trigger
  have hf : w.fsm.m_transitions.find?
      (fun t => decide (t.state_from = w.fsm.m_current_state ∧ t.event = event)) = none := by
    rw [List.find?_eq_none]
    intro t ht
    simpa using h t ht
  rw [hf]
  split <;> rfl

/-- With `T` the first matching entry of the event table of an initialized
engine, `trigger` is `make_transition` on `T`. -/
theorem trigger_first_match (env : Env) (w : World) (i : Nat) (T : Transition)
    (hinit : w.fsm.m_initialized = true)
    (hT : w.fsm.m_transitions[i]? = some T)
    (hfrom : T.state_from = w.fsm.m_current_state)
    (hmin : ∀ j U, j < i → w.fsm.m_transitions[j]? = some U →
      ¬ (U.state_from = w.fsm.m_current_state ∧ U.event = T.event)) :
    trigger env T.event w = make_transition env T w := by
  unfold trigger
  rw [if_pos hinit]
  have hf := find_first_index
    (fun t => decide (t.state_from = w.fsm.m_current_state ∧ t.event = T.event))
    w.fsm.m_transitions i T hT (by simp [hfrom])
    (fun j y hj hy => by simpa using hmin j y hj hy)
  rw [hf]

/-- What `make_transition` produces when both states of the transition are
non-null. -/
theorem make_transition_some (env : Env) (T : Transition) (w : World) (a b : Nat)
    (ha : T.state_from = some a) (hb : T.state_to = some b) :
    make_transition env T w = some
      { fsm := { m_current_state := some b
                 m_transitions := w.fsm.m_transitions
                 m_timed_transitions :=
                   arm_all (some b) (env.millis w.reads % ULONG_RANGE) w.fsm.m_timed_transitions
                 m_initialized := w.fsm.m_initialized }
        reads := w.reads + 1
        trace := w.trace ++ ((env.heap a).on_exit.toList ++ T.on_transition.toList
          ++ (env.heap b).on_enter.toList)
        entered := some (env.millis w.reads % ULONG_RANGE)
        fired := w.fired } := by
  unfold make_transition
  rw [ha, hb]
  simp only [deref, millis]
  cases (env.heap a).on_exit <;> cases T.on_transition <;> cases (env.heap b).on_enter <;>
    simp [invoke]

/-- The world `timerWorld` is reached from a fresh engine by `timerOps`, and
`zeroWorld` from it by a `trigger 1` that reads the clock value 0. -/
theorem zeroWorld_reachable :
    exec zeroEnv timerOps (World.boot (some 1)) = some timerWorld ∧
    trigger zeroEnv 1 timerWorld = some zeroWorld := by
  decide

/-- The world `armedWorld` is reached from `timerWorld` by a `trigger 1` that reads
the clock value 1000. -/
theorem armedWorld_reachable :
    exec demoEnv timerOps (World.boot (some 1)) = some timerWorld ∧
    trigger demoEnv 1 timerWorld = some armedWorld := by
  decide

/-- The world `dupWorld` is reached from a fresh engine by `dupOps`. -/
theorem dupWorld_reachable : exec demoEnv dupOps (World.boot (some 1)) = some dupWorld := by
  decide

/-- Registration calls and `trigger` calls on an engine that is not initialized
succeed and leave it un-initialized, in the same state and with the same trace. -/
theorem exec_before_first_run (env : Env) :
    ∀ (ops : List Op) (w : World), Op.run_machine ∉ ops → w.fsm.m_initialized = false →
      ∃ w1, exec env ops w = some w1 ∧ w1.fsm.m_current_state = w.fsm.m_current_state ∧
        w1.fsm.m_initialized = false ∧ w1.trace = w.trace ∧ w1.reads = w.reads := by
  intro ops
  induction ops with
  | nil => intro w _ h; exact ⟨w, rfl, rfl, h, rfl, rfl⟩
  | cons op ops ih =>
    intro w hno hinit
    have hno1 : Op.run_machine ∉ ops := fun hm => hno (List.mem_cons_of_mem _ hm)
    cases op with
    | add_transition a b e f =>
      have hi : ({ w with fsm := w.fsm.add_transition a b e f } : World).fsm.m_initialized
          = false := by
        simp only [Fsm.add_transition]; split <;> simpa using hinit
      obtain ⟨w1, h1, h2, h3, h4, h5⟩ := ih _ hno1 hi
      refine ⟨w1, by simpa [exec, step] using h1, ?_, h3, h4, h5⟩
      rw [h2]; simp only [Fsm.add_transition]; split <;> rfl
    | add_timed_transition a b iv f =>
      have hi : ({ w with fsm := w.fsm.add_timed_transition a b iv f } : World).fsm.m_initialized
          = false := by
        simp only [Fsm.add_timed_transition]; split <;> simpa using hinit
      obtain ⟨w1, h1, h2, h3, h4, h5⟩ := ih _ hno1 hi
      refine ⟨w1, by simpa [exec, step] using h1, ?_, h3, h4, h5⟩
      rw [h2]; simp only [Fsm.add_timed_transition]; split <;> rfl
    | trigger e =>
      obtain ⟨w1, h1, h2, h3, h4, h5⟩ := ih w hno1 hinit
      exact ⟨w1, by simpa [exec, step, trigger_uninitialized env e w hinit] using h1,
        h2, h3, h4, h5⟩
    | run_machine => exact absurd (List.mem_cons_self _ _) hno

/-! ## The timed scan -/

theorem check_timed_step_skip (env : Env) (i : Nat) (w : World)
    (h : ∀ tt, w.fsm.m_timed_transitions[i]? = some tt →
      tt.transition.state_from ≠ w.fsm.m_current_state) :
    check_timed_step env i w = some w := by
  unfold check_timed_step
  cases hi : w.fsm.m_timed_transitions[i]? with
  | none => rfl
  | some tt => simp [h tt hi]

theorem check_timed_step_wait (env : Env) (i : Nat) (w : World) (tt : TimedTransition)
    (h : w.fsm.m_timed_transitions[i]? = some tt)
    (hfrom : tt.transition.state_from = w.fsm.m_current_state)
    (harmed : tt.start ≠ 0)
    (hnot : usub (env.millis w.reads % ULONG_RANGE) tt.start < tt.interval) :
    check_timed_step env i w = some { w with reads := w.reads + 1 } := by
  unfold check_timed_step
  simp [h, hfrom, harmed, millis, Nat.not_le.mpr hnot]

theorem check_timed_step_arm (env : Env) (i : Nat) (w : World) (tt : TimedTransition)
    (h : w.fsm.m_timed_transitions[i]? = some tt)
    (hfrom : tt.transition.state_from = w.fsm.m_current_state)
    (hstart : tt.start = 0) :
    check_timed_step env i w
      = some (set_start i (env.millis w.reads % ULONG_RANGE) { w with reads := w.reads + 1 }) := by
  unfold check_timed_step
  simp [h, hfrom, hstart, millis]

theorem check_timed_step_fire (env : Env) (i : Nat) (w : World) (tt : TimedTransition)
    (h : w.fsm.m_timed_transitions[i]? = some tt)
    (hfrom : tt.transition.state_from = w.fsm.m_current_state)
    (harmed : tt.start ≠ 0)
    (hdue : tt.interval ≤ usub (env.millis w.reads % ULONG_RANGE) tt.start) :
    check_timed_step env i w
      = (make_transition env tt.transition
          { w with
            reads := w.reads + 1
            fired := w.fired ++
              [{ index := i, entry := tt, now := env.millis w.reads % ULONG_RANGE,
                 since := w.entered }] }).map (set_start i 0) := by
  unfold check_timed_step
  simp only [h, hfrom, harmed, millis, if_true, if_false, ge_iff_le, hdue]
  split <;> simp_all

theorem rank_succ_skip (w : World) (i : Nat)
    (h : ∀ tt, w.fsm.m_timed_transitions[i]? = some tt →
      tt.transition.state_from ≠ w.fsm.m_current_state) :
    rank w (i + 1) = rank w i := by
  unfold rank
  rw [List.take_succ, List.countP_append]
  cases hi : w.fsm.m_timed_transitions[i]? with
  | none => simp
  | some tt => simp [h tt hi]

theorem rank_succ_match (w : World) (i : Nat) (tt : TimedTransition)
    (hi : w.fsm.m_timed_transitions[i]? = some tt)
    (h : tt.transition.state_from = w.fsm.m_current_state) :
    rank w (i + 1) = rank w i + 1 := by
  unfold rank
  rw [List.take_succ, List.countP_append, hi]
  simp [h]

/-- The loop for `n + m` iterations is the loop for `n` iterations followed by
the loop for `m` more. -/
theorem check_timed_loop_add (env : Env) (m : Nat) :
    ∀ (n i : Nat) (w : World),
      check_timed_loop env (n + m) i w
        = (check_timed_loop env n i w).bind (check_timed_loop env m (i + n)) := by
  intro n
  induction n with
  | zero => intro i w; simp [check_timed_loop]
  | succ n ih =>
    intro i w
    rw [Nat.add_right_comm n 1 m]
    simp only [check_timed_loop]
    cases check_timed_step env i w with
    | none => rfl
    | some w1 =>
      simp only
      rw [ih (i + 1) w1, show i + 1 + n = i + (n + 1) by omega]

/-- A stretch of the scan in which every entry out of the current state is armed
and not due at the reading taken for it only counts clock reads. -/
theorem check_timed_loop_idle (env : Env) (w : World) :
    ∀ (n i : Nat),
      (∀ k tt, i ≤ k → k < i + n → w.fsm.m_timed_transitions[k]? = some tt →
        tt.transition.state_from = w.fsm.m_current_state →
        tt.start ≠ 0 ∧
          usub (env.millis (w.reads + rank w k) % ULONG_RANGE) tt.start < tt.interval) →
      check_timed_loop env n i { w with reads := w.reads + rank w i }
        = some { w with reads := w.reads + rank w (i + n) } := by
  intro n
  induction n with
  | zero => intro i _; rfl
  | succ n ih =>
    intro i h
    have hrest := ih (i + 1) (fun k tt hk1 hk2 => h k tt (by omega) (by omega))
    rw [show i + 1 + n = i + (n + 1) by omega] at hrest
    simp only [check_timed_loop]
    by_cases hm : ∃ tt, w.fsm.m_timed_transitions[i]? = some tt ∧
        tt.transition.state_from = w.fsm.m_current_state
    · obtain ⟨tt, hi, hfrom⟩ := hm
      obtain ⟨harmed, hnot⟩ := h i tt (Nat.le_refl i) (by omega) hi hfrom
      rw [check_timed_step_wait env i { w with reads := w.reads + rank w i } tt hi hfrom
        harmed hnot]
      simp only
      rw [rank_succ_match w i tt hi hfrom, ← Nat.add_assoc] at hrest
      exact hrest
    · have hskip : ∀ tt, w.fsm.m_timed_transitions[i]? = some tt →
          tt.transition.state_from ≠ w.fsm.m_current_state :=
        fun tt hi hfrom => hm ⟨tt, hi, hfrom⟩
      rw [check_timed_step_skip env i { w with reads := w.reads + rank w i } hskip]
      simp only
      rw [rank_succ_skip w i hskip] at hrest
      exact hrest

theorem rank_zero (w : World) : rank w 0 = 0 := by
  simp [rank]

/-- The rank does not count anything when no entry leaves the current state. -/
theorem rank_eq_zero (w : World) (i : Nat)
    (h : ∀ tt ∈ w.fsm.m_timed_transitions,
      tt.transition.state_from ≠ w.fsm.m_current_state) : rank w i = 0 := by
  unfold rank
  rw [List.countP_eq_zero]
  intro tt htt
  simpa using h tt (List.mem_of_mem_take htt)

/-- A `run_machine` call in which every timed transition out of the current state
is armed and not due at the reading taken for it: the first call marks the engine
initialized and runs `on_enter`, every call runs `on_state`, and the scan only
reads the clock. -/
theorem run_machine_idle (env : Env) (w : World) (cur : Nat)
    (hcur : w.fsm.m_current_state = some cur)
    (hidle : ∀ k tt, w.fsm.m_timed_transitions[k]? = some tt →
      tt.transition.state_from = some cur →
      tt.start ≠ 0 ∧
        usub (env.millis (w.reads + rank w k) % ULONG_RANGE) tt.start < tt.interval) :
    run_machine env w = some
      { fsm := { w.fsm with m_initialized := true }
        reads := w.reads + rank w w.fsm.m_timed_transitions.length
        trace := w.trace ++ ((if w.fsm.m_initialized then [] else (env.heap cur).on_enter.toList)
          ++ (env.heap cur).on_state.toList)
        entered := w.entered
        fired := w.fired } := by
  unfold run_machine
  rw [hcur]
  simp only [deref]
  generalize hw2 : invoke (env.heap cur).on_state
    (if w.fsm.m_initialized = true then w
     else invoke (env.heap cur).on_enter
       { w with fsm := { w.fsm with m_initialized := true } }) = w2
  have hfsm : w2.fsm = { w.fsm with m_initialized := true } := by
    subst hw2
    cases hi : w.fsm.m_initialized <;> cases (env.heap cur).on_state <;>
      cases (env.heap cur).on_enter <;> simp [invoke] <;>
      (cases w with | mk f r t e fi => cases f; simp_all)
  have hreads : w2.reads = w.reads := by
    subst hw2
    cases hi : w.fsm.m_initialized <;> cases (env.heap cur).on_state <;>
      cases (env.heap cur).on_enter <;> simp [invoke]
  have hent : w2.entered = w.entered := by
    subst hw2
    cases hi : w.fsm.m_initialized <;> cases (env.heap cur).on_state <;>
      cases (env.heap cur).on_enter <;> simp [invoke]
  have hfired : w2.fired = w.fired := by
    subst hw2
    cases hi : w.fsm.m_initialized <;> cases (env.heap cur).on_state <;>
      cases (env.heap cur).on_enter <;> simp [invoke]
  have htrace : w2.trace = w.trace ++
      ((if w.fsm.m_initialized then [] else (env.heap cur).on_enter.toList)
        ++ (env.heap cur).on_state.toList) := by
    subst hw2
    cases hi : w.fsm.m_initialized <;> cases (env.heap cur).on_state <;>
      cases (env.heap cur).on_enter <;> simp [invoke]
  have hrank : ∀ k, rank w2 k = rank w k := by
    intro k; simp [rank, hfsm]
  have hloop := check_timed_loop_idle env w2 w2.fsm.m_timed_transitions.length 0
    (fun k tt _ _ hk hfrom => by
      rw [hfsm] at hk hfrom
      rw [hreads, hrank]
      exact hidle k tt hk (by rw [hfrom, hcur]))
  rw [rank_zero] at hloop
  unfold check_timed_transitions
  have hw2eta : ({ w2 with reads := w2.reads + 0 } : World) = w2 := by cases w2; rfl
  rw [hw2eta] at hloop
  rw [hloop, Nat.zero_add, hrank, hreads, htrace, hent, hfired, hfsm]

theorem timedWF_set_start (i v : Nat) (w : World) (hwf : TimedWF w) :
    TimedWF (set_start i v w) := by
  unfold set_start
  cases hi : w.fsm.m_timed_transitions[i]? with
  | none => exact hwf
  | some tt =>
    intro x hx
    rcases List.mem_or_eq_of_mem_set hx with hx | hx
    · exact hwf x hx
    · subst hx
      exact hwf tt (List.mem_iff_getElem?.mpr ⟨i, hi⟩)

theorem fired_set_start (i v : Nat) (w : World) : (set_start i v w).fired = w.fired := by
  unfold set_start
  cases w.fsm.m_timed_transitions[i]? <;> rfl

theorem timedWF_arm_all (cur : StatePtr) (now : Nat) (tts : List TimedTransition)
    (h : ∀ tt ∈ tts, tt.transition.state_from ≠ none ∧ tt.transition.state_to ≠ none) :
    ∀ tt ∈ arm_all cur now tts,
      tt.transition.state_from ≠ none ∧ tt.transition.state_to ≠ none := by
  intro tt htt
  unfold arm_all at htt
  rw [List.mem_map] at htt
  obtain ⟨x, hx, rfl⟩ := htt
  split
  · exact h x hx
  · exact h x hx

/-- One iteration of the scan on a well-formed timed table succeeds, keeps the
table well-formed and only extends the firing log. -/
theorem check_timed_step_total (env : Env) (i : Nat) (w : World) (hwf : TimedWF w) :
    ∃ w1, check_timed_step env i w = some w1 ∧ TimedWF w1 ∧
      ∃ rest, w1.fired = w.fired ++ rest := by
  cases hi : w.fsm.m_timed_transitions[i]? with
  | none =>
    exact ⟨w, check_timed_step_skip env i w (fun tt h => by rw [hi] at h; cases h), hwf, [],
      by simp⟩
  | some tt =>
    by_cases hfrom : tt.transition.state_from = w.fsm.m_current_state
    · by_cases hstart : tt.start = 0
      · refine ⟨_, check_timed_step_arm env i w tt hi hfrom hstart, ?_, [], ?_⟩
        · exact timedWF_set_start i _ _ hwf
        · rw [fired_set_start]; simp
      · by_cases hdue : tt.interval ≤ usub (env.millis w.reads % ULONG_RANGE) tt.start
        · have hmem : tt ∈ w.fsm.m_timed_transitions := List.mem_iff_getElem?.mpr ⟨i, hi⟩
          obtain ⟨hne1, hne2⟩ := hwf tt hmem
          obtain ⟨a, ha⟩ := Option.ne_none_iff_exists'.mp hne1
          obtain ⟨b, hb⟩ := Option.ne_none_iff_exists'.mp hne2
          rw [check_timed_step_fire env i w tt hi hfrom hstart hdue,
            make_transition_some env tt.transition _ a b ha hb]
          refine ⟨_, rfl, ?_,
            [Firing.mk i tt (env.millis w.reads % ULONG_RANGE) w.entered], ?_⟩
          · apply timedWF_set_start
            exact timedWF_arm_all _ _ _ hwf
          · rw [fired_set_start]
        · exact ⟨_, check_timed_step_wait env i w tt hi hfrom hstart (Nat.not_le.mp hdue),
            hwf, [], by simp⟩
    · exact ⟨w, check_timed_step_skip env i w (fun x h => by rw [hi] at h; cases h; exact hfrom),
        hwf, [], by simp⟩

/-- The scan on a well-formed timed table succeeds, keeps the table well-formed
and only extends the firing log. -/
theorem check_timed_loop_total (env : Env) :
    ∀ (n i : Nat) (w : World), TimedWF w →
      ∃ w1, check_timed_loop env n i w = some w1 ∧ TimedWF w1 ∧
        ∃ rest, w1.fired = w.fired ++ rest := by
  intro n
  induction n with
  | zero => intro i w hwf; exact ⟨w, rfl, hwf, [], by simp⟩
  | succ n ih =>
    intro i w hwf
    obtain ⟨w1, h1, hwf1, r1, hr1⟩ := check_timed_step_total env i w hwf
    obtain ⟨w2, h2, hwf2, r2, hr2⟩ := ih (i + 1) w1 hwf1
    refine ⟨w2, ?_, hwf2, r1 ++ r2, ?_⟩
    · simp only [check_timed_loop, h1, h2]
    · rw [hr2, hr1, List.append_assoc]

/-- The scan fires the first entry out of the current state that is armed and due,
when the entries before it are armed and not due; the firing is the next record
of the log. -/
theorem check_timed_transitions_fires (env : Env) (v : World) (j : Nat) (x : TimedTransition)
    (hwf : TimedWF v)
    (hj : v.fsm.m_timed_transitions[j]? = some x)
    (hfrom : x.transition.state_from = v.fsm.m_current_state)
    (harmed : x.start ≠ 0)
    (hbefore : ∀ k y, k < j → v.fsm.m_timed_transitions[k]? = some y →
      y.transition.state_from = v.fsm.m_current_state →
      y.start ≠ 0 ∧
        usub (env.millis (v.reads + rank v k) % ULONG_RANGE) y.start < y.interval)
    (hdue : x.interval ≤ usub (env.millis (v.reads + rank v j) % ULONG_RANGE) x.start) :
    ∃ v1 rest, check_timed_transitions env v = some v1 ∧
      v1.fired = v.fired ++
        Firing.mk j x (env.millis (v.reads + rank v j) % ULONG_RANGE) v.entered :: rest := by
  have hlen : j < v.fsm.m_timed_transitions.length := (List.getElem?_eq_some.mp hj).1
  obtain ⟨m, hm⟩ : ∃ m, v.fsm.m_timed_transitions.length = j + (m + 1) :=
    ⟨v.fsm.m_timed_transitions.length - j - 1, by omega⟩
  have hpre := check_timed_loop_idle env v j 0
    (fun k y _ hk hky hyf => hbefore k y (by omega) hky hyf)
  rw [rank_zero, Nat.zero_add] at hpre
  have hveta : ({ v with reads := v.reads + 0 } : World) = v := by cases v; rfl
  rw [hveta] at hpre
  unfold check_timed_transitions
  rw [hm, check_timed_loop_add, hpre, Nat.zero_add]
  simp only [Option.some_bind, check_timed_loop]
  have hne1 := hwf x (List.mem_iff_getElem?.mpr ⟨j, hj⟩)
  obtain ⟨a, ha⟩ := Option.ne_none_iff_exists'.mp hne1.1
  obtain ⟨b, hb⟩ := Option.ne_none_iff_exists'.mp hne1.2
  rw [check_timed_step_fire env j { v with reads := v.reads + rank v j } x hj hfrom harmed hdue,
    make_transition_some env x.transition _ a b ha hb]
  simp only [Option.map_some']
  have hwf4 : TimedWF (set_start j 0
      { fsm := { m_current_state := some b
                 m_transitions := v.fsm.m_transitions
                 m_timed_transitions :=
                   arm_all (some b) (env.millis (v.reads + rank v j + 1) % ULONG_RANGE)
                     v.fsm.m_timed_transitions
                 m_initialized := v.fsm.m_initialized }
        reads := v.reads + rank v j + 1 + 1
        trace := v.trace ++ ((env.heap a).on_exit.toList ++ x.transition.on_transition.toList
          ++ (env.heap b).on_enter.toList)
        entered := some (env.millis (v.reads + rank v j + 1) % ULONG_RANGE)
        fired := v.fired ++
          [Firing.mk j x (env.millis (v.reads + rank v j) % ULONG_RANGE) v.entered] }) := by
    apply timedWF_set_start
    exact timedWF_arm_all _ _ _ hwf
  obtain ⟨v1, h1, _, rest, hrest⟩ := check_timed_loop_total env m (j + 1) _ hwf4
  refine ⟨v1, rest, h1, ?_⟩
  rw [hrest, fired_set_start]
  simp

/-- What the prologue of `run_machine` does on an initialized engine. -/
theorem run_machine_initialized (env : Env) (v : World) (cur : Nat)
    (hcur : v.fsm.m_current_state = some cur) (hinit : v.fsm.m_initialized = true) :
    run_machine env v = check_timed_transitions env
      { v with trace := v.trace ++ (env.heap cur).on_state.toList } := by
  unfold run_machine
  rw [hcur]
  simp only [deref, hinit, if_true]
  cases (env.heap cur).on_state with
  | none =>
    simp only [invoke, Option.toList, List.append_nil]
  | some c => simp only [invoke, Option.toList]

/-- A `run_machine` call on an initialized engine fires the first timed
transition out of the current state that is armed and due, when the entries
before it are armed and not due. -/
theorem run_machine_fires (env : Env) (v : World) (cur j : Nat) (x : TimedTransition)
    (hcur : v.fsm.m_current_state = some cur) (hinit : v.fsm.m_initialized = true)
    (hwf : TimedWF v)
    (hj : v.fsm.m_timed_transitions[j]? = some x)
    (hfrom : x.transition.state_from = some cur)
    (harmed : x.start ≠ 0)
    (hbefore : ∀ k y, k < j → v.fsm.m_timed_transitions[k]? = some y →
      y.transition.state_from = some cur →
      y.start ≠ 0 ∧
        usub (env.millis (v.reads + rank v k) % ULONG_RANGE) y.start < y.interval)
    (hdue : x.interval ≤ usub (env.millis (v.reads + rank v j) % ULONG_RANGE) x.start) :
    ∃ v1 rest, run_machine env v = some v1 ∧
      v1.fired = v.fired ++
        Firing.mk j x (env.millis (v.reads + rank v j) % ULONG_RANGE) v.entered :: rest := by
  rw [run_machine_initialized env v cur hcur hinit]
  exact check_timed_transitions_fires env
    { v with trace := v.trace ++ (env.heap cur).on_state.toList } j x hwf hj
    (by rw [hfrom]; exact hcur.symm) harmed
    (fun k y hk hky hyf => hbefore k y hk hky (by rw [hyf]; exact hcur)) hdue

/-- Ticks at which every timed transition out of the current state is armed and
not due leave the engine, the entry moment and the firing log unchanged. -/
theorem run_ticks_idle (heap : Nat → State) (cur : Nat) :
    ∀ (cs : List Nat) (v : World), v.fsm.m_current_state = some cur →
      v.fsm.m_initialized = true →
      (∀ c ∈ cs, ∀ (k : Nat) (x : TimedTransition), v.fsm.m_timed_transitions[k]? = some x →
        x.transition.state_from = some cur →
        x.start ≠ 0 ∧ usub (c % ULONG_RANGE) x.start < x.interval) →
      ∃ v1, run_ticks heap cs v = some v1 ∧ v1.fsm = v.fsm ∧ v1.fired = v.fired ∧
        v1.entered = v.entered := by
  intro cs
  induction cs with
  | nil => intro v _ _ _; exact ⟨v, rfl, rfl, rfl, rfl⟩
  | cons c cs ih =>
    intro v hcur hinit hidle
    have hfsm : ({ v.fsm with m_initialized := true } : Fsm) = v.fsm := by
      cases hv : v.fsm with
      | mk a b c d => rw [hv] at hinit; simp at hinit; simp [hinit]
    have h1 := run_machine_idle { heap := heap, millis := fun _ => c } v cur hcur
      (fun k x hk hx => hidle c (List.mem_cons_self _ _) k x hk hx)
    rw [hfsm] at h1
    obtain ⟨v1, h2, h3, h4, h5⟩ := ih
      ⟨v.fsm, v.reads + rank v v.fsm.m_timed_transitions.length,
        v.trace ++ ((if v.fsm.m_initialized then []
          else (heap cur).on_enter.toList) ++ (heap cur).on_state.toList),
        v.entered, v.fired⟩
      hcur hinit (fun c1 hc1 => hidle c1 (List.mem_cons_of_mem _ hc1))
    refine ⟨v1, ?_, h3, h4, h5⟩
    simp only [run_ticks, h1]
    exact h2

theorem arm_all_getElem? (cur : StatePtr) (now : Nat) (tts : List TimedTransition) (k : Nat) :
    (arm_all cur now tts)[k]? = (tts[k]?).map
      (fun tt => if tt.transition.state_from = cur then { tt with start := now } else tt) := by
  simp [arm_all]

/-- An entry of the re-armed table whose source is the entered state is the old
entry at that index with `start` set to the reading. -/
theorem arm_all_entered (cur : StatePtr) (now : Nat) (tts : List TimedTransition) (k : Nat)
    (x : TimedTransition) (hk : (arm_all cur now tts)[k]? = some x)
    (hx : x.transition.state_from = cur) :
    ∃ y, tts[k]? = some y ∧ y.transition.state_from = cur ∧ x = { y with start := now } := by
  rw [arm_all_getElem?] at hk
  cases hy : tts[k]? with
  | none => rw [hy] at hk; simp at hk
  | some y =>
    rw [hy] at hk
    simp only [Option.map_some', Option.some.injEq] at hk
    by_cases hyf : y.transition.state_from = cur
    · rw [if_pos hyf] at hk
      exact ⟨y, rfl, hyf, hk.symm⟩
    · rw [if_neg hyf] at hk
      subst hk
      exact absurd hx hyf

/-! ## The residency invariant -/

theorem make_transition_eq_some (env : Env) (T : Transition) (w w1 : World)
    (h : make_transition env T w = some w1) :
    ∃ a b, T.state_from = some a ∧ T.state_to = some b := by
  unfold make_transition at h
  cases ha : T.state_from with
  | none => simp [ha, deref] at h
  | some a =>
    cases hb : T.state_to with
    | none => simp [ha, hb, deref] at h
    | some b => exact ⟨a, b, rfl, rfl⟩

theorem timerInv_make_transition (env : Env) (hmono : Monotone env.millis)
    (hrange : ∀ k, env.millis k < ULONG_RANGE) (T : Transition) (w w1 : World)
    (hfired : ∀ f ∈ w.fired, GoodFiring env f)
    (h : make_transition env T w = some w1) : TimerInv env w1 := by
  obtain ⟨a, b, ha, hb⟩ := make_transition_eq_some env T w w1 h
  rw [make_transition_some env T w a b ha hb] at h
  injection h with h
  subst h
  have hnow : env.millis w.reads % ULONG_RANGE = env.millis w.reads :=
    Nat.mod_eq_of_lt (hrange w.reads)
  refine ⟨?_, ?_, hfired⟩
  · intro k hk
    simp only [entered_at, Option.getD_some, hnow]
    exact hmono (Nat.le_of_succ_le hk)
  · intro tt htt hfrom _
    simp only [arm_all, List.mem_map] at htt
    obtain ⟨x, _, hx⟩ := htt
    by_cases hxf : x.transition.state_from = some b
    · rw [if_pos hxf] at hx
      subst hx
      simp only [entered_at, Option.getD_some, hnow]
      refine ⟨Nat.le_refl _, fun k hk => hmono (Nat.le_of_succ_le hk)⟩
    · rw [if_neg hxf] at hx
      subst hx
      exact absurd hfrom hxf

theorem timerInv_trigger (env : Env) (hmono : Monotone env.millis)
    (hrange : ∀ k, env.millis k < ULONG_RANGE) (event : Int) (w w1 : World)
    (hinv : TimerInv env w) (h : trigger env event w = some w1) : TimerInv env w1 := by
  unfold trigger at h
  split at h
  · split at h
    · exact timerInv_make_transition env hmono hrange _ w w1 hinv.2.2 h
    · injection h with h; subst h; exact hinv
  · injection h with h; subst h; exact hinv

theorem timerInv_set_start (env : Env) (i v : Nat) (w : World)
    (hv : v ≠ 0 → entered_at env w.entered ≤ v ∧ ∀ k, w.reads ≤ k → v ≤ env.millis k)
    (hinv : TimerInv env w) : TimerInv env (set_start i v w) := by
  unfold set_start
  cases hi : w.fsm.m_timed_transitions[i]? with
  | none => exact hinv
  | some tt =>
    refine ⟨hinv.1, ?_, hinv.2.2⟩
    intro x hx hfrom hne
    rcases List.mem_or_eq_of_mem_set hx with hx | hx
    · exact hinv.2.1 x hx hfrom hne
    · subst hx
      exact hv hne

theorem timerInv_more_reads (env : Env) (w : World) (hinv : TimerInv env w) :
    TimerInv env { w with reads := w.reads + 1 } := by
  refine ⟨fun k hk => hinv.1 k (Nat.le_of_succ_le hk), ?_, hinv.2.2⟩
  intro tt htt hfrom hne
  obtain ⟨h1, h2⟩ := hinv.2.1 tt htt hfrom hne
  exact ⟨h1, fun k hk => h2 k (Nat.le_of_succ_le hk)⟩

theorem timerInv_step (env : Env) (hmono : Monotone env.millis)
    (hrange : ∀ k, env.millis k < ULONG_RANGE) (i : Nat) (w w1 : World)
    (hinv : TimerInv env w) (h : check_timed_step env i w = some w1) : TimerInv env w1 := by
  have hnow : env.millis w.reads % ULONG_RANGE = env.millis w.reads :=
    Nat.mod_eq_of_lt (hrange w.reads)
  cases hi : w.fsm.m_timed_transitions[i]? with
  | none =>
    rw [check_timed_step_skip env i w (fun tt h => by rw [hi] at h; cases h)] at h
    injection h with h; subst h; exact hinv
  | some tt =>
    by_cases hfrom : tt.transition.state_from = w.fsm.m_current_state
    · by_cases hstart : tt.start = 0
      · rw [check_timed_step_arm env i w tt hi hfrom hstart] at h
        injection h with h; subst h
        apply timerInv_set_start
        · intro _
          rw [hnow]
          exact ⟨hinv.1 _ (Nat.le_refl _), fun k hk => hmono (Nat.le_of_succ_le hk)⟩
        · exact timerInv_more_reads env w hinv
      · by_cases hdue : tt.interval ≤ usub (env.millis w.reads % ULONG_RANGE) tt.start
        · rw [check_timed_step_fire env i w tt hi hfrom hstart hdue] at h
          have hmem : tt ∈ w.fsm.m_timed_transitions := List.mem_iff_getElem?.mpr ⟨i, hi⟩
          obtain ⟨hE, hle⟩ := hinv.2.1 tt hmem hfrom hstart
          have hle1 := hle w.reads (Nat.le_refl _)
          have hlt := hrange w.reads
          have hgood : GoodFiring env
              ⟨i, tt, env.millis w.reads % ULONG_RANGE, w.entered⟩ := by
            rw [hnow] at hdue ⊢
            refine ⟨hE, hle1, ?_⟩
            simp only
            unfold usub at hdue
            unfold ULONG_RANGE at hdue hlt
            omega
          cases hm : make_transition env tt.transition
              { w with
                reads := w.reads + 1
                fired := w.fired ++ [⟨i, tt, env.millis w.reads % ULONG_RANGE, w.entered⟩] } with
          | none => rw [hm] at h; simp at h
          | some w3 =>
            rw [hm] at h
            simp only [Option.map_some'] at h
            injection h with h; subst h
            apply timerInv_set_start
            · intro h0; exact absurd rfl h0
            · apply timerInv_make_transition env hmono hrange _ _ _ _ hm
              intro f hf
              simp only [List.mem_append, List.mem_singleton] at hf
              rcases hf with hf | hf
              · exact hinv.2.2 f hf
              · subst hf; exact hgood
        · rw [check_timed_step_wait env i w tt hi hfrom hstart (Nat.not_le.mp hdue)] at h
          injection h with h; subst h
          exact timerInv_more_reads env w hinv
    · rw [check_timed_step_skip env i w
        (fun x h => by rw [hi] at h; cases h; exact hfrom)] at h
      injection h with h; subst h; exact hinv

theorem timerInv_loop (env : Env) (hmono : Monotone env.millis)
    (hrange : ∀ k, env.millis k < ULONG_RANGE) :
    ∀ (n i : Nat) (w w1 : World), TimerInv env w → check_timed_loop env n i w = some w1 →
      TimerInv env w1 := by
  intro n
  induction n with
  | zero => intro i w w1 hinv h; simp only [check_timed_loop] at h; cases h; exact hinv
  | succ n ih =>
    intro i w w1 hinv h
    simp only [check_timed_loop] at h
    cases hs : check_timed_step env i w with
    | none => rw [hs] at h; simp at h
    | some w2 =>
      rw [hs] at h
      exact ih (i + 1) w2 w1 (timerInv_step env hmono hrange i w w2 hinv hs) h

theorem timerInv_invoke (env : Env) (f : FnPtr) (w : World) (hinv : TimerInv env w) :
    TimerInv env (invoke f w) := by
  cases f <;> exact hinv

theorem timerInv_run_machine (env : Env) (hmono : Monotone env.millis)
    (hrange : ∀ k, env.millis k < ULONG_RANGE) (w w1 : World)
    (hinv : TimerInv env w) (h : run_machine env w = some w1) : TimerInv env w1 := by
  unfold run_machine at h
  cases hd : deref env w.fsm.m_current_state with
  | none => rw [hd] at h; simp at h
  | some cur =>
    rw [hd] at h
    simp only [check_timed_transitions] at h
    refine timerInv_loop env hmono hrange _ _ _ _ ?_ h
    apply timerInv_invoke
    split
    · exact hinv
    · apply timerInv_invoke
      exact hinv

theorem timerInv_exec (env : Env) (hmono : Monotone env.millis)
    (hrange : ∀ k, env.millis k < ULONG_RANGE) :
    ∀ (ops : List Op) (w w1 : World), TimerInv env w → exec env ops w = some w1 →
      TimerInv env w1 := by
  intro ops
  induction ops with
  | nil => intro w w1 hinv h; simp only [exec] at h; cases h; exact hinv
  | cons op ops ih =>
    intro w w1 hinv h
    simp only [exec] at h
    cases hs : step env op w with
    | none => rw [hs] at h; simp at h
    | some w2 =>
      rw [hs] at h
      refine ih w2 w1 ?_ h
      cases op with
      | add_transition a b e f =>
        simp only [step] at hs
        injection hs with hs; subst hs
        simp only [Fsm.add_transition]
        split <;> exact hinv
      | add_timed_transition a b iv f =>
        simp only [step] at hs
        injection hs with hs; subst hs
        simp only [Fsm.add_timed_transition]
        split
        · exact hinv
        · refine ⟨hinv.1, ?_, hinv.2.2⟩
          intro tt htt hfrom hne
          simp only [List.mem_append, List.mem_singleton] at htt
          rcases htt with htt | htt
          · exact hinv.2.1 tt htt hfrom hne
          · subst htt; exact absurd rfl hne
      | trigger e => exact timerInv_trigger env hmono hrange e w w2 hinv hs
      | run_machine => exact timerInv_run_machine env hmono hrange w w2 hinv hs

theorem timerInv_boot (env : Env) (hmono : Monotone env.millis) (initial_state : StatePtr) :
    TimerInv env (World.boot initial_state) := by
  refine ⟨fun k _ => hmono (Nat.zero_le k), ?_, ?_⟩
  · intro tt htt; simp [World.boot, Fsm.ctor] at htt
  · intro f hf; simp [World.boot] at hf

/-! ## Frame of the tables -/

theorem sameTables_refl (w : World) : SameTables w w := ⟨rfl, rfl⟩

theorem sameTables_trans (w w1 w2 : World) (h1 : SameTables w w1) (h2 : SameTables w1 w2) :
    SameTables w w2 :=
  ⟨h2.1.trans h1.1, h2.2.trans h1.2⟩

theorem arm_all_config (cur : StatePtr) (now : Nat) (tts : List TimedTransition) :
    (arm_all cur now tts).map TimedTransition.config = tts.map TimedTransition.config := by
  unfold arm_all
  rw [List.map_map]
  apply List.map_congr_left
  intro tt _
  simp only [Function.comp, TimedTransition.config]
  split <;> rfl

theorem sameTables_set_start (i v : Nat) (w : World) : SameTables w (set_start i v w) := by
  unfold set_start
  cases hi : w.fsm.m_timed_transitions[i]? with
  | none => exact sameTables_refl w
  | some tt =>
    refine ⟨rfl, ?_⟩
    simp only
    apply List.ext_getElem?
    intro k
    simp only [List.getElem?_map, List.getElem?_set]
    by_cases hk : i = k
    · subst hk
      rw [if_pos rfl, hi]
      have hlt : i < w.fsm.m_timed_transitions.length := (List.getElem?_eq_some.mp hi).1
      simp [hlt, TimedTransition.config]
    · rw [if_neg hk]

theorem sameTables_invoke (f : FnPtr) (w : World) : SameTables w (invoke f w) := by
  cases f <;> exact sameTables_refl w

theorem sameTables_make_transition (env : Env) (T : Transition) (w w1 : World)
    (h : make_transition env T w = some w1) :
    SameTables w w1 ∧ w1.fsm.m_current_state = T.state_to ∧ T.state_to ≠ none := by
  obtain ⟨a, b, ha, hb⟩ := make_transition_eq_some env T w w1 h
  rw [make_transition_some env T w a b ha hb] at h
  injection h with h
  subst h
  exact ⟨⟨rfl, arm_all_config _ _ _⟩, hb.symm, by rw [hb]; simp⟩

theorem sameTables_trigger (env : Env) (event : Int) (w w1 : World)
    (h : trigger env event w = some w1) : SameTables w w1 := by
  unfold trigger at h
  split at h
  · split at h
    · exact (sameTables_make_transition env _ w w1 h).1
    · injection h with h; subst h; exact sameTables_refl w
  · injection h with h; subst h; exact sameTables_refl w

/-- One iteration of the scan keeps the tables up to `start`, and the state after
it is the state before it or the non-null target of a timed entry. -/
theorem sameTables_step (env : Env) (i : Nat) (w w1 : World)
    (h : check_timed_step env i w = some w1) :
    SameTables w w1 ∧
      (w1.fsm.m_current_state = w.fsm.m_current_state ∨
        (w1.fsm.m_current_state ≠ none ∧
          ∃ tt ∈ w.fsm.m_timed_transitions,
            tt.transition.state_to = w1.fsm.m_current_state)) := by
  cases hi : w.fsm.m_timed_transitions[i]? with
  | none =>
    rw [check_timed_step_skip env i w (fun tt h => by rw [hi] at h; cases h)] at h
    injection h with h; subst h; exact ⟨sameTables_refl w, Or.inl rfl⟩
  | some tt =>
    by_cases hfrom : tt.transition.state_from = w.fsm.m_current_state
    · by_cases hstart : tt.start = 0
      · rw [check_timed_step_arm env i w tt hi hfrom hstart] at h
        injection h with h; subst h
        refine ⟨sameTables_set_start i _ _, Or.inl ?_⟩
        unfold set_start
        split <;> rfl
      · by_cases hdue : tt.interval ≤ usub (env.millis w.reads % ULONG_RANGE) tt.start
        · rw [check_timed_step_fire env i w tt hi hfrom hstart hdue] at h
          cases hm : make_transition env tt.transition
              { w with
                reads := w.reads + 1
                fired := w.fired ++ [⟨i, tt, env.millis w.reads % ULONG_RANGE, w.entered⟩] } with
          | none => rw [hm] at h; simp at h
          | some w3 =>
            rw [hm] at h
            simp only [Option.map_some'] at h
            injection h with h; subst h
            obtain ⟨hs, hc, hn⟩ := sameTables_make_transition env _ _ w3 hm
            have hcur : (set_start i 0 w3).fsm.m_current_state = w3.fsm.m_current_state := by
              unfold set_start
              split <;> rfl
            refine ⟨sameTables_trans _ _ _ hs (sameTables_set_start i 0 w3), Or.inr ⟨?_, tt,
              List.mem_iff_getElem?.mpr ⟨i, hi⟩, ?_⟩⟩
            · rw [hcur, hc]; exact hn
            · rw [hcur, hc]
        · rw [check_timed_step_wait env i w tt hi hfrom hstart (Nat.not_le.mp hdue)] at h
          injection h with h; subst h
          exact ⟨sameTables_refl w, Or.inl rfl⟩
    · rw [check_timed_step_skip env i w
        (fun x h => by rw [hi] at h; cases h; exact hfrom)] at h
      injection h with h; subst h; exact ⟨sameTables_refl w, Or.inl rfl⟩

/-- Membership in the timed table by transition only depends on the table up to
`start`. -/
theorem sameTables_target (w w1 : World) (hs : SameTables w w1) (p : StatePtr)
    (h : ∃ tt ∈ w.fsm.m_timed_transitions, tt.transition.state_to = p) :
    ∃ tt ∈ w1.fsm.m_timed_transitions, tt.transition.state_to = p := by
  obtain ⟨tt, htt, hp⟩ := h
  have hm : tt.config ∈ w.fsm.m_timed_transitions.map TimedTransition.config :=
    List.mem_map_of_mem _ htt
  rw [← hs.2, List.mem_map] at hm
  obtain ⟨x, hx, hxc⟩ := hm
  refine ⟨x, hx, ?_⟩
  have : x.transition = tt.transition := congrArg Prod.fst hxc
  rw [this, hp]

theorem sameTables_loop (env : Env) :
    ∀ (n i : Nat) (w w1 : World), check_timed_loop env n i w = some w1 →
      SameTables w w1 ∧
        (w1.fsm.m_current_state = w.fsm.m_current_state ∨
          (w1.fsm.m_current_state ≠ none ∧
            ∃ tt ∈ w.fsm.m_timed_transitions,
              tt.transition.state_to = w1.fsm.m_current_state)) := by
  intro n
  induction n with
  | zero =>
    intro i w w1 h
    simp only [check_timed_loop] at h
    cases h
    exact ⟨sameTables_refl w, Or.inl rfl⟩
  | succ n ih =>
    intro i w w1 h
    simp only [check_timed_loop] at h
    cases hs : check_timed_step env i w with
    | none => rw [hs] at h; simp at h
    | some w2 =>
      rw [hs] at h
      obtain ⟨s1, c1⟩ := sameTables_step env i w w2 hs
      obtain ⟨s2, c2⟩ := ih (i + 1) w2 w1 h
      refine ⟨sameTables_trans _ _ _ s1 s2, ?_⟩
      rcases c2 with c2 | ⟨hn, c2⟩
      · rcases c1 with c1 | ⟨hn1, c1⟩
        · exact Or.inl (c2.trans c1)
        · exact Or.inr ⟨by rw [c2]; exact hn1, by rw [c2]; exact c1⟩
      · refine Or.inr ⟨hn, ?_⟩
        have hs1 : SameTables w2 w := ⟨s1.1.symm, s1.2.symm⟩
        exact sameTables_target w2 w hs1 _ c2

theorem sameTables_run_machine (env : Env) (w w1 : World)
    (h : run_machine env w = some w1) :
    SameTables w w1 ∧
      (w1.fsm.m_current_state = w.fsm.m_current_state ∨
        (w1.fsm.m_current_state ≠ none ∧
          ∃ tt ∈ w.fsm.m_timed_transitions,
            tt.transition.state_to = w1.fsm.m_current_state)) := by
  unfold run_machine at h
  cases hd : deref env w.fsm.m_current_state with
  | none => rw [hd] at h; simp at h
  | some cur =>
    rw [hd] at h
    simp only [check_timed_transitions] at h
    have key : ∀ (v : World), v.fsm.m_transitions = w.fsm.m_transitions →
        v.fsm.m_timed_transitions = w.fsm.m_timed_transitions →
        v.fsm.m_current_state = w.fsm.m_current_state →
        check_timed_loop env v.fsm.m_timed_transitions.length 0 v = some w1 →
        SameTables w w1 ∧
          (w1.fsm.m_current_state = w.fsm.m_current_state ∨
            (w1.fsm.m_current_state ≠ none ∧
              ∃ tt ∈ w.fsm.m_timed_transitions,
                tt.transition.state_to = w1.fsm.m_current_state)) := by
      intro v h1 h2 h3 hl
      obtain ⟨s, c⟩ := sameTables_loop env _ _ v w1 hl
      refine ⟨⟨s.1.trans h1, by rw [s.2, h2]⟩, ?_⟩
      rw [h2, h3] at c
      exact c
    refine key _ ?_ ?_ ?_ h
    all_goals
      cases (w.fsm.m_initialized) <;> cases cur.on_state <;> cases cur.on_enter <;>
        simp [invoke]

/-! ## Clock rollover -/

/-- Unsigned subtraction of two readings recovers the true elapsed time as long as
it is below `2^32`, whether or not the clock wrapped in between. -/
theorem usub_elapsed (t0 e : Nat) (he : e < ULONG_RANGE) :
    usub ((t0 + e) % ULONG_RANGE) (t0 % ULONG_RANGE) = e := by
  unfold usub
  unfold ULONG_RANGE at *
  omega

/-- The world `wrapWorld` is reached from `timerWorld` by a `trigger 1` under
`wrapEnv`, and the next `run_machine`, at true time `2^32 + 204`, fires the timed
transition. -/
theorem wrapWorld_reachable :
    trigger wrapEnv 1 timerWorld = some wrapWorld ∧
    (run_machine wrapEnv wrapWorld).map (fun w => (w.fsm.m_current_state, w.fired.length))
      = some (some 1, 1) := by
  decide

/-! ## Tables without duplicate keys -/

/-- In a list whose keys are pairwise distinct, at most one element has a given
key. -/
theorem filter_key_length_le_one {α β : Type} [DecidableEq β] (key : α → β) :
    ∀ (l : List α), (l.map key).Nodup → ∀ b : β,
      (l.filter (fun x => decide (key x = b))).length ≤ 1 := by
  intro l
  induction l with
  | nil => intro _ b; simp
  | cons a l ih =>
    intro h b
    rw [List.map_cons, List.nodup_cons] at h
    by_cases hab : key a = b
    · have hnone : l.filter (fun x => decide (key x = b)) = [] := by
        rw [List.filter_eq_nil_iff]
        intro x hx hxb
        have hxb1 : key x = b := by simpa using hxb
        exact h.1 (by rw [hab, ← hxb1]; exact List.mem_map_of_mem _ hx)
      rw [List.filter_cons_of_pos (by simpa using hab), hnone]
      simp
    · rw [List.filter_cons_of_neg (by simpa using hab)]
      exact ih h.2 b

/-! ## The current state -/

theorem timedWF_of_sameTables (w w1 : World) (hs : SameTables w w1) (hwf : TimedWF w) :
    TimedWF w1 := by
  intro x hx
  have hm : x.config ∈ w1.fsm.m_timed_transitions.map TimedTransition.config :=
    List.mem_map_of_mem _ hx
  rw [hs.2, List.mem_map] at hm
  obtain ⟨y, hy, hyc⟩ := hm
  have : y.transition = x.transition := congrArg Prod.fst hyc
  rw [← this]
  exact hwf y hy

/-- On a well-formed timed table with a non-null current state, `run_machine`
returns. -/
theorem run_machine_total (env : Env) (w : World) (hcur : w.fsm.m_current_state ≠ none)
    (hwf : TimedWF w) : ∃ w1, run_machine env w = some w1 := by
  obtain ⟨a, ha⟩ := Option.ne_none_iff_exists'.mp hcur
  unfold run_machine
  rw [ha]
  simp only [deref, check_timed_transitions]
  have key : ∀ (v : World), v.fsm.m_timed_transitions = w.fsm.m_timed_transitions →
      ∃ w1, check_timed_loop env v.fsm.m_timed_transitions.length 0 v = some w1 := by
    intro v hv
    obtain ⟨w1, h1, _⟩ := check_timed_loop_total env v.fsm.m_timed_transitions.length 0 v
      (by unfold TimedWF; rw [hv]; exact hwf)
    exact ⟨w1, h1⟩
  apply key
  cases (w.fsm.m_initialized) <;> cases (env.heap a).on_state <;>
    cases (env.heap a).on_enter <;> simp [invoke]

theorem stateInv_of_sameTables (a : Nat) (w w1 : World) (hs : SameTables w w1)
    (hinv : StateInv a w)
    (hcur : w1.fsm.m_current_state = w.fsm.m_current_state ∨
      (w1.fsm.m_current_state ≠ none ∧
        ((∃ t ∈ w.fsm.m_transitions, t.state_to = w1.fsm.m_current_state) ∨
          ∃ tt ∈ w.fsm.m_timed_transitions,
            tt.transition.state_to = w1.fsm.m_current_state))) :
    StateInv a w1 := by
  obtain ⟨he, ht, hn, hd⟩ := hinv
  refine ⟨by rw [hs.1]; exact he, timedWF_of_sameTables w w1 hs ht, ?_, ?_⟩
  · rcases hcur with hc | ⟨hc, _⟩
    · rw [hc]; exact hn
    · exact hc
  · rcases hcur with hc | ⟨_, hc | hc⟩
    · rw [hc, hs.1]
      rcases hd with hd | hd | hd
      · exact Or.inl hd
      · exact Or.inr (Or.inl hd)
      · exact Or.inr (Or.inr (sameTables_target w w1 hs _ hd))
    · rw [hs.1]; exact Or.inr (Or.inl hc)
    · exact Or.inr (Or.inr (sameTables_target w w1 hs _ hc))

/-- Every call succeeds on a world satisfying the invariant and keeps it. -/
theorem stateInv_step (env : Env) (a : Nat) (op : Op) (w : World) (hinv : StateInv a w) :
    ∃ w1, step env op w = some w1 ∧ StateInv a w1 := by
  obtain ⟨he, ht, hn, hd⟩ := hinv
  cases op with
  | add_transition p q e f =>
    refine ⟨_, rfl, ?_⟩
    simp only [Fsm.add_transition]
    split
    · exact ⟨he, ht, hn, hd⟩
    · rename_i hg
      simp only [not_or] at hg
      refine ⟨?_, ht, hn, ?_⟩
      · intro t htm
        simp only [List.mem_append, List.mem_singleton] at htm
        rcases htm with htm | htm
        · exact he t htm
        · subst htm; exact hg
      · rcases hd with hd | ⟨t, htm, hts⟩ | hd
        · exact Or.inl hd
        · exact Or.inr (Or.inl ⟨t, List.mem_append_left _ htm, hts⟩)
        · exact Or.inr (Or.inr hd)
  | add_timed_transition p q iv f =>
    refine ⟨_, rfl, ?_⟩
    simp only [Fsm.add_timed_transition]
    split
    · exact ⟨he, ht, hn, hd⟩
    · rename_i hg
      simp only [not_or] at hg
      refine ⟨he, ?_, hn, ?_⟩
      · intro t htm
        simp only [List.mem_append, List.mem_singleton] at htm
        rcases htm with htm | htm
        · exact ht t htm
        · subst htm; exact hg
      · rcases hd with hd | hd | ⟨t, htm, hts⟩
        · exact Or.inl hd
        · exact Or.inr (Or.inl hd)
        · exact Or.inr (Or.inr ⟨t, List.mem_append_left _ htm, hts⟩)
  | trigger e =>
    simp only [step]
    unfold trigger
    split
    · cases hf : w.fsm.m_transitions.find?
          (fun t => decide (t.state_from = w.fsm.m_current_state ∧ t.event = e)) with
      | none => exact ⟨w, rfl, he, ht, hn, hd⟩
      | some t =>
        have htm : t ∈ w.fsm.m_transitions := List.mem_of_find?_eq_some hf
        obtain ⟨h1, h2⟩ := he t htm
        obtain ⟨x, hx⟩ := Option.ne_none_iff_exists'.mp h1
        obtain ⟨y, hy⟩ := Option.ne_none_iff_exists'.mp h2
        have hm := make_transition_some env t w x y hx hy
        refine ⟨_, hm, ?_⟩
        obtain ⟨hs, hc, hnn⟩ := sameTables_make_transition env t w _ hm
        exact stateInv_of_sameTables a w _ hs ⟨he, ht, hn, hd⟩
          (Or.inr ⟨by rw [hc]; exact hnn, Or.inl ⟨t, htm, hc.symm⟩⟩)
    · exact ⟨w, rfl, he, ht, hn, hd⟩
  | run_machine =>
    obtain ⟨w1, h1⟩ := run_machine_total env w hn ht
    refine ⟨w1, h1, ?_⟩
    obtain ⟨hs, hc⟩ := sameTables_run_machine env w w1 h1
    refine stateInv_of_sameTables a w w1 hs ⟨he, ht, hn, hd⟩ ?_
    rcases hc with hc | ⟨hc1, hc2⟩
    · exact Or.inl hc
    · exact Or.inr ⟨hc1, Or.inr hc2⟩

theorem stateInv_exec (env : Env) (a : Nat) :
    ∀ (ops : List Op) (w : World), StateInv a w →
      ∃ w1, exec env ops w = some w1 ∧ StateInv a w1 := by
  intro ops
  induction ops with
  | nil => intro w h; exact ⟨w, rfl, h⟩
  | cons op ops ih =>
    intro w h
    obtain ⟨w1, h1, hi1⟩ := stateInv_step env a op w h
    obtain ⟨w2, h2, hi2⟩ := ih w1 hi1
    exact ⟨w2, by simp only [exec, h1]; exact h2, hi2⟩

theorem stateInv_boot (a : Nat) : StateInv a (World.boot (some a)) := by
  refine ⟨?_, ?_, ?_, Or.inl rfl⟩
  · intro t ht; simp [World.boot, Fsm.ctor] at ht
  · intro t ht; simp [World.boot, Fsm.ctor] at ht
  · simp [World.boot, Fsm.ctor]

/-! ## Reachability of the concrete worlds -/

theorem staleWorld_reachable :
    exec demoEnv staleOps (World.boot (some 1)) = some staleWorld := by
  decide

theorem selfLoopWorld_reachable :
    exec demoEnv [Op.add_timed_transition (some 1) (some 1) 500 none] (World.boot (some 1))
      = some selfLoopWorld ∧
    run_ticks demoHeap [1000, 1500] selfLoopWorld = some selfLoopFired := by
  decide

theorem zeroLoopWorld_reachable :
    exec zeroEnv zeroLoopOps (World.boot (some 1)) = some zeroLoopWorld ∧
    run_machine zeroEnv zeroLoopWorld = some zeroLoopArmed := by
  decide

/-! ## What a scan appends -/

theorem trace_set_start (i v : Nat) (w : World) : (set_start i v w).trace = w.trace := by
  unfold set_start
  cases w.fsm.m_timed_transitions[i]? <;> rfl

theorem current_set_start (i v : Nat) (w : World) :
    (set_start i v w).fsm.m_current_state = w.fsm.m_current_state := by
  unfold set_start
  cases w.fsm.m_timed_transitions[i]? <;> rfl

theorem getElem?_set_start_ne (i v k : Nat) (w : World) (hk : i ≠ k) :
    (set_start i v w).fsm.m_timed_transitions[k]? = w.fsm.m_timed_transitions[k]? := by
  unfold set_start
  cases hi : w.fsm.m_timed_transitions[i]? with
  | none => rfl
  | some tt => simp [List.getElem?_set, hk]

/-- One iteration of the scan at index `i` on a well-formed timed table: it
succeeds, keeps the table well-formed, appends to the firing log nothing or one
record with index `i`, and only appends to the callback trace. -/
theorem check_timed_step_extends (env : Env) (i : Nat) (w : World) (hwf : TimedWF w) :
    ∃ w1 rest tr, check_timed_step env i w = some w1 ∧ TimedWF w1 ∧
      w1.fired = w.fired ++ rest ∧ (∀ f ∈ rest, f.index = i) ∧
      w1.trace = w.trace ++ tr := by
  cases hi : w.fsm.m_timed_transitions[i]? with
  | none =>
    exact ⟨w, [], [], check_timed_step_skip env i w (fun tt h => by rw [hi] at h; cases h),
      hwf, by simp, by simp, by simp⟩
  | some tt =>
    by_cases hfrom : tt.transition.state_from = w.fsm.m_current_state
    · by_cases hstart : tt.start = 0
      · refine ⟨_, [], [], check_timed_step_arm env i w tt hi hfrom hstart, ?_, ?_, by simp, ?_⟩
        · exact timedWF_set_start i _ _ hwf
        · rw [fired_set_start]; simp
        · rw [trace_set_start]; simp
      · by_cases hdue : tt.interval ≤ usub (env.millis w.reads % ULONG_RANGE) tt.start
        · have hmem : tt ∈ w.fsm.m_timed_transitions := List.mem_iff_getElem?.mpr ⟨i, hi⟩
          obtain ⟨hne1, hne2⟩ := hwf tt hmem
          obtain ⟨a, ha⟩ := Option.ne_none_iff_exists'.mp hne1
          obtain ⟨b, hb⟩ := Option.ne_none_iff_exists'.mp hne2
          rw [check_timed_step_fire env i w tt hi hfrom hstart hdue,
            make_transition_some env tt.transition _ a b ha hb]
          refine ⟨_, [Firing.mk i tt (env.millis w.reads % ULONG_RANGE) w.entered],
            (env.heap a).on_exit.toList ++ tt.transition.on_transition.toList
              ++ (env.heap b).on_enter.toList, rfl, ?_, ?_, ?_, ?_⟩
          · apply timedWF_set_start
            exact timedWF_arm_all _ _ _ hwf
          · rw [fired_set_start]
          · intro f hf
            simp only [List.mem_singleton] at hf
            rw [hf]
          · rw [trace_set_start]
        · exact ⟨_, [], [], check_timed_step_wait env i w tt hi hfrom hstart
            (Nat.not_le.mp hdue), hwf, by simp, by simp, by simp⟩
    · exact ⟨w, [], [], check_timed_step_skip env i w
        (fun x h => by rw [hi] at h; cases h; exact hfrom), hwf, by simp, by simp, by simp⟩

/-- The scan from index `s` on a well-formed timed table: it succeeds, keeps the
table well-formed, appends to the firing log only records with index at least
`s`, and only appends to the callback trace. -/
theorem check_timed_loop_extends (env : Env) :
    ∀ (n s : Nat) (w : World), TimedWF w →
      ∃ w1 rest tr, check_timed_loop env n s w = some w1 ∧ TimedWF w1 ∧
        w1.fired = w.fired ++ rest ∧ (∀ f ∈ rest, s ≤ f.index) ∧
        w1.trace = w.trace ++ tr := by
  intro n
  induction n with
  | zero => intro s w hwf; exact ⟨w, [], [], rfl, hwf, by simp, by simp, by simp⟩
  | succ n ih =>
    intro s w hwf
    obtain ⟨w1, r1, t1, h1, hwf1, hf1, hi1, ht1⟩ := check_timed_step_extends env s w hwf
    obtain ⟨w2, r2, t2, h2, hwf2, hf2, hi2, ht2⟩ := ih (s + 1) w1 hwf1
    refine ⟨w2, r1 ++ r2, t1 ++ t2, ?_, hwf2, ?_, ?_, ?_⟩
    · simp only [check_timed_loop, h1, h2]
    · rw [hf2, hf1, List.append_assoc]
    · intro f hf
      rcases List.mem_append.mp hf with hf | hf
      · rw [hi1 f hf]
      · exact Nat.le_of_succ_le (hi2 f hf)
    · rw [ht2, ht1, List.append_assoc]

/-- A stretch of the scan in which no entry leaves the current state does
nothing. -/
theorem check_timed_loop_skip (env : Env) :
    ∀ (n s : Nat) (w : World),
      (∀ k tt, s ≤ k → k < s + n → w.fsm.m_timed_transitions[k]? = some tt →
        tt.transition.state_from ≠ w.fsm.m_current_state) →
      check_timed_loop env n s w = some w := by
  intro n
  induction n with
  | zero => intro s w _; rfl
  | succ n ih =>
    intro s w h
    simp only [check_timed_loop]
    rw [check_timed_step_skip env s w (fun tt ht => h s tt (Nat.le_refl s) (by omega) ht)]
    exact ih (s + 1) w (fun k tt hk1 hk2 => h k tt (by omega) (by omega))

/-- The scan fires the first entry out of the current state that is armed and due
when the entries before it are armed and not due: the firing is the next record
of the log, later records have larger indices, and the callbacks of the
transition are the next callbacks of the trace. -/
theorem check_timed_transitions_fires_full (env : Env) (v : World) (j a b : Nat)
    (x : TimedTransition)
    (hwf : TimedWF v)
    (hj : v.fsm.m_timed_transitions[j]? = some x)
    (hfrom : x.transition.state_from = v.fsm.m_current_state)
    (ha : x.transition.state_from = some a) (hb : x.transition.state_to = some b)
    (harmed : x.start ≠ 0)
    (hbefore : ∀ k y, k < j → v.fsm.m_timed_transitions[k]? = some y →
      y.transition.state_from = v.fsm.m_current_state →
      y.start ≠ 0 ∧
        usub (env.millis (v.reads + rank v k) % ULONG_RANGE) y.start < y.interval)
    (hdue : x.interval ≤ usub (env.millis (v.reads + rank v j) % ULONG_RANGE) x.start) :
    ∃ v1 rest tr, check_timed_transitions env v = some v1 ∧
      v1.fired = v.fired ++
        Firing.mk j x (env.millis (v.reads + rank v j) % ULONG_RANGE) v.entered :: rest ∧
      (∀ f ∈ rest, j < f.index) ∧
      v1.trace = v.trace ++ ((env.heap a).on_exit.toList ++ x.transition.on_transition.toList
        ++ (env.heap b).on_enter.toList) ++ tr := by
  have hlen : j < v.fsm.m_timed_transitions.length := (List.getElem?_eq_some.mp hj).1
  obtain ⟨m, hm⟩ : ∃ m, v.fsm.m_timed_transitions.length = j + (m + 1) :=
    ⟨v.fsm.m_timed_transitions.length - j - 1, by omega⟩
  have hpre := check_timed_loop_idle env v j 0
    (fun k y _ hk hky hyf => hbefore k y (by omega) hky hyf)
  rw [rank_zero, Nat.zero_add] at hpre
  have hveta : ({ v with reads := v.reads + 0 } : World) = v := by cases v; rfl
  rw [hveta] at hpre
  unfold check_timed_transitions
  rw [hm, check_timed_loop_add, hpre, Nat.zero_add]
  simp only [Option.some_bind, check_timed_loop]
  rw [check_timed_step_fire env j { v with reads := v.reads + rank v j } x hj hfrom harmed hdue,
    make_transition_some env x.transition _ a b ha hb]
  simp only [Option.map_some']
  have hwf4 : TimedWF (set_start j 0
      { fsm := { m_current_state := some b
                 m_transitions := v.fsm.m_transitions
                 m_timed_transitions :=
                   arm_all (some b) (env.millis (v.reads + rank v j + 1) % ULONG_RANGE)
                     v.fsm.m_timed_transitions
                 m_initialized := v.fsm.m_initialized }
        reads := v.reads + rank v j + 1 + 1
        trace := v.trace ++ ((env.heap a).on_exit.toList ++ x.transition.on_transition.toList
          ++ (env.heap b).on_enter.toList)
        entered := some (env.millis (v.reads + rank v j + 1) % ULONG_RANGE)
        fired := v.fired ++
          [Firing.mk j x (env.millis (v.reads + rank v j) % ULONG_RANGE) v.entered] }) := by
    apply timedWF_set_start
    exact timedWF_arm_all _ _ _ hwf
  obtain ⟨v1, rest, tr, h1, _, hrest, hidx, htr⟩ :=
    check_timed_loop_extends env m (j + 1) _ hwf4
  refine ⟨v1, rest, tr, h1, ?_, fun f hf => hidx f hf, ?_⟩
  · rw [hrest, fired_set_start]
    simp
  · rw [htr, trace_set_start]

/-! ## Cascading firings -/

theorem entered_set_start (i v : Nat) (w : World) : (set_start i v w).entered = w.entered := by
  unfold set_start
  cases w.fsm.m_timed_transitions[i]? <;> rfl

theorem reads_set_start (i v : Nat) (w : World) : (set_start i v w).reads = w.reads := by
  unfold set_start
  cases w.fsm.m_timed_transitions[i]? <;> rfl

/-- The iteration at index `i` when the entry there leaves the current state, is
armed and is due: what the world looks like afterwards. -/
theorem check_timed_step_fire_facts (env : Env) (i : Nat) (u : World) (x : TimedTransition)
    (a b : Nat)
    (hwf : TimedWF u)
    (hi : u.fsm.m_timed_transitions[i]? = some x)
    (hfrom : x.transition.state_from = u.fsm.m_current_state)
    (ha : x.transition.state_from = some a) (hb : x.transition.state_to = some b)
    (harmed : x.start ≠ 0)
    (hdue : x.interval ≤ usub (env.millis u.reads % ULONG_RANGE) x.start) :
    ∃ u1, check_timed_step env i u = some u1 ∧
      u1.fsm.m_current_state = some b ∧
      u1.fired = u.fired ++ [Firing.mk i x (env.millis u.reads % ULONG_RANGE) u.entered] ∧
      u1.entered = some (env.millis (u.reads + 1) % ULONG_RANGE) ∧
      u1.reads = u.reads + 2 ∧
      TimedWF u1 ∧
      u1.fsm.m_timed_transitions.length = u.fsm.m_timed_transitions.length ∧
      (∀ k, i ≠ k → u1.fsm.m_timed_transitions[k]? = (u.fsm.m_timed_transitions[k]?).map
        (fun tt => if tt.transition.state_from = some b
          then { tt with start := env.millis (u.reads + 1) % ULONG_RANGE } else tt)) := by
  rw [check_timed_step_fire env i u x hi hfrom harmed hdue,
    make_transition_some env x.transition _ a b ha hb]
  refine ⟨_, rfl, ?_, ?_, ?_, ?_, ?_, ?_, ?_⟩
  · rw [current_set_start]
  · rw [fired_set_start]
  · rw [entered_set_start]
  · rw [reads_set_start]
  · apply timedWF_set_start
    exact timedWF_arm_all _ _ _ hwf
  · have hs := sameTables_set_start i 0
      { fsm := { m_current_state := some b
                 m_transitions := u.fsm.m_transitions
                 m_timed_transitions :=
                   arm_all (some b) (env.millis (u.reads + 1) % ULONG_RANGE)
                     u.fsm.m_timed_transitions
                 m_initialized := u.fsm.m_initialized }
        reads := u.reads + 1 + 1
        trace := u.trace ++ ((env.heap a).on_exit.toList ++ x.transition.on_transition.toList
          ++ (env.heap b).on_enter.toList)
        entered := some (env.millis (u.reads + 1) % ULONG_RANGE)
        fired := u.fired ++ [Firing.mk i x (env.millis u.reads % ULONG_RANGE) u.entered] }
    have hl := congrArg List.length hs.2
    simp only [List.length_map] at hl
    rw [hl]
    simp [arm_all]
  · intro k hk
    rw [getElem?_set_start_ne i 0 k _ hk]
    exact arm_all_getElem? _ _ _ k

theorem check_timed_loop_succ (env : Env) (n i : Nat) (w : World) :
    check_timed_loop env (n + 1) i w
      = (check_timed_step env i w).bind (check_timed_loop env n (i + 1)) := by
  simp only [check_timed_loop]
  cases check_timed_step env i w <;> rfl

/-- Two firings in one scan: the entry at index `i` leaves the current state `A`
for `B` and fires; the entry at a later index `j` leaves `B` with interval 0, no
entry between them leaves `B`, and the reading taken on entering `B` is nonzero.
Then the entry at `j` fires in the same scan, and every later firing of the scan
has a larger index. -/
theorem check_timed_transitions_cascade (env : Env) (v : World) (i j a b c : Nat)
    (x y : TimedTransition)
    (hwf : TimedWF v)
    (hi : v.fsm.m_timed_transitions[i]? = some x)
    (hcur : v.fsm.m_current_state = some a)
    (ha : x.transition.state_from = some a) (hb : x.transition.state_to = some b)
    (hxarmed : x.start ≠ 0)
    (hxdue : x.interval ≤ usub (env.millis (v.reads + rank v i) % ULONG_RANGE) x.start)
    (hbefore : ∀ k z, k < i → v.fsm.m_timed_transitions[k]? = some z →
      z.transition.state_from = some a →
      z.start ≠ 0 ∧
        usub (env.millis (v.reads + rank v k) % ULONG_RANGE) z.start < z.interval)
    (hij : i < j)
    (hj : v.fsm.m_timed_transitions[j]? = some y)
    (hyb : y.transition.state_from = some b) (hyc : y.transition.state_to = some c)
    (hyiv : y.interval = 0)
    (hbetween : ∀ k z, i < k → k < j → v.fsm.m_timed_transitions[k]? = some z →
      z.transition.state_from ≠ some b)
    (hnow : env.millis (v.reads + rank v i + 1) % ULONG_RANGE ≠ 0) :
    ∃ v1 rest, check_timed_transitions env v = some v1 ∧
      v1.fired = v.fired ++
        Firing.mk i x (env.millis (v.reads + rank v i) % ULONG_RANGE) v.entered ::
        Firing.mk j { y with start := env.millis (v.reads + rank v i + 1) % ULONG_RANGE }
          (env.millis (v.reads + rank v i + 2) % ULONG_RANGE)
          (some (env.millis (v.reads + rank v i + 1) % ULONG_RANGE)) :: rest ∧
      (∀ f ∈ rest, j < f.index) := by
  have hlen : j < v.fsm.m_timed_transitions.length := (List.getElem?_eq_some.mp hj).1
  obtain ⟨d, hd⟩ : ∃ d, j = i + 1 + d := ⟨j - i - 1, by omega⟩
  obtain ⟨m, hm0⟩ : ∃ m, v.fsm.m_timed_transitions.length = j + (m + 1) :=
    ⟨v.fsm.m_timed_transitions.length - j - 1, by omega⟩
  obtain ⟨N, hN⟩ : ∃ N, N = m + 1 := ⟨m + 1, rfl⟩
  have hm : v.fsm.m_timed_transitions.length = i + (d + N + 1) := by omega
  -- the entries before `i`
  have hpre := check_timed_loop_idle env v i 0
    (fun k z _ hk hkz hzf => hbefore k z (by omega) hkz (by rw [hzf]; exact hcur))
  rw [rank_zero, Nat.zero_add] at hpre
  have hveta : ({ v with reads := v.reads + 0 } : World) = v := by cases v; rfl
  rw [hveta] at hpre
  -- the firing at `i`
  obtain ⟨u1, hs1, hc1, hf1, he1, hr1, hw1, hl1, hg1⟩ := check_timed_step_fire_facts env i
    { v with reads := v.reads + rank v i } x a b hwf hi (by rw [ha]; exact hcur.symm) ha hb
    hxarmed hxdue
  -- nothing between `i` and `j`
  have hskip := check_timed_loop_skip env d (i + 1) u1 (by
    intro k z hk1 hk2 hkz
    rw [hg1 k (by omega)] at hkz
    rw [hc1]
    cases hv : v.fsm.m_timed_transitions[k]? with
    | none => simp [hv] at hkz
    | some z0 =>
      have hz0 := hbetween k z0 (by omega) (by omega) hv
      simp only [hv, Option.map_some', Option.some.injEq] at hkz
      rw [if_neg hz0] at hkz
      rw [← hkz]
      exact hz0)
  -- the firing at `j`
  have hj1 : u1.fsm.m_timed_transitions[j]?
      = some { y with start := env.millis (v.reads + rank v i + 1) % ULONG_RANGE } := by
    rw [hg1 j (by omega)]
    simp only [hj, Option.map_some']
    rw [if_pos hyb]
  obtain ⟨u2, hs2, _, hf2, _, _, hw2, _, _⟩ := check_timed_step_fire_facts env j u1
    { y with start := env.millis (v.reads + rank v i + 1) % ULONG_RANGE } b c hw1 hj1
    (by rw [hc1]; exact hyb) hyb hyc hnow (by simp only [hyiv]; exact Nat.zero_le _)
  -- the rest of the scan
  obtain ⟨v1, rest, _, h3, _, hf3, hidx, _⟩ := check_timed_loop_extends env m (j + 1) u2 hw2
  refine ⟨v1, rest, ?_, ?_, fun f hf => hidx f hf⟩
  · unfold check_timed_transitions
    rw [hm, check_timed_loop_add, hpre, Nat.zero_add, Option.some_bind,
      check_timed_loop_succ, hs1, Option.some_bind, check_timed_loop_add, hskip,
      Option.some_bind, hN, check_timed_loop_succ, ← hd, hs2, Option.some_bind]
    exact h3
  · rw [hf3, hf2, hf1, he1, hr1]
    simp [Nat.add_assoc]

theorem cascadeWorld_reachable :
    exec cascadeEnv cascadeOps (World.boot (some 1)) = some cascadeWorld := by
  decide

/-! ## Deliveries that match nothing -/

/-- Events that match no transition out of the current state are delivered without
effect. -/
theorem deliver_no_match (env : Env) :
    ∀ (events : List Int) (w : World),
      (∀ e ∈ events, ∀ t ∈ w.fsm.m_transitions,
        ¬ (t.state_from = w.fsm.m_current_state ∧ t.event = e)) →
      deliver env events w = some w := by
  intro events
  induction events with
  | nil => intro w _; rfl
  | cons e es ih =>
    intro w h
    simp only [deliver]
    rw [trigger_no_match env e w (h e (List.mem_cons_self _ _))]
    exact ih w (fun e1 he1 => h e1 (List.mem_cons_of_mem _ he1))

theorem run_machine_delivering_nil (env : Env) (w : World) :
    run_machine_delivering env [] w = run_machine env w := by
  unfold run_machine_delivering run_machine
  cases deref env w.fsm.m_current_state with
  | none => rfl
  | some current =>
    simp only
    cases current.on_state <;> simp [deliver]

/-- When the delivered events match no transition out of the current state, the
call is the call without deliveries. -/
theorem run_machine_delivering_quiet (env : Env) (events : List Int) (w : World)
    (h : ∀ e ∈ events, ∀ t ∈ w.fsm.m_transitions,
      ¬ (t.state_from = w.fsm.m_current_state ∧ t.event = e)) :
    run_machine_delivering env events w = run_machine env w := by
  unfold run_machine_delivering run_machine
  cases deref env w.fsm.m_current_state with
  | none => rfl
  | some current =>
    simp only
    cases hs : current.on_state with
    | none => rfl
    | some c =>
      simp only
      rw [deliver_no_match env events _ (by
        cases w.fsm.m_initialized <;> cases current.on_enter <;> simpa [invoke] using h)]

theorem rank_congr (w w1 : World) (h : w1.fsm = w.fsm) (k : Nat) : rank w1 k = rank w k := by
  unfold rank
  rw [h]

/-- An idle tick on an initialized engine, by its effects. -/
theorem run_machine_idle_facts (env : Env) (w : World) (cur : Nat)
    (hcur : w.fsm.m_current_state = some cur) (hinit : w.fsm.m_initialized = true)
    (hidle : ∀ k tt, w.fsm.m_timed_transitions[k]? = some tt →
      tt.transition.state_from = some cur →
      tt.start ≠ 0 ∧
        usub (env.millis (w.reads + rank w k) % ULONG_RANGE) tt.start < tt.interval) :
    ∃ w1, run_machine env w = some w1 ∧ w1.fsm = w.fsm ∧
      w1.reads = w.reads + rank w w.fsm.m_timed_transitions.length ∧
      w1.trace = w.trace ++ (env.heap cur).on_state.toList ∧
      w1.entered = w.entered ∧ w1.fired = w.fired := by
  have hfsm : ({ w.fsm with m_initialized := true } : Fsm) = w.fsm := by
    cases hw : w.fsm with
    | mk a b c d => rw [hw] at hinit; simp at hinit; simp [hinit]
  have h1 := run_machine_idle env w cur hcur hidle
  rw [hfsm, hinit] at h1
  exact ⟨_, h1, rfl, rfl, by simp, rfl, rfl⟩

/-! ## A callback the engine cannot reach -/

theorem registered_of_sameTables (w w1 : World) (hs : SameTables w w1) :
    registered w1 = registered w := by
  unfold registered
  rw [hs.1]
  have h := congrArg (List.map Prod.fst) hs.2
  simp only [List.map_map] at h
  have e : (Prod.fst ∘ TimedTransition.config) = fun tt : TimedTransition => tt.transition := by
    funext tt; rfl
  rw [e] at h
  rw [h]

theorem mem_registered_event (w : World) (t : Transition) (h : t ∈ w.fsm.m_transitions) :
    t ∈ registered w :=
  List.mem_append_left _ h

theorem mem_registered_timed (w : World) (tt : TimedTransition)
    (h : tt ∈ w.fsm.m_timed_transitions) : tt.transition ∈ registered w :=
  List.mem_append_right _ (List.mem_map_of_mem _ h)

theorem not_mem_toList (c : Callback) (f : FnPtr) (h : f ≠ some c) : c ∉ f.toList := by
  cases f with
  | none => simp
  | some d =>
    simp only [Option.toList, List.mem_singleton]
    intro hcd
    exact h (by rw [hcd])

theorem apart_of_sameTables (env : Env) (S : Nat) (c : Callback) (w w1 : World)
    (hs : SameTables w w1) (hcur : w1.fsm.m_current_state = w.fsm.m_current_state)
    (h : Apart env S c w) : Apart env S c w1 := by
  refine ⟨?_, ?_⟩
  · rw [registered_of_sameTables w w1 hs]; exact h.1
  · rw [hcur]; exact h.2

/-- Executing a registered transition out of the current state. -/
theorem apart_make_transition (env : Env) (S : Nat) (c : Callback) (T : Transition)
    (w : World) (h : Apart env S c w) (hT : T ∈ registered w)
    (hfrom : T.state_from = w.fsm.m_current_state) :
    ∃ w1 tr, make_transition env T w = some w1 ∧ Apart env S c w1 ∧
      w1.trace = w.trace ++ tr ∧ c ∉ tr ∧
      w1.fsm.m_initialized = w.fsm.m_initialized ∧ w1.fired = w.fired := by
  obtain ⟨⟨_, hto⟩, hnS, hact, hcb⟩ := h.1 T hT
  obtain ⟨p, hp, hst, hex⟩ := h.2
  obtain ⟨b, hb⟩ := Option.ne_none_iff_exists'.mp hto
  have hbS : b ≠ S := fun hbs => hnS (by rw [hb, hbs])
  obtain ⟨hen, hst2, hex2⟩ := hcb b hb hbS
  have hm := make_transition_some env T w p b (by rw [hfrom, hp]) hb
  refine ⟨_, _, hm, ?_, rfl, ?_, rfl, rfl⟩
  · obtain ⟨hs, hc, _⟩ := sameTables_make_transition env T w _ hm
    refine ⟨?_, b, rfl, hst2, hex2⟩
    rw [registered_of_sameTables w _ hs]
    exact h.1
  · simp only [List.mem_append, not_or]
    exact ⟨⟨not_mem_toList c _ hex, not_mem_toList c _ hact⟩, not_mem_toList c _ hen⟩

theorem apart_trigger (env : Env) (S : Nat) (c : Callback) (event : Int) (w : World)
    (h : Apart env S c w) :
    ∃ w1 tr, trigger env event w = some w1 ∧ Apart env S c w1 ∧
      w1.trace = w.trace ++ tr ∧ c ∉ tr ∧
      w1.fsm.m_initialized = w.fsm.m_initialized ∧ w1.fired = w.fired := by
  unfold trigger
  split
  · cases hf : w.fsm.m_transitions.find?
        (fun t => decide (t.state_from = w.fsm.m_current_state ∧ t.event = event)) with
    | none => exact ⟨w, [], rfl, h, by simp, by simp, rfl, rfl⟩
    | some t =>
      have hp := List.find?_some hf
      simp only [decide_eq_true_eq] at hp
      exact apart_make_transition env S c t w h
        (mem_registered_event w t (List.mem_of_find?_eq_some hf)) hp.1
  · exact ⟨w, [], rfl, h, by simp, by simp, rfl, rfl⟩

theorem apart_deliver (env : Env) (S : Nat) (c : Callback) :
    ∀ (events : List Int) (w : World), Apart env S c w →
      ∃ w1 tr, deliver env events w = some w1 ∧ Apart env S c w1 ∧
        w1.trace = w.trace ++ tr ∧ c ∉ tr ∧
        w1.fsm.m_initialized = w.fsm.m_initialized ∧ w1.fired = w.fired := by
  intro events
  induction events with
  | nil => intro w h; exact ⟨w, [], rfl, h, by simp, by simp, rfl, rfl⟩
  | cons e es ih =>
    intro w h
    obtain ⟨w1, t1, h1, a1, e1, c1, i1, f1⟩ := apart_trigger env S c e w h
    obtain ⟨w2, t2, h2, a2, e2, c2, i2, f2⟩ := ih w1 a1
    refine ⟨w2, t1 ++ t2, ?_, a2, ?_, ?_, i2.trans i1, f2.trans f1⟩
    · simp only [deliver, h1]; exact h2
    · rw [e2, e1, List.append_assoc]
    · simp only [List.mem_append, not_or]; exact ⟨c1, c2⟩

theorem initialized_set_start (i v : Nat) (w : World) :
    (set_start i v w).fsm.m_initialized = w.fsm.m_initialized := by
  unfold set_start
  cases w.fsm.m_timed_transitions[i]? <;> rfl

theorem apart_step (env : Env) (S : Nat) (c : Callback) (i : Nat) (w : World)
    (h : Apart env S c w) :
    ∃ w1 tr, check_timed_step env i w = some w1 ∧ Apart env S c w1 ∧
      w1.trace = w.trace ++ tr ∧ c ∉ tr ∧
      w1.fsm.m_initialized = w.fsm.m_initialized := by
  cases hi : w.fsm.m_timed_transitions[i]? with
  | none =>
    exact ⟨w, [], check_timed_step_skip env i w (fun tt h => by rw [hi] at h; cases h),
      h, by simp, by simp, rfl⟩
  | some tt =>
    by_cases hfrom : tt.transition.state_from = w.fsm.m_current_state
    · by_cases hstart : tt.start = 0
      · refine ⟨_, [], check_timed_step_arm env i w tt hi hfrom hstart, ?_, ?_, by simp, ?_⟩
        · exact apart_of_sameTables env S c _ _
            (sameTables_set_start i _ { w with reads := w.reads + 1 })
            (current_set_start i _ _) h
        · rw [trace_set_start]; simp
        · rw [initialized_set_start]
      · by_cases hdue : tt.interval ≤ usub (env.millis w.reads % ULONG_RANGE) tt.start
        · have hmem : tt ∈ w.fsm.m_timed_transitions := List.mem_iff_getElem?.mpr ⟨i, hi⟩
          obtain ⟨w3, tr, h3, a3, e3, c3, i3, _⟩ := apart_make_transition env S c tt.transition
            { w with
              reads := w.reads + 1
              fired := w.fired ++
                [Firing.mk i tt (env.millis w.reads % ULONG_RANGE) w.entered] }
            h (mem_registered_timed w tt hmem) hfrom
          rw [check_timed_step_fire env i w tt hi hfrom hstart hdue, h3]
          refine ⟨set_start i 0 w3, tr, rfl, ?_, ?_, c3, ?_⟩
          · exact apart_of_sameTables env S c w3 _ (sameTables_set_start i 0 w3)
              (current_set_start i 0 w3) a3
          · rw [trace_set_start, e3]
          · rw [initialized_set_start, i3]
        · exact ⟨_, [], check_timed_step_wait env i w tt hi hfrom hstart (Nat.not_le.mp hdue),
            h, by simp, by simp, rfl⟩
    · exact ⟨w, [], check_timed_step_skip env i w
        (fun x h => by rw [hi] at h; cases h; exact hfrom), h, by simp, by simp, rfl⟩

theorem apart_loop (env : Env) (S : Nat) (c : Callback) :
    ∀ (n s : Nat) (w : World), Apart env S c w →
      ∃ w1 tr, check_timed_loop env n s w = some w1 ∧ Apart env S c w1 ∧
        w1.trace = w.trace ++ tr ∧ c ∉ tr ∧
        w1.fsm.m_initialized = w.fsm.m_initialized := by
  intro n
  induction n with
  | zero => intro s w h; exact ⟨w, [], rfl, h, by simp, by simp, rfl⟩
  | succ n ih =>
    intro s w h
    obtain ⟨w1, t1, h1, a1, e1, c1, i1⟩ := apart_step env S c s w h
    obtain ⟨w2, t2, h2, a2, e2, c2, i2⟩ := ih (s + 1) w1 a1
    refine ⟨w2, t1 ++ t2, ?_, a2, ?_, ?_, i2.trans i1⟩
    · simp only [check_timed_loop, h1, h2]
    · rw [e2, e1, List.append_assoc]
    · simp only [List.mem_append, not_or]; exact ⟨c1, c2⟩

/-- A `run_machine` call of an initialized engine that cannot reach `c`, whatever
its `on_state` delivers. -/
theorem apart_run (env : Env) (S : Nat) (c : Callback) (events : List Int) (w : World)
    (h : Apart env S c w) (hinit : w.fsm.m_initialized = true) :
    ∃ w1 tr, run_machine_delivering env events w = some w1 ∧ Apart env S c w1 ∧
      w1.trace = w.trace ++ tr ∧ c ∉ tr ∧ w1.fsm.m_initialized = true := by
  obtain ⟨p, hp, hst, hex⟩ := h.2
  have h2 : Apart env S c { w with trace := w.trace ++ (env.heap p).on_state.toList } := h
  have hdel : ∃ w3 tr, (match (env.heap p).on_state with
        | none => some { w with trace := w.trace ++ (env.heap p).on_state.toList }
        | some _ => deliver env events
            { w with trace := w.trace ++ (env.heap p).on_state.toList }) = some w3 ∧
      Apart env S c w3 ∧ w3.trace = w.trace ++ tr ∧ c ∉ tr ∧
      w3.fsm.m_initialized = true := by
    cases hos : (env.heap p).on_state with
    | none =>
      refine ⟨_, [], rfl, ?_, by simp, by simp, hinit⟩
      rw [hos] at h2
      exact h2
    | some d =>
      obtain ⟨w3, tr, h3, a3, e3, c3, i3, _⟩ := apart_deliver env S c events _ h2
      rw [hos] at h3 e3
      refine ⟨w3, [d] ++ tr, h3, a3, ?_, ?_, i3.trans hinit⟩
      · rw [e3]; simp
      · simp only [List.mem_append, List.mem_singleton, not_or]
        refine ⟨fun hcd => hst (by rw [hos, hcd]), c3⟩
  obtain ⟨w3, tr3, h3, a3, e3, c3, i3⟩ := hdel
  obtain ⟨w4, tr4, h4, a4, e4, c4, i4⟩ :=
    apart_loop env S c w3.fsm.m_timed_transitions.length 0 w3 a3
  refine ⟨w4, tr3 ++ tr4, ?_, a4, ?_, ?_, i4.trans i3⟩
  · unfold run_machine_delivering
    rw [hp]
    simp only [deref, hinit, if_true]
    have hinv : invoke (env.heap p).on_state w
        = { w with trace := w.trace ++ (env.heap p).on_state.toList } := by
      cases (env.heap p).on_state <;> simp [invoke]
    rw [hinv, h3]
    exact h4
  · rw [e4, e3, List.append_assoc]
  · simp only [List.mem_append, not_or]; exact ⟨c3, c4⟩

theorem apart_run_calls (env : Env) (S : Nat) (c : Callback) :
    ∀ (calls : List (List Int)) (w : World), Apart env S c w →
      w.fsm.m_initialized = true →
      ∃ w1 tr, run_calls env calls w = some w1 ∧ w1.trace = w.trace ++ tr ∧ c ∉ tr := by
  intro calls
  induction calls with
  | nil => intro w _ _; exact ⟨w, [], rfl, by simp, by simp⟩
  | cons events rest ih =>
    intro w h hinit
    obtain ⟨w1, t1, h1, a1, e1, c1, i1⟩ := apart_run env S c events w h hinit
    obtain ⟨w2, t2, h2, e2, c2⟩ := ih w1 a1 i1
    refine ⟨w2, t1 ++ t2, ?_, ?_, ?_⟩
    · simp only [run_calls, h1]; exact h2
    · rw [e2, e1, List.append_assoc]
    · simp only [List.mem_append, not_or]; exact ⟨c1, c2⟩

theorem soloLoopWorld_reachable :
    exec soloEnv [Op.add_timed_transition (some 4) (some 4) 0 none] (World.boot (some 4))
      = some soloLoopWorld ∧
    (run_calls soloEnv [[], []] soloLoopWorld).map (fun w => w.trace) = some [40, 40] := by
  decide

theorem leaveWorld_reachable :
    exec enterOnlyEnv [Op.add_transition (some 2) (some 3) 1 none,
      Op.add_timed_transition (some 4) (some 2) 0 none] (World.boot (some 4))
      = some leaveWorld ∧
    (run_calls enterOnlyEnv [[], [], [1]] leaveWorld).map
      (fun w => (w.fsm.m_current_state, w.trace)) = some (some 3, [40, 20, 21, 22, 30]) := by
  decide

/-! ## The call that enters a state -/

theorem entryInv_mono (base : World) (s : Nat) (u : World) (h : EntryInv base s u) :
    EntryInv base (s + 1) u := by
  refine ⟨h.1, ?_⟩
  rcases h.2 with h2 | ⟨t, ht, h2⟩
  · exact Or.inl h2
  · refine Or.inr ⟨t, ht, fun ht0 k x hk hx => ?_⟩
    rcases h2 ht0 k x hk hx with h3 | ⟨h3, h4⟩
    · exact Or.inl h3
    · exact Or.inr ⟨Nat.lt_succ_of_lt h3, h4⟩

/-- After `make_transition`, every timed transition out of the new current state
has the reading as `start`. -/
theorem entryInv_make_transition (env : Env) (base : World) (s : Nat) (T : Transition)
    (u u1 : World) (hlog : ∃ rest, u.fired = base.fired ++ rest)
    (h : make_transition env T u = some u1) : EntryInv base s u1 := by
  obtain ⟨a, b, ha, hb⟩ := make_transition_eq_some env T u u1 h
  rw [make_transition_some env T u a b ha hb] at h
  injection h with h
  subst h
  refine ⟨hlog, Or.inr ⟨_, rfl, fun _ k x hk hx => Or.inl ?_⟩⟩
  obtain ⟨y, _, _, hxy⟩ := arm_all_entered _ _ _ k x hk hx
  rw [hxy]

theorem entryInv_trigger (env : Env) (base : World) (event : Int) (u u1 : World)
    (hinv : EntryInv base 0 u) (h : trigger env event u = some u1) : EntryInv base 0 u1 := by
  unfold trigger at h
  split at h
  · split at h
    · exact entryInv_make_transition env base 0 _ u u1 hinv.1 h
    · injection h with h; subst h; exact hinv
  · injection h with h; subst h; exact hinv

theorem entryInv_deliver (env : Env) (base : World) :
    ∀ (events : List Int) (u u1 : World), EntryInv base 0 u →
      deliver env events u = some u1 → EntryInv base 0 u1 := by
  intro events
  induction events with
  | nil => intro u u1 hinv h; simp only [deliver] at h; cases h; exact hinv
  | cons e es ih =>
    intro u u1 hinv h
    simp only [deliver] at h
    cases ht : trigger env e u with
    | none => rw [ht] at h; simp at h
    | some u2 =>
      rw [ht] at h
      exact ih u2 u1 (entryInv_trigger env base e u u2 hinv ht) h

theorem entryInv_step (env : Env) (base : World) (s : Nat) (u u1 : World)
    (hinv : EntryInv base s u) (h : check_timed_step env s u = some u1) :
    EntryInv base (s + 1) u1 := by
  cases hi : u.fsm.m_timed_transitions[s]? with
  | none =>
    rw [check_timed_step_skip env s u (fun tt h => by rw [hi] at h; cases h)] at h
    injection h with h; subst h; exact entryInv_mono base s u hinv
  | some tt =>
    by_cases hfrom : tt.transition.state_from = u.fsm.m_current_state
    · by_cases hstart : tt.start = 0
      · rw [check_timed_step_arm env s u tt hi hfrom hstart] at h
        injection h with h; subst h
        refine ⟨by rw [fired_set_start]; exact hinv.1, ?_⟩
        rcases hinv.2 with h2 | ⟨t, ht, h2⟩
        · exact Or.inl ⟨by rw [entered_set_start]; exact h2.1,
            by rw [fired_set_start]; exact h2.2⟩
        · refine Or.inr ⟨t, by rw [entered_set_start]; exact ht, fun ht0 => ?_⟩
          exfalso
          rcases h2 ht0 s tt hi hfrom with h3 | ⟨h3, _⟩
          · exact ht0 (by rw [← h3, hstart])
          · exact Nat.lt_irrefl s h3
      · by_cases hdue : tt.interval ≤ usub (env.millis u.reads % ULONG_RANGE) tt.start
        · rw [check_timed_step_fire env s u tt hi hfrom hstart hdue] at h
          obtain ⟨r0, hr0⟩ := hinv.1
          cases hm : make_transition env tt.transition
              { u with
                reads := u.reads + 1
                fired := u.fired ++
                  [Firing.mk s tt (env.millis u.reads % ULONG_RANGE) u.entered] } with
          | none => rw [hm] at h; simp at h
          | some u3 =>
            rw [hm] at h
            simp only [Option.map_some'] at h
            injection h with h; subst h
            obtain ⟨a, b, ha, hb⟩ := make_transition_eq_some env tt.transition _ u3 hm
            rw [make_transition_some env tt.transition _ a b ha hb] at hm
            injection hm with hm
            subst hm
            refine ⟨⟨r0 ++ [Firing.mk s tt (env.millis u.reads % ULONG_RANGE) u.entered], ?_⟩,
              Or.inr ⟨_, by rw [entered_set_start], fun _ k x hk hx => ?_⟩⟩
            · rw [fired_set_start]
              simp only
              rw [hr0, List.append_assoc]
            · rw [current_set_start] at hx
              by_cases hks : s = k
              · subst hks
                refine Or.inr ⟨Nat.lt_succ_self s, r0,
                  Firing.mk s tt (env.millis u.reads % ULONG_RANGE) u.entered, ?_, rfl, ?_⟩
                · rw [fired_set_start]
                  simp only
                  rw [hr0]
                · have hc := congrArg (fun l => l[s]?) (sameTables_set_start s 0
                    { fsm := { m_current_state := some b
                               m_transitions := u.fsm.m_transitions
                               m_timed_transitions :=
                                 arm_all (some b) (env.millis (u.reads + 1) % ULONG_RANGE)
                                   u.fsm.m_timed_transitions
                               m_initialized := u.fsm.m_initialized }
                      reads := u.reads + 1 + 1
                      trace := u.trace ++ ((env.heap a).on_exit.toList
                        ++ tt.transition.on_transition.toList ++ (env.heap b).on_enter.toList)
                      entered := some (env.millis (u.reads + 1) % ULONG_RANGE)
                      fired := u.fired ++
                        [Firing.mk s tt (env.millis u.reads % ULONG_RANGE) u.entered] }).2
                  simp only [List.getElem?_map, hk, Option.map_some'] at hc
                  have hcfg := (arm_all_config (some b)
                    (env.millis (u.reads + 1) % ULONG_RANGE) u.fsm.m_timed_transitions)
                  have hc2 := congrArg (fun l => l[s]?) hcfg
                  simp only [List.getElem?_map, hi, Option.map_some'] at hc2
                  rw [hc2] at hc
                  simp only [Option.some.injEq] at hc
                  exact (congrArg Prod.fst hc).symm
              · rw [getElem?_set_start_ne s 0 k _ hks] at hk
                obtain ⟨y, _, _, hxy⟩ := arm_all_entered _ _ _ k x hk hx
                exact Or.inl (by rw [hxy])
        · rw [check_timed_step_wait env s u tt hi hfrom hstart (Nat.not_le.mp hdue)] at h
          injection h with h; subst h
          exact entryInv_mono base s u hinv
    · rw [check_timed_step_skip env s u
        (fun x h => by rw [hi] at h; cases h; exact hfrom)] at h
      injection h with h; subst h; exact entryInv_mono base s u hinv

theorem entryInv_loop (env : Env) (base : World) :
    ∀ (n s : Nat) (u u1 : World), EntryInv base s u →
      check_timed_loop env n s u = some u1 → EntryInv base (s + n) u1 := by
  intro n
  induction n with
  | zero => intro s u u1 hinv h; simp only [check_timed_loop] at h; cases h; exact hinv
  | succ n ih =>
    intro s u u1 hinv h
    rw [check_timed_loop_succ] at h
    cases hs : check_timed_step env s u with
    | none => rw [hs] at h; simp at h
    | some u2 =>
      rw [hs, Option.some_bind] at h
      have := ih (s + 1) u2 u1 (entryInv_step env base s u u2 hinv hs) h
      rw [show s + (n + 1) = s + 1 + n by omega]
      exact this

theorem initialized_make_transition (env : Env) (T : Transition) (u u1 : World)
    (h : make_transition env T u = some u1) :
    u1.fsm.m_initialized = u.fsm.m_initialized := by
  obtain ⟨a, b, ha, hb⟩ := make_transition_eq_some env T u u1 h
  rw [make_transition_some env T u a b ha hb] at h
  injection h with h
  subst h
  rfl

/-- What `make_transition` leaves behind: the reading is the entry moment and the
`start` of every timed transition out of the new current state. -/
theorem make_transition_arms (env : Env) (T : Transition) (u u1 : World)
    (h : make_transition env T u = some u1) :
    ∃ t, u1.entered = some t ∧
      ∀ (k : Nat) (x : TimedTransition), u1.fsm.m_timed_transitions[k]? = some x →
        x.transition.state_from = u1.fsm.m_current_state → x.start = t := by
  obtain ⟨a, b, ha, hb⟩ := make_transition_eq_some env T u u1 h
  rw [make_transition_some env T u a b ha hb] at h
  injection h with h
  subst h
  refine ⟨_, rfl, fun k x hk hx => ?_⟩
  obtain ⟨y, _, _, hxy⟩ := arm_all_entered _ _ _ k x hk hx
  rw [hxy]

/-- A `trigger` call that read the clock executed a transition. -/
theorem trigger_executes (env : Env) (event : Int) (w w1 : World)
    (h : trigger env event w = some w1) (hr : w1.reads ≠ w.reads) :
    w.fsm.m_initialized = true ∧ ∃ T, make_transition env T w = some w1 := by
  unfold trigger at h
  split at h
  · rename_i hinit
    split at h
    · exact ⟨hinit, _, h⟩
    · injection h with h; subst h; exact absurd rfl hr
  · injection h with h; subst h; exact absurd rfl hr

theorem initialized_trigger (env : Env) (event : Int) (u u1 : World)
    (h : trigger env event u = some u1) :
    u1.fsm.m_initialized = u.fsm.m_initialized := by
  unfold trigger at h
  split at h
  · split at h
    · exact initialized_make_transition env _ u u1 h
    · injection h with h; subst h; rfl
  · injection h with h; subst h; rfl

theorem initialized_deliver (env : Env) :
    ∀ (events : List Int) (u u1 : World), deliver env events u = some u1 →
      u1.fsm.m_initialized = u.fsm.m_initialized := by
  intro events
  induction events with
  | nil => intro u u1 h; simp only [deliver] at h; cases h; rfl
  | cons e es ih =>
    intro u u1 h
    simp only [deliver] at h
    cases ht : trigger env e u with
    | none => rw [ht] at h; simp at h
    | some u2 =>
      rw [ht] at h
      exact (ih u2 u1 h).trans (initialized_trigger env e u u2 ht)

theorem initialized_step (env : Env) (i : Nat) (u u1 : World)
    (h : check_timed_step env i u = some u1) :
    u1.fsm.m_initialized = u.fsm.m_initialized := by
  cases hi : u.fsm.m_timed_transitions[i]? with
  | none =>
    rw [check_timed_step_skip env i u (fun tt h => by rw [hi] at h; cases h)] at h
    injection h with h; subst h; rfl
  | some tt =>
    by_cases hfrom : tt.transition.state_from = u.fsm.m_current_state
    · by_cases hstart : tt.start = 0
      · rw [check_timed_step_arm env i u tt hi hfrom hstart] at h
        injection h with h; subst h
        rw [initialized_set_start]
      · by_cases hdue : tt.interval ≤ usub (env.millis u.reads % ULONG_RANGE) tt.start
        · rw [check_timed_step_fire env i u tt hi hfrom hstart hdue] at h
          cases hm : make_transition env tt.transition
              { u with
                reads := u.reads + 1
                fired := u.fired ++
                  [Firing.mk i tt (env.millis u.reads % ULONG_RANGE) u.entered] } with
          | none => rw [hm] at h; simp at h
          | some u3 =>
            rw [hm] at h
            simp only [Option.map_some'] at h
            injection h with h; subst h
            rw [initialized_set_start]
            exact initialized_make_transition env _
              { u with
                reads := u.reads + 1
                fired := u.fired ++
                  [Firing.mk i tt (env.millis u.reads % ULONG_RANGE) u.entered] } u3 hm
        · rw [check_timed_step_wait env i u tt hi hfrom hstart (Nat.not_le.mp hdue)] at h
          injection h with h; subst h; rfl
    · rw [check_timed_step_skip env i u
        (fun x h => by rw [hi] at h; cases h; exact hfrom)] at h
      injection h with h; subst h; rfl

theorem initialized_loop (env : Env) :
    ∀ (n s : Nat) (u u1 : World), check_timed_loop env n s u = some u1 →
      u1.fsm.m_initialized = u.fsm.m_initialized := by
  intro n
  induction n with
  | zero => intro s u u1 h; simp only [check_timed_loop] at h; cases h; rfl
  | succ n ih =>
    intro s u u1 h
    rw [check_timed_loop_succ] at h
    cases hs : check_timed_step env s u with
    | none => rw [hs] at h; simp at h
    | some u2 =>
      rw [hs, Option.some_bind] at h
      exact (ih (s + 1) u2 u1 h).trans (initialized_step env s u u2 hs)

/-- The stages of a `run_machine` call that returns: the prologue, the deliveries
of `on_state`, and the scan. -/
theorem run_machine_delivering_stages (env : Env) (events : List Int) (w w1 : World)
    (h : run_machine_delivering env events w = some w1) :
    ∃ w2 w3, w2.fsm.m_initialized = true ∧ w2.entered = w.entered ∧ w2.fired = w.fired ∧
      (w3 = w2 ∨ deliver env events w2 = some w3) ∧
      check_timed_loop env w3.fsm.m_timed_transitions.length 0 w3 = some w1 := by
  unfold run_machine_delivering at h
  cases hd : deref env w.fsm.m_current_state with
  | none => rw [hd] at h; simp at h
  | some current =>
    rw [hd] at h
    simp only at h
    have hpro : ∀ u : World, u = (invoke current.on_state
        (if w.fsm.m_initialized = true then w
          else invoke current.on_enter
            { w with fsm := { w.fsm with m_initialized := true } })) →
        u.fsm.m_initialized = true ∧ u.entered = w.entered ∧ u.fired = w.fired := by
      intro u hu
      subst hu
      cases hi : w.fsm.m_initialized <;> cases current.on_state <;>
        cases current.on_enter <;> simp [invoke, hi]
    cases hos : current.on_state with
    | none =>
      rw [hos] at h
      simp only at h
      refine ⟨_, _, ?_, ?_, ?_, Or.inl rfl, h⟩
      · exact (hpro _ (by rw [hos])).1
      · exact (hpro _ (by rw [hos])).2.1
      · exact (hpro _ (by rw [hos])).2.2
    | some c =>
      rw [hos] at h
      simp only at h
      cases hdl : deliver env events (invoke (some c)
          (if w.fsm.m_initialized = true then w
            else invoke current.on_enter
              { w with fsm := { w.fsm with m_initialized := true } })) with
      | none => rw [hdl] at h; simp at h
      | some w3 =>
        rw [hdl] at h
        simp only at h
        refine ⟨_, w3, ?_, ?_, ?_, Or.inr hdl, h⟩
        · exact (hpro _ (by rw [hos])).1
        · exact (hpro _ (by rw [hos])).2.1
        · exact (hpro _ (by rw [hos])).2.2

/-- A `run_machine` call that returns leaves the engine initialized. -/
theorem run_machine_delivering_initialized (env : Env) (events : List Int) (w w1 : World)
    (h : run_machine_delivering env events w = some w1) : w1.fsm.m_initialized = true := by
  obtain ⟨w2, w3, hi2, _, _, h3, h4⟩ := run_machine_delivering_stages env events w w1 h
  rw [initialized_loop env _ 0 w3 w1 h4]
  rcases h3 with h3 | h3
  · rw [h3]; exact hi2
  · rw [initialized_deliver env events w2 w3 h3]; exact hi2

/-- The call that enters a state: when the call (a `trigger`, or a `run_machine`
with the deliveries of its `on_state`) executed a transition, the last one read
the nonzero clock value `t0`, and a timed transition that fired last in the call
does not leave the state `a` now current, then the engine is initialized and every
timed transition out of `a` has `start = t0`. -/
theorem entering_call_arms (env : Env) (w w1 : World) (a t0 : Nat)
    (hcall : (∃ event, trigger env event w = some w1 ∧ w1.reads ≠ w.reads) ∨
      (∃ events, run_machine_delivering env events w = some w1 ∧
        (w1.fired ≠ w.fired ∨ w1.entered ≠ w.entered)))
    (hent : w1.entered = some t0) (hcur : w1.fsm.m_current_state = some a)
    (hlast : ∀ rest f, w1.fired = w.fired ++ rest ++ [f] →
      f.entry.transition.state_from ≠ some a)
    (ht0 : t0 ≠ 0) :
    w1.fsm.m_initialized = true ∧
      ∀ (k : Nat) (x : TimedTransition), w1.fsm.m_timed_transitions[k]? = some x →
        x.transition.state_from = some a → x.start = t0 := by
  rcases hcall with ⟨event, h, hr⟩ | ⟨events, h, hsig⟩
  · obtain ⟨hinit, T, hT⟩ := trigger_executes env event w w1 h hr
    refine ⟨by rw [initialized_make_transition env T w w1 hT]; exact hinit, ?_⟩
    obtain ⟨t, ht, harm⟩ := make_transition_arms env T w w1 hT
    rw [hent] at ht
    injection ht with ht
    subst ht
    intro k x hk hx
    exact harm k x hk (by rw [hx, hcur])
  · refine ⟨run_machine_delivering_initialized env events w w1 h, ?_⟩
    obtain ⟨w2, w3, _, he2, hf2, h3, h4⟩ := run_machine_delivering_stages env events w w1 h
    have hinv2 : EntryInv w 0 w2 := ⟨⟨[], by rw [hf2]; simp⟩, Or.inl ⟨he2, hf2⟩⟩
    have hinv3 : EntryInv w 0 w3 := by
      rcases h3 with h3 | h3
      · rw [h3]; exact hinv2
      · exact entryInv_deliver env w events w2 w3 hinv2 h3
    have hinv1 := entryInv_loop env w _ 0 w3 w1 hinv3 h4
    rcases hinv1.2 with ⟨h5, h6⟩ | ⟨t, ht, harm⟩
    · rcases hsig with hsig | hsig
      · exact absurd h6 hsig
      · exact absurd h5 hsig
    · rw [hent] at ht
      injection ht with ht
      subst ht
      intro k x hk hx
      rcases harm ht0 k x hk (by rw [hx, hcur]) with h7 | ⟨_, rest, f, h8, _, h9⟩
      · exact h7
      · exact absurd (by rw [h9]; exact hx) (hlast rest f h8)

/-! ## After the entry: idle calls and the due call -/

/-- Calls whose deliveries match no transition out of the current state, and at
whose readings every timed transition out of it is armed and not due, leave the
engine, the entry moment and the firing log unchanged and run only the `on_state`
of the current state. -/
theorem run_ticks_delivering_idle (heap : Nat → State) (cur : Nat) :
    ∀ (ticks : List (Nat × List Int)) (v : World), v.fsm.m_current_state = some cur →
      v.fsm.m_initialized = true →
      (∀ tick ∈ ticks, ∀ (k : Nat) (x : TimedTransition),
        v.fsm.m_timed_transitions[k]? = some x → x.transition.state_from = some cur →
        x.start ≠ 0 ∧ usub (tick.1 % ULONG_RANGE) x.start < x.interval) →
      (∀ tick ∈ ticks, ∀ e ∈ tick.2, ∀ t ∈ v.fsm.m_transitions,
        ¬ (t.state_from = some cur ∧ t.event = e)) →
      ∃ v1 tr, run_ticks_delivering heap ticks v = some v1 ∧ v1.fsm = v.fsm ∧
        v1.fired = v.fired ∧ v1.entered = v.entered ∧ v1.trace = v.trace ++ tr ∧
        ∀ d ∈ tr, (heap cur).on_state = some d := by
  intro ticks
  induction ticks with
  | nil => intro v _ _ _ _; exact ⟨v, [], rfl, rfl, rfl, rfl, by simp, by simp⟩
  | cons tick ticks ih =>
    intro v hcur hinit hidle hquiet
    have hq := run_machine_delivering_quiet { heap := heap, millis := fun _ => tick.1 }
      tick.2 v (by rw [hcur]; exact hquiet tick (List.mem_cons_self _ _))
    obtain ⟨v1, h1, hfsm, _, htrace, hent, hfired⟩ :=
      run_machine_idle_facts { heap := heap, millis := fun _ => tick.1 } v cur hcur hinit
        (fun k x hk hx => hidle tick (List.mem_cons_self _ _) k x hk hx)
    obtain ⟨v2, tr, h2, hfsm2, hfired2, hent2, htrace2, hon⟩ := ih v1
      (by rw [hfsm]; exact hcur) (by rw [hfsm]; exact hinit)
      (fun t ht k x hk hx => hidle t (List.mem_cons_of_mem _ ht) k x (by rw [← hfsm]; exact hk) hx)
      (fun t ht e he T hT => hquiet t (List.mem_cons_of_mem _ ht) e he T (by rw [← hfsm]; exact hT))
    refine ⟨v2, (heap cur).on_state.toList ++ tr, ?_, hfsm2.trans hfsm, hfired2.trans hfired,
      hent2.trans hent, ?_, ?_⟩
    · simp only [run_ticks_delivering]
      rw [hq, h1]
      exact h2
    · rw [htrace2, htrace, List.append_assoc]
    · intro d hd
      rcases List.mem_append.mp hd with hd | hd
      · cases hos : (heap cur).on_state with
        | none => rw [hos] at hd; simp at hd
        | some c =>
          rw [hos] at hd
          simp only [Option.toList, List.mem_singleton] at hd
          rw [hd]
      · exact hon d hd

/-- After a firing at index `j` into state `b`, the entries behind `j` are those of
the table before the firing, re-armed: when none of them leaves `b`, none leaves
the current state. -/
theorem skip_after_fire (j now b : Nat) (u : World) (tts : List TimedTransition)
    (hcur : u.fsm.m_current_state = some b)
    (htts : u.fsm.m_timed_transitions = arm_all (some b) now tts)
    (hafter : ∀ k y, j < k → tts[k]? = some y → y.transition.state_from ≠ some b) :
    ∀ (k : Nat) (x : TimedTransition), j + 1 ≤ k →
      (set_start j 0 u).fsm.m_timed_transitions[k]? = some x →
      x.transition.state_from ≠ (set_start j 0 u).fsm.m_current_state := by
  intro k x hk hx
  rw [current_set_start, hcur]
  rw [getElem?_set_start_ne j 0 k u (by omega), htts, arm_all_getElem?] at hx
  cases hy : tts[k]? with
  | none => rw [hy] at hx; simp at hx
  | some y =>
    rw [hy] at hx
    simp only [Option.map_some', Option.some.injEq] at hx
    have h := hafter k y (by omega) hy
    rw [if_neg h] at hx
    rw [← hx]
    exact h

/-- The scan fires the first entry out of the current state that is armed and due
when the entries before it are armed and not due; when no entry behind it leaves
the target state, the scan ends there: the target is current, the firing is the
only new record and the callbacks of the transition are the only new callbacks. -/
theorem check_timed_transitions_fires_last (env : Env) (v : World) (j a b : Nat)
    (x : TimedTransition)
    (hj : v.fsm.m_timed_transitions[j]? = some x)
    (hfrom : x.transition.state_from = v.fsm.m_current_state)
    (ha : x.transition.state_from = some a) (hb : x.transition.state_to = some b)
    (harmed : x.start ≠ 0)
    (hbefore : ∀ k y, k < j → v.fsm.m_timed_transitions[k]? = some y →
      y.transition.state_from = v.fsm.m_current_state →
      y.start ≠ 0 ∧
        usub (env.millis (v.reads + rank v k) % ULONG_RANGE) y.start < y.interval)
    (hdue : x.interval ≤ usub (env.millis (v.reads + rank v j) % ULONG_RANGE) x.start)
    (hafter : ∀ k y, j < k → v.fsm.m_timed_transitions[k]? = some y →
      y.transition.state_from ≠ some b) :
    ∃ v1, check_timed_transitions env v = some v1 ∧
      v1.fsm.m_current_state = some b ∧
      v1.fired = v.fired ++
        [Firing.mk j x (env.millis (v.reads + rank v j) % ULONG_RANGE) v.entered] ∧
      v1.trace = v.trace ++ ((env.heap a).on_exit.toList ++ x.transition.on_transition.toList
        ++ (env.heap b).on_enter.toList) := by
  have hlen : j < v.fsm.m_timed_transitions.length := (List.getElem?_eq_some.mp hj).1
  obtain ⟨m, hm⟩ : ∃ m, v.fsm.m_timed_transitions.length = j + (m + 1) :=
    ⟨v.fsm.m_timed_transitions.length - j - 1, by omega⟩
  have hpre := check_timed_loop_idle env v j 0
    (fun k y _ hk hky hyf => hbefore k y (by omega) hky hyf)
  rw [rank_zero, Nat.zero_add] at hpre
  have hveta : ({ v with reads := v.reads + 0 } : World) = v := by cases v; rfl
  rw [hveta] at hpre
  unfold check_timed_transitions
  rw [hm, check_timed_loop_add, hpre, Nat.zero_add, Option.some_bind, check_timed_loop_succ,
    check_timed_step_fire env j { v with reads := v.reads + rank v j } x hj hfrom harmed hdue,
    make_transition_some env x.transition _ a b ha hb, Option.map_some', Option.some_bind,
    check_timed_loop_skip env m (j + 1) _
      (fun k y hk1 _ hky => skip_after_fire j _ b _ v.fsm.m_timed_transitions rfl rfl
        hafter k y hk1 hky)]
  refine ⟨_, rfl, ?_, ?_, ?_⟩
  · rw [current_set_start]
  · rw [fired_set_start]
  · rw [trace_set_start]

/-- The due call: on an initialized engine in state `a` whose `on_state`
deliveries match no transition out of `a`, with the timed transitions out of `a`
before index `j` armed and not due at the reading `c` of the call, the armed and
due entry at `j` fires: the firing is the next record of the log, the trace grows
by `on_state` of `a`, then `on_exit` of `a`, the action and `on_enter` of the
target; and when no later entry leaves the target, the call ends there. -/
theorem run_machine_delivering_due (heap : Nat → State) (c : Nat) (events : List Int)
    (v : World) (a b j : Nat) (x : TimedTransition)
    (hcur : v.fsm.m_current_state = some a) (hinit : v.fsm.m_initialized = true)
    (hwf : TimedWF v)
    (hj : v.fsm.m_timed_transitions[j]? = some x)
    (ha : x.transition.state_from = some a) (hb : x.transition.state_to = some b)
    (harmed : x.start ≠ 0)
    (hbefore : ∀ k y, k < j → v.fsm.m_timed_transitions[k]? = some y →
      y.transition.state_from = some a →
      y.start ≠ 0 ∧ usub (c % ULONG_RANGE) y.start < y.interval)
    (hdue : x.interval ≤ usub (c % ULONG_RANGE) x.start)
    (hquiet : ∀ e ∈ events, ∀ t ∈ v.fsm.m_transitions,
      ¬ (t.state_from = some a ∧ t.event = e)) :
    ∃ v3 rest tr,
      run_machine_delivering { heap := heap, millis := fun _ => c } events v = some v3 ∧
      v3.fired = v.fired ++ Firing.mk j x (c % ULONG_RANGE) v.entered :: rest ∧
      v3.trace = v.trace ++ (heap a).on_state.toList
        ++ ((heap a).on_exit.toList ++ x.transition.on_transition.toList
          ++ (heap b).on_enter.toList) ++ tr ∧
      ((∀ k y, j < k → v.fsm.m_timed_transitions[k]? = some y →
          y.transition.state_from ≠ some b) →
        v3.fsm.m_current_state = some b ∧ rest = [] ∧ tr = []) := by
  have hq := run_machine_delivering_quiet { heap := heap, millis := fun _ => c } events v
    (by rw [hcur]; exact hquiet)
  have hrun := run_machine_initialized { heap := heap, millis := fun _ => c } v a hcur hinit
  obtain ⟨v3, rest, tr, h1, h2, _, h3⟩ := check_timed_transitions_fires_full
    { heap := heap, millis := fun _ => c }
    { v with trace := v.trace ++ (heap a).on_state.toList } j a b x hwf hj
    (by rw [ha]; exact hcur.symm) ha hb harmed
    (fun k y hk hky hyf => hbefore k y hk hky (by rw [hyf]; exact hcur)) hdue
  refine ⟨v3, rest, tr, by rw [hq, hrun]; exact h1, h2, h3, fun hafter => ?_⟩
  obtain ⟨v4, h4, h5, h6, h7⟩ := check_timed_transitions_fires_last
    { heap := heap, millis := fun _ => c }
    { v with trace := v.trace ++ (heap a).on_state.toList } j a b x hj
    (by rw [ha]; exact hcur.symm) ha hb harmed
    (fun k y hk hky hyf => hbefore k y hk hky (by rw [hyf]; exact hcur)) hdue hafter
  rw [h1] at h4
  injection h4 with h4
  subst h4
  refine ⟨h5, ?_, ?_⟩
  · rw [h2] at h6
    have := List.append_cancel_left h6
    injection this
  · rw [h3] at h7
    exact List.append_right_eq_self.mp h7

theorem selfLoopArmed_reachable :
    run_ticks demoHeap [1000] selfLoopWorld = some selfLoopArmed ∧
    run_machine_delivering { heap := demoHeap, millis := fun _ => 1500 } [] selfLoopArmed
      = some selfLoopFired := by
  decide

theorem relayWorld_reachable :
    exec demoEnv relayOps (World.boot (some 1)) = some relayWorld ∧
    run_machine_delivering { heap := demoHeap, millis := fun _ => 1300 } [1] relayWorld
      = some relayEntered := by
  decide

/-- Three passes of `loop()` in the sketch when the piezos give a signal:
`piezo_check` delivers `piezo_sinal`, `piezo_identify_when` delivers `piezo_sinal`
and `after_play_song` delivers `finish_sound`.  The engine visits
`state_piezo_verify`, `state_play_note` and `state_no_sound`. -/
theorem sketch_loop_visits :
    (run_calls sketchEnv [[piezo_sinal]] sketchWorld).map
        (fun w => w.fsm.m_current_state) = some (some state_piezo_verify) ∧
    (run_calls sketchEnv [[piezo_sinal], [piezo_sinal]] sketchWorld).map
        (fun w => w.fsm.m_current_state) = some (some state_play_note) ∧
    (run_calls sketchEnv [[piezo_sinal], [piezo_sinal], [finish_sound]] sketchWorld).map
        (fun w => (w.fsm.m_current_state, w.trace))
      = some (some state_no_sound,
          [no_sound, piezo_check, piezo_identify, piezo_identify_when, play,
            after_play_song, no_sound]) := by
  decide

/-! ## Event delivery -/

/-- C1 as stated fails: with two entries registered for `(state 1, event 1)`, the
second one, to state 3, is a registered transition out of the current state, yet
`trigger 1` ends in state 2. -/
theorem C1_counterexample :
    ¬ (∀ (env : Env) (w : World) (T : Transition) (a b : Nat),
        w.fsm.m_initialized = true → T ∈ w.fsm.m_transitions →
        T.state_from = some a → T.state_to = some b → w.fsm.m_current_state = some a →
        ∃ w1, trigger env T.event w = some w1 ∧
          w1.trace = w.trace ++ ((env.heap a).on_exit.toList ++ T.on_transition.toList
            ++ (env.heap b).on_enter.toList) ∧
          w1.fsm.m_current_state = some b) := by
  intro h
  obtain ⟨w1, h1, _, h3⟩ := h demoEnv dupWorld ⟨some 1, some 3, 1, some 8⟩ 1 3
    (by decide) (by decide) rfl rfl rfl
  have h2 : trigger demoEnv 1 dupWorld = some
      { fsm := { dupWorld.fsm with m_current_state := some 2 }
        reads := 1, trace := [10, 11, 12, 7, 20], entered := some 1000, fired := [] } := by
    decide
  rw [h2] at h1
  injection h1 with h1
  subst h1
  exact absurd h3 (by decide)

/-- C1, amended: in an initialized engine whose current state is `A`, if
`T = (A, B, event, action)` is the first entry of the event table with source `A`
and that event, then `trigger event` invokes `A.on_exit`, `action`, `B.on_enter`
(each if non-null) in this order and nothing else, and ends in state `B`. -/
theorem C1_trigger_callbacks_in_order (env : Env) (w : World) (i : Nat) (T : Transition)
    (a b : Nat)
    (hinit : w.fsm.m_initialized = true)
    (hT : w.fsm.m_transitions[i]? = some T)
    (ha : T.state_from = some a) (hb : T.state_to = some b)
    (hcur : w.fsm.m_current_state = some a)
    (hmin : ∀ j U, j < i → w.fsm.m_transitions[j]? = some U →
      ¬ (U.state_from = some a ∧ U.event = T.event)) :
    ∃ w1, trigger env T.event w = some w1 ∧
      w1.trace = w.trace ++ ((env.heap a).on_exit.toList ++ T.on_transition.toList
        ++ (env.heap b).on_enter.toList) ∧
      w1.fsm.m_current_state = some b := by
  have h1 := trigger_first_match env w i T hinit hT (by rw [ha, hcur])
    (by rw [hcur]; exact hmin)
  rw [make_transition_some env T w a b ha hb] at h1
  exact ⟨_, h1, rfl, rfl⟩

/-- C1, amended, at a concrete input: the first of the two duplicate entries of
`dupWorld`. -/
theorem C1_trigger_callbacks_in_order_witness :
    ∃ w1, trigger demoEnv 1 dupWorld = some w1 ∧
      w1.trace = [10, 11] ++ ([12] ++ [7] ++ [20]) ∧ w1.fsm.m_current_state = some 2 :=
  C1_trigger_callbacks_in_order demoEnv dupWorld 0 ⟨some 1, some 2, 1, some 7⟩ 1 2
    rfl rfl rfl rfl rfl (fun j _ hj => absurd hj (Nat.not_lt_zero j))

/-- C2: in an initialized engine, `trigger event` executes the entry of the event
table with the smallest index whose source is the current state and whose event
is `event`, and nothing else: the call is `make_transition` on that entry, and the
state afterwards is its `state_to`, whatever later entries say. -/
theorem C2_trigger_smallest_index (env : Env) (w : World) (i : Nat) (T : Transition)
    (a b : Nat)
    (hinit : w.fsm.m_initialized = true)
    (hT : w.fsm.m_transitions[i]? = some T)
    (hfrom : T.state_from = w.fsm.m_current_state)
    (ha : T.state_from = some a) (hb : T.state_to = some b)
    (hmin : ∀ j U, j < i → w.fsm.m_transitions[j]? = some U →
      ¬ (U.state_from = w.fsm.m_current_state ∧ U.event = T.event)) :
    trigger env T.event w = make_transition env T w ∧
    ∃ w1, trigger env T.event w = some w1 ∧
      w1.fsm.m_current_state = T.state_to ∧
      w1.fsm.m_transitions = w.fsm.m_transitions ∧
      w1.reads = w.reads + 1 ∧ w1.fired = w.fired := by
  have h1 := trigger_first_match env w i T hinit hT hfrom hmin
  refine ⟨h1, ?_⟩
  rw [make_transition_some env T w a b ha hb] at h1
  exact ⟨_, h1, hb.symm, rfl, rfl, rfl⟩

/-- C2 at a concrete input: of the two entries of `dupWorld` for
`(state 1, event 1)`, the one registered first decides. -/
theorem C2_trigger_smallest_index_witness :
    trigger demoEnv 1 dupWorld = make_transition demoEnv ⟨some 1, some 2, 1, some 7⟩ dupWorld ∧
    ∃ w1, trigger demoEnv 1 dupWorld = some w1 ∧
      w1.fsm.m_current_state = some 2 ∧
      w1.fsm.m_transitions = dupWorld.fsm.m_transitions ∧
      w1.reads = dupWorld.reads + 1 ∧ w1.fired = dupWorld.fired :=
  C2_trigger_smallest_index demoEnv dupWorld 0 ⟨some 1, some 2, 1, some 7⟩ 1 2
    rfl rfl rfl rfl rfl (fun j _ hj => absurd hj (Nat.not_lt_zero j))

/-- C3: when no entry of the event table has both the current state as source
and the delivered event, `trigger` returns the world it was given: current state,
initialized flag, both tables with every `start`, the callback trace and the
clock-read count are all unchanged. -/
theorem C3_trigger_without_match_is_noop (env : Env) (event : Int) (w : World)
    (h : ∀ t ∈ w.fsm.m_transitions,
      ¬ (t.state_from = w.fsm.m_current_state ∧ t.event = event)) :
    trigger env event w = some w :=
  trigger_no_match env event w h

/-- C3 at concrete inputs: an event that was never registered. -/
theorem C3_trigger_without_match_is_noop_witness :
    (∀ t ∈ dupWorld.fsm.m_transitions,
      ¬ (t.state_from = dupWorld.fsm.m_current_state ∧ t.event = 5)) ∧
    trigger demoEnv 5 dupWorld = some dupWorld :=
  ⟨by decide, C3_trigger_without_match_is_noop demoEnv 5 dupWorld (by decide)⟩

/-- C4: on an engine built by the constructor and any sequence of calls that
contains no `run_machine`, `trigger` is a no-op for every event and every table:
the sequence succeeds, the current state is still the initial state, the engine
is still un-initialized, no callback has run, and one more `trigger` returns the
world unchanged. -/
theorem C4_trigger_before_first_run_is_noop (env : Env) (initial_state : StatePtr)
    (ops : List Op) (event : Int) (hno : Op.run_machine ∉ ops) :
    ∃ w, exec env ops (World.boot initial_state) = some w ∧
      w.fsm.m_current_state = initial_state ∧ w.fsm.m_initialized = false ∧
      w.trace = [] ∧ trigger env event w = some w := by
  obtain ⟨w, h1, h2, h3, h4, _⟩ := exec_before_first_run env ops (World.boot initial_state) hno rfl
  exact ⟨w, h1, h2, h3, h4, trigger_uninitialized env event w h3⟩

/-- C4 at a concrete input: a table with a transition out of the initial state
on the delivered event. -/
theorem C4_trigger_before_first_run_is_noop_witness :
    Op.run_machine ∉ [Op.add_transition (some 1) (some 2) 1 (some 7), Op.trigger 1] ∧
    ∃ w, exec demoEnv [Op.add_transition (some 1) (some 2) 1 (some 7), Op.trigger 1]
        (World.boot (some 1)) = some w ∧
      w.fsm.m_current_state = some 1 ∧ w.fsm.m_initialized = false ∧
      w.trace = [] ∧ trigger demoEnv 1 w = some w :=
  ⟨by decide, C4_trigger_before_first_run_is_noop demoEnv (some 1)
    [Op.add_transition (some 1) (some 2) 1 (some 7), Op.trigger 1] 1 (by decide)⟩

/-! ## Ticks without a firing -/

/-! ## Timed transitions -/

/-- C6 as stated fails in two ways.  First, when the entry is executed at clock
value 0: in the timer scenario the fifth later `run_machine` call is the first
whose reading (500) satisfies `now - 0 ≥ 500`, yet the transition does not fire in
it.  Second, when the entry into `A` is the firing of the timed transition itself
(a self-loop on `A`): after the firing at reading 1500 its `start` is 0, not
1500. -/
theorem C6_counterexample :
    ¬ (∀ (env : Env) (w w1 : World) (a b j t0 : Nat) (tt : TimedTransition)
        (ticks : List (Nat × List Int)) (c : Nat) (events : List Int),
        ((∃ event, trigger env event w = some w1 ∧ w1.reads ≠ w.reads) ∨
          (∃ evs, run_machine_delivering env evs w = some w1 ∧
            (w1.fired ≠ w.fired ∨ w1.entered ≠ w.entered))) →
        w1.entered = some t0 → w1.fsm.m_current_state = some a →
        (∀ rest f, w1.fired = w.fired ++ rest ++ [f] →
          f.entry.transition.state_from ≠ some a) →
        TimedWF w1 → w1.fsm.m_timed_transitions[j]? = some tt →
        tt.transition.state_from = some a → tt.transition.state_to = some b →
        (∀ k x, k ≠ j → w1.fsm.m_timed_transitions[k]? = some x →
          x.transition.state_from = some a →
          ∀ tick ∈ (c, events) :: ticks, usub (tick.1 % ULONG_RANGE) t0 < x.interval) →
        (∀ tick ∈ (c, events) :: ticks, ∀ e ∈ tick.2, ∀ t ∈ w1.fsm.m_transitions,
          ¬ (t.state_from = some a ∧ t.event = e)) →
        (∀ tick ∈ ticks, usub (tick.1 % ULONG_RANGE) t0 < tt.interval) →
        tt.interval ≤ usub (c % ULONG_RANGE) t0 →
        (∀ x ∈ w1.fsm.m_timed_transitions, x.transition.state_from = some a →
          x.start = t0) ∧
        ∃ w2 w3 idle rest tr, run_ticks_delivering env.heap ticks w1 = some w2 ∧
          w2.fsm = w1.fsm ∧ w2.fired = w1.fired ∧ w2.trace = w1.trace ++ idle ∧
          (∀ d ∈ idle, (env.heap a).on_state = some d) ∧
          run_machine_delivering { heap := env.heap, millis := fun _ => c } events w2
            = some w3 ∧
          w3.fired = w1.fired ++ Firing.mk j tt (c % ULONG_RANGE) (some t0) :: rest ∧
          w3.trace = w2.trace ++ (env.heap a).on_state.toList
            ++ ((env.heap a).on_exit.toList ++ tt.transition.on_transition.toList
              ++ (env.heap b).on_enter.toList) ++ tr ∧
          ((∀ k y, j < k → w1.fsm.m_timed_transitions[k]? = some y →
              y.transition.state_from ≠ some b) →
            w3.fsm.m_current_state = some b ∧ rest = [] ∧ tr = [])) ∧
    ¬ (∀ (env : Env) (w w1 : World) (a b j t0 : Nat) (tt : TimedTransition)
        (ticks : List (Nat × List Int)) (c : Nat) (events : List Int),
        ((∃ event, trigger env event w = some w1 ∧ w1.reads ≠ w.reads) ∨
          (∃ evs, run_machine_delivering env evs w = some w1 ∧
            (w1.fired ≠ w.fired ∨ w1.entered ≠ w.entered))) →
        w1.entered = some t0 → w1.fsm.m_current_state = some a →
        t0 ≠ 0 →
        TimedWF w1 → w1.fsm.m_timed_transitions[j]? = some tt →
        tt.transition.state_from = some a → tt.transition.state_to = some b →
        (∀ k x, k ≠ j → w1.fsm.m_timed_transitions[k]? = some x →
          x.transition.state_from = some a →
          ∀ tick ∈ (c, events) :: ticks, usub (tick.1 % ULONG_RANGE) t0 < x.interval) →
        (∀ tick ∈ (c, events) :: ticks, ∀ e ∈ tick.2, ∀ t ∈ w1.fsm.m_transitions,
          ¬ (t.state_from = some a ∧ t.event = e)) →
        (∀ tick ∈ ticks, usub (tick.1 % ULONG_RANGE) t0 < tt.interval) →
        tt.interval ≤ usub (c % ULONG_RANGE) t0 →
        (∀ x ∈ w1.fsm.m_timed_transitions, x.transition.state_from = some a →
          x.start = t0) ∧
        ∃ w2 w3 idle rest tr, run_ticks_delivering env.heap ticks w1 = some w2 ∧
          w2.fsm = w1.fsm ∧ w2.fired = w1.fired ∧ w2.trace = w1.trace ++ idle ∧
          (∀ d ∈ idle, (env.heap a).on_state = some d) ∧
          run_machine_delivering { heap := env.heap, millis := fun _ => c } events w2
            = some w3 ∧
          w3.fired = w1.fired ++ Firing.mk j tt (c % ULONG_RANGE) (some t0) :: rest ∧
          w3.trace = w2.trace ++ (env.heap a).on_state.toList
            ++ ((env.heap a).on_exit.toList ++ tt.transition.on_transition.toList
              ++ (env.heap b).on_enter.toList) ++ tr ∧
          ((∀ k y, j < k → w1.fsm.m_timed_transitions[k]? = some y →
              y.transition.state_from ≠ some b) →
            w3.fsm.m_current_state = some b ∧ rest = [] ∧ tr = [])) := by
  refine ⟨fun h => ?_, fun h => ?_⟩
  · obtain ⟨_, w2, w3, idle, rest, tr, h2, _, _, _, _, h4, h5, _⟩ := h zeroEnv timerWorld
      zeroWorld 2 1 0 0 ⟨⟨some 2, some 1, 0, none⟩, 0, 500⟩
      [(100, []), (200, []), (300, []), (400, [])] 500 []
      (Or.inl ⟨1, by decide, by decide⟩) rfl rfl
      (by intro rest f hf; simp [zeroWorld, timerWorld] at hf)
      (by unfold TimedWF; decide) rfl rfl rfl
      (by
        intro k x hk hkx
        cases k with
        | zero => exact absurd rfl hk
        | succ k => simp [zeroWorld] at hkx)
      (by intro tick _ e _ t ht; simp [zeroWorld] at ht; subst ht; simp)
      (by decide) (by decide)
    have e2 : run_ticks_delivering demoHeap [(100, []), (200, []), (300, []), (400, [])]
        zeroWorld = some
        { zeroWorld with
          fsm := { zeroWorld.fsm with
            m_timed_transitions := [⟨⟨some 2, some 1, 0, none⟩, 100, 500⟩] }
          reads := 5
          trace := [10, 11, 12, 20, 21, 21, 21, 21] } := by
      decide
    have e3 : run_machine_delivering { heap := demoHeap, millis := fun _ => 500 } []
        { zeroWorld with
          fsm := { zeroWorld.fsm with
            m_timed_transitions := [⟨⟨some 2, some 1, 0, none⟩, 100, 500⟩] }
          reads := 5
          trace := [10, 11, 12, 20, 21, 21, 21, 21] } = some
        { zeroWorld with
          fsm := { zeroWorld.fsm with
            m_timed_transitions := [⟨⟨some 2, some 1, 0, none⟩, 100, 500⟩] }
          reads := 6
          trace := [10, 11, 12, 20, 21, 21, 21, 21, 21] } := by
      decide
    have h2a : run_ticks_delivering demoHeap [(100, []), (200, []), (300, []), (400, [])]
        zeroWorld = some w2 := h2
    rw [e2] at h2a
    injection h2a with h2a
    subst h2a
    have h4a := h4
    rw [show zeroEnv.heap = demoHeap from rfl, e3] at h4a
    injection h4a with h4a
    subst h4a
    simp [zeroWorld] at h5
  · obtain ⟨h1, _⟩ := h { heap := demoHeap, millis := fun _ => 1500 } selfLoopArmed
      selfLoopFired 1 1 0 1500 ⟨⟨some 1, some 1, 0, none⟩, 0, 500⟩ [] 2000 []
      (Or.inr ⟨[], by decide, Or.inl (by decide)⟩) rfl rfl (by decide)
      (by unfold TimedWF; decide) rfl rfl rfl
      (by
        intro k x hk hkx
        cases k with
        | zero => exact absurd rfl hk
        | succ k => simp [selfLoopFired] at hkx)
      (by intro tick _ e _ t ht; simp [selfLoopFired] at ht)
      (by intro tick ht; simp at ht) (by decide)
    have := h1 ⟨⟨some 1, some 1, 0, none⟩, 0, 500⟩ (by simp [selfLoopFired]) rfl
    simp at this

/-- C6, amended: let a call (a `trigger`, or a `run_machine` whose `on_state` may
deliver events) execute a transition, the last one it executes entering state `A`
at a nonzero clock reading `t0` and not being the firing of a timed transition out
of `A` itself, and let `(A, B, interval)` be the timed transition at index `j`.
Then every timed transition out of `A` has `start = t0`.  If moreover, over later
`run_machine` calls with the readings and deliveries `ticks` followed by one with
reading `c`, no delivered event matches a transition out of `A`, no other timed
transition out of `A` is due, and this one is not due at the readings of `ticks`
and is due at `c` (`c - t0 ≥ interval`), then the calls of `ticks` leave the
engine and the firing log unchanged and run only `on_state` of `A`, and the call
with reading `c` fires this transition: the firing is the next record of the log,
and the trace grows by `on_state` of `A`, `on_exit` of `A`, the action and
`on_enter` of `B`; when no timed transition at a later index leaves `B`, that call
ends with `B` current and nothing else fired or called. -/
theorem C6_timer_fires_on_first_due_tick (env : Env) (w w1 : World) (a b j t0 : Nat)
    (tt : TimedTransition) (ticks : List (Nat × List Int)) (c : Nat) (events : List Int)
    (hcall : (∃ event, trigger env event w = some w1 ∧ w1.reads ≠ w.reads) ∨
      (∃ evs, run_machine_delivering env evs w = some w1 ∧
        (w1.fired ≠ w.fired ∨ w1.entered ≠ w.entered)))
    (hent : w1.entered = some t0) (hcur : w1.fsm.m_current_state = some a)
    (hlast : ∀ rest f, w1.fired = w.fired ++ rest ++ [f] →
      f.entry.transition.state_from ≠ some a)
    (ht0 : t0 ≠ 0)
    (hwf : TimedWF w1) (hj : w1.fsm.m_timed_transitions[j]? = some tt)
    (hfrom : tt.transition.state_from = some a) (hto : tt.transition.state_to = some b)
    (hothers : ∀ k x, k ≠ j → w1.fsm.m_timed_transitions[k]? = some x →
      x.transition.state_from = some a →
      ∀ tick ∈ (c, events) :: ticks, usub (tick.1 % ULONG_RANGE) t0 < x.interval)
    (hquiet : ∀ tick ∈ (c, events) :: ticks, ∀ e ∈ tick.2, ∀ t ∈ w1.fsm.m_transitions,
      ¬ (t.state_from = some a ∧ t.event = e))
    (hearly : ∀ tick ∈ ticks, usub (tick.1 % ULONG_RANGE) t0 < tt.interval)
    (hdue : tt.interval ≤ usub (c % ULONG_RANGE) t0) :
    (∀ x ∈ w1.fsm.m_timed_transitions, x.transition.state_from = some a →
      x.start = t0) ∧
    ∃ w2 w3 idle rest tr, run_ticks_delivering env.heap ticks w1 = some w2 ∧
      w2.fsm = w1.fsm ∧ w2.fired = w1.fired ∧ w2.trace = w1.trace ++ idle ∧
      (∀ d ∈ idle, (env.heap a).on_state = some d) ∧
      run_machine_delivering { heap := env.heap, millis := fun _ => c } events w2
        = some w3 ∧
      w3.fired = w1.fired ++ Firing.mk j tt (c % ULONG_RANGE) (some t0) :: rest ∧
      w3.trace = w2.trace ++ (env.heap a).on_state.toList
        ++ ((env.heap a).on_exit.toList ++ tt.transition.on_transition.toList
          ++ (env.heap b).on_enter.toList) ++ tr ∧
      ((∀ k y, j < k → w1.fsm.m_timed_transitions[k]? = some y →
          y.transition.state_from ≠ some b) →
        w3.fsm.m_current_state = some b ∧ rest = [] ∧ tr = []) := by
  obtain ⟨hinit, harm⟩ := entering_call_arms env w w1 a t0 hcall hent hcur hlast ht0
  have hstart : tt.start = t0 := harm j tt hj hfrom
  obtain ⟨w2, idle, h2, hfsm, hfired, hent2, htrace, hon⟩ :=
    run_ticks_delivering_idle env.heap a ticks w1 hcur hinit
      (by
        intro tick htick k x hk hx
        have hs := harm k x hk hx
        refine ⟨by rw [hs]; exact ht0, ?_⟩
        rw [hs]
        by_cases hkj : k = j
        · subst hkj
          rw [hj] at hk
          injection hk with hk
          subst hk
          exact hearly tick htick
        · exact hothers k x hkj hk hx tick (List.mem_cons_of_mem _ htick))
      (fun tick htick => hquiet tick (List.mem_cons_of_mem _ htick))
  obtain ⟨w3, rest, tr, h3, hf3, ht3, hcond⟩ :=
    run_machine_delivering_due env.heap c events w2 a b j tt
      (by rw [hfsm]; exact hcur) (by rw [hfsm]; exact hinit)
      (by unfold TimedWF; rw [hfsm]; exact hwf) (by rw [hfsm]; exact hj) hfrom hto
      (by rw [hstart]; exact ht0)
      (by
        intro k y hk hky hyf
        rw [hfsm] at hky
        have hs := harm k y hky hyf
        refine ⟨by rw [hs]; exact ht0, ?_⟩
        rw [hs]
        exact hothers k y (by omega) hky hyf (c, events) (List.mem_cons_self _ _))
      (by rw [hstart]; exact hdue)
      (by rw [hfsm]; exact hquiet (c, events) (List.mem_cons_self _ _))
  refine ⟨?_, w2, w3, idle, rest, tr, h2, hfsm, hfired, htrace, hon, h3, ?_, ht3, ?_⟩
  · intro x hx hxf
    obtain ⟨k, hk⟩ := List.mem_iff_getElem?.mp hx
    exact harm k x hk hxf
  · rw [hf3, hfired, hent2, hent]
  · intro hafter
    exact hcond (by rw [hfsm]; exact hafter)

/-- C6 at two concrete inputs.  The scenario of the claim: interval 500, state 2
entered by `trigger` at reading 1000, then calls at readings 1100, 1200, 1300, 1400
(no firing, the pending event 1 matching nothing) and 1500 (firing, state 1
current afterwards).  And an entry by a timed transition: state 2 entered by a
firing at reading 1300, then a call at reading 1799 (no firing) and one at 1800
(firing, state 3 current afterwards). -/
theorem C6_timer_fires_on_first_due_tick_witness :
    ((∀ x ∈ armedWorld.fsm.m_timed_transitions, x.transition.state_from = some 2 →
      x.start = 1000) ∧
    ∃ w2 w3 idle rest tr,
      run_ticks_delivering demoEnv.heap [(1100, [1]), (1200, [1]), (1300, []), (1400, [1])]
        armedWorld = some w2 ∧
      w2.fsm = armedWorld.fsm ∧ w2.fired = armedWorld.fired ∧
      w2.trace = armedWorld.trace ++ idle ∧
      (∀ d ∈ idle, (demoEnv.heap 2).on_state = some d) ∧
      run_machine_delivering { heap := demoEnv.heap, millis := fun _ => 1500 } [1] w2
        = some w3 ∧
      w3.fired = armedWorld.fired ++
        Firing.mk 0 ⟨⟨some 2, some 1, 0, none⟩, 1000, 500⟩ (1500 % ULONG_RANGE) (some 1000)
          :: rest ∧
      w3.trace = w2.trace ++ (demoEnv.heap 2).on_state.toList
        ++ ((demoEnv.heap 2).on_exit.toList
          ++ (⟨⟨some 2, some 1, 0, none⟩, 1000, 500⟩ : TimedTransition).transition.on_transition.toList
          ++ (demoEnv.heap 1).on_enter.toList) ++ tr ∧
      ((∀ k y, 0 < k → armedWorld.fsm.m_timed_transitions[k]? = some y →
          y.transition.state_from ≠ some 1) →
        w3.fsm.m_current_state = some 1 ∧ rest = [] ∧ tr = [])) ∧
    ((∀ x ∈ relayEntered.fsm.m_timed_transitions, x.transition.state_from = some 2 →
      x.start = 1300) ∧
    ∃ w2 w3 idle rest tr,
      run_ticks_delivering demoHeap [(1799, [1])] relayEntered = some w2 ∧
      w2.fsm = relayEntered.fsm ∧ w2.fired = relayEntered.fired ∧
      w2.trace = relayEntered.trace ++ idle ∧
      (∀ d ∈ idle, (demoHeap 2).on_state = some d) ∧
      run_machine_delivering { heap := demoHeap, millis := fun _ => 1800 } [1] w2
        = some w3 ∧
      w3.fired = relayEntered.fired ++
        Firing.mk 1 ⟨⟨some 2, some 3, 0, none⟩, 1300, 500⟩ (1800 % ULONG_RANGE) (some 1300)
          :: rest ∧
      w3.trace = w2.trace ++ (demoHeap 2).on_state.toList
        ++ ((demoHeap 2).on_exit.toList
          ++ (⟨⟨some 2, some 3, 0, none⟩, 1300, 500⟩ : TimedTransition).transition.on_transition.toList
          ++ (demoHeap 3).on_enter.toList) ++ tr ∧
      ((∀ k y, 1 < k → relayEntered.fsm.m_timed_transitions[k]? = some y →
          y.transition.state_from ≠ some 3) →
        w3.fsm.m_current_state = some 3 ∧ rest = [] ∧ tr = [])) :=
  ⟨C6_timer_fires_on_first_due_tick demoEnv timerWorld armedWorld 2 1 0 1000
      ⟨⟨some 2, some 1, 0, none⟩, 1000, 500⟩
      [(1100, [1]), (1200, [1]), (1300, []), (1400, [1])] 1500 [1]
      (Or.inl ⟨1, by decide, by decide⟩) rfl rfl
      (by intro rest f hf; simp [armedWorld, timerWorld] at hf)
      (by decide) (by unfold TimedWF; decide) rfl rfl rfl
      (by
        intro k x hk hkx
        cases k with
        | zero => exact absurd rfl hk
        | succ k => simp [armedWorld] at hkx)
      (by intro tick _ e _ t ht; simp [armedWorld] at ht; subst ht; simp)
      (by decide) (by decide),
    C6_timer_fires_on_first_due_tick { heap := demoHeap, millis := fun _ => 1300 }
      relayWorld relayEntered 2 3 1 1300 ⟨⟨some 2, some 3, 0, none⟩, 1300, 500⟩
      [(1799, [1])] 1800 [1]
      (Or.inr ⟨[1], by decide, Or.inl (by decide)⟩) rfl rfl
      (by
        intro rest f hf
        have h := congrArg List.getLast? hf
        simp [relayEntered, relayWorld] at h
        rw [← h]
        decide)
      (by decide) (by unfold TimedWF; decide) rfl rfl rfl
      (by
        intro k x hk hkx hx
        cases k with
        | zero =>
          simp [relayEntered] at hkx
          rw [← hkx] at hx
          simp at hx
        | succ k =>
          cases k with
          | zero => exact absurd rfl hk
          | succ k => simp [relayEntered] at hkx)
      (by intro tick _ e _ t ht; simp [relayEntered] at ht)
      (by decide) (by decide)⟩

/-- C7: under a non-decreasing clock that does not wrap, in every execution from
a freshly constructed engine (any sequence of registrations, `trigger` and
`run_machine` calls), every timed transition that passed the firing test did so
at a reading `now` with `t_e ≤ now` and `interval ≤ now - t_e`, where `t_e` is the
moment its source state most recently became current (for the initial state,
never left: the first value of the clock). -/
theorem C7_timed_transition_never_fires_early (env : Env) (initial_state : StatePtr)
    (ops : List Op) (w : World)
    (hmono : Monotone env.millis) (hrange : ∀ k, env.millis k < ULONG_RANGE)
    (h : exec env ops (World.boot initial_state) = some w) :
    ∀ f ∈ w.fired,
      entered_at env f.since ≤ f.now ∧ f.entry.interval ≤ f.now - entered_at env f.since := by
  intro f hf
  have hinv := timerInv_exec env hmono hrange ops _ w (timerInv_boot env hmono initial_state) h
  obtain ⟨h1, h2, h3⟩ := hinv.2.2 f hf
  exact ⟨Nat.le_trans h1 h2, h3⟩

/-- C7 at a concrete execution: the timer scenario, in which the transition with
interval 500 fires at reading 1500 after its state was entered at reading 1000. -/
theorem C7_timed_transition_never_fires_early_witness :
    Monotone boundedEnv.millis ∧ (∀ k, boundedEnv.millis k < ULONG_RANGE) ∧
    exec boundedEnv firingOps (World.boot (some 1)) = some firedWorld ∧
    firedWorld.fired.length = 1 ∧
    ∀ f ∈ firedWorld.fired,
      entered_at boundedEnv f.since ≤ f.now ∧
        f.entry.interval ≤ f.now - entered_at boundedEnv f.since :=
  have hmono : Monotone boundedEnv.millis := fun a b hab => by
    show 1000 + 100 * min a 100 ≤ 1000 + 100 * min b 100
    omega
  have hrange : ∀ k, boundedEnv.millis k < ULONG_RANGE := fun k => by
    show 1000 + 100 * min k 100 < 4294967296
    omega
  have hexec : exec boundedEnv firingOps (World.boot (some 1)) = some firedWorld := by decide
  ⟨hmono, hrange, hexec, rfl,
    C7_timed_transition_never_fires_early boundedEnv (some 1) firingOps firedWorld
      hmono hrange hexec⟩

/-! ## Registration -/

/-- C9: `add_transition` returns the engine unchanged when `state_from` or
`state_to` is null; with both non-null the event table becomes the old table
followed by the new entry, so its length grows by one, the entry
`(state_from, state_to, event, on_transition)` sits at the last index and the
earlier entries are the old ones, while the timed table, the current state and
the initialized flag stay as they were. -/
theorem C9_add_transition (m : Fsm) (p : StatePtr) (a b : Nat) (event : Int)
    (on_transition : FnPtr) :
    m.add_transition none p event on_transition = m ∧
    m.add_transition p none event on_transition = m ∧
    (m.add_transition (some a) (some b) event on_transition).m_transitions
      = m.m_transitions ++ [⟨some a, some b, event, on_transition⟩] ∧
    (m.add_transition (some a) (some b) event on_transition).m_transitions.length
      = m.m_transitions.length + 1 ∧
    (m.add_transition (some a) (some b) event on_transition).m_transitions[m.m_transitions.length]?
      = some ⟨some a, some b, event, on_transition⟩ ∧
    (m.add_transition (some a) (some b) event on_transition).m_transitions.take
      m.m_transitions.length = m.m_transitions ∧
    (m.add_transition (some a) (some b) event on_transition).m_timed_transitions
      = m.m_timed_transitions ∧
    (m.add_transition (some a) (some b) event on_transition).m_current_state
      = m.m_current_state ∧
    (m.add_transition (some a) (some b) event on_transition).m_initialized
      = m.m_initialized := by
  simp [Fsm.add_transition, create_transition]

/-- C10: `add_timed_transition` returns the engine unchanged when `state_from` or
`state_to` is null; with both non-null the timed table becomes the old table
followed by one entry with the given states, interval and action and with
`start = 0`, so the earlier entries keep all their fields, and the event table,
the current state and the initialized flag stay as they were. -/
theorem C10_add_timed_transition (m : Fsm) (p : StatePtr) (a b : Nat) (interval : Nat)
    (on_transition : FnPtr) :
    m.add_timed_transition none p interval on_transition = m ∧
    m.add_timed_transition p none interval on_transition = m ∧
    (m.add_timed_transition (some a) (some b) interval on_transition).m_timed_transitions
      = m.m_timed_transitions ++
        [{ transition := ⟨some a, some b, 0, on_transition⟩, start := 0, interval := interval }] ∧
    (m.add_timed_transition (some a) (some b) interval on_transition).m_timed_transitions.take
      m.m_timed_transitions.length = m.m_timed_transitions ∧
    (m.add_timed_transition (some a) (some b) interval on_transition).m_timed_transitions[
      m.m_timed_transitions.length]?
      = some { transition := ⟨some a, some b, 0, on_transition⟩, start := 0,
               interval := interval } ∧
    (m.add_timed_transition (some a) (some b) interval on_transition).m_transitions
      = m.m_transitions ∧
    (m.add_timed_transition (some a) (some b) interval on_transition).m_current_state
      = m.m_current_state ∧
    (m.add_timed_transition (some a) (some b) interval on_transition).m_initialized
      = m.m_initialized := by
  simp [Fsm.add_timed_transition, create_transition]

/-! ## Entry re-arms, the tables stay -/

/-- C12: when `trigger` executes a transition into state `B` and reads the clock
value `now`, the timed table keeps its length, every timed transition whose
`state_from` is `B` has `start = now` afterwards, whatever its `start` was, and
every other timed transition is unchanged. -/
theorem C12_trigger_rearms_entered_state (env : Env) (w : World) (i : Nat) (T : Transition)
    (p b : Nat)
    (hinit : w.fsm.m_initialized = true)
    (hT : w.fsm.m_transitions[i]? = some T)
    (hp : T.state_from = some p) (hb : T.state_to = some b)
    (hcur : w.fsm.m_current_state = some p)
    (hmin : ∀ j U, j < i → w.fsm.m_transitions[j]? = some U →
      ¬ (U.state_from = some p ∧ U.event = T.event)) :
    ∃ w1, trigger env T.event w = some w1 ∧
      w1.fsm.m_current_state = some b ∧
      w1.fsm.m_timed_transitions.length = w.fsm.m_timed_transitions.length ∧
      ∀ (k : Nat) (tt : TimedTransition), w.fsm.m_timed_transitions[k]? = some tt →
        (tt.transition.state_from = some b →
          w1.fsm.m_timed_transitions[k]?
            = some { tt with start := env.millis w.reads % ULONG_RANGE }) ∧
        (tt.transition.state_from ≠ some b → w1.fsm.m_timed_transitions[k]? = some tt) := by
  have h1 := trigger_first_match env w i T hinit hT (by rw [hp, hcur])
    (by rw [hcur]; exact hmin)
  rw [make_transition_some env T w p b hp hb] at h1
  refine ⟨_, h1, rfl, by simp [arm_all], ?_⟩
  intro k tt hk
  simp only [arm_all_getElem?, hk, Option.map_some']
  exact ⟨fun h => by rw [if_pos h], fun h => by rw [if_neg h]⟩

/-- C12 at a concrete input: the timer scenario, whose `trigger 1` enters state 2
at reading 1000. -/
theorem C12_trigger_rearms_entered_state_witness :
    ∃ w1, trigger demoEnv 1 timerWorld = some w1 ∧
      w1.fsm.m_current_state = some 2 ∧
      w1.fsm.m_timed_transitions.length = timerWorld.fsm.m_timed_transitions.length ∧
      ∀ (k : Nat) (tt : TimedTransition), timerWorld.fsm.m_timed_transitions[k]? = some tt →
        (tt.transition.state_from = some 2 →
          w1.fsm.m_timed_transitions[k]?
            = some { tt with start := demoEnv.millis timerWorld.reads % ULONG_RANGE }) ∧
        (tt.transition.state_from ≠ some 2 → w1.fsm.m_timed_transitions[k]? = some tt) :=
  C12_trigger_rearms_entered_state demoEnv timerWorld 0 ⟨some 1, some 2, 1, none⟩ 1 2
    rfl rfl rfl rfl rfl (fun j _ hj => absurd hj (Nat.not_lt_zero j))

/-- C17: a `trigger` call and a `run_machine` call leave the event table as it
was and leave, in the timed table, the number of entries and every entry's
transition (`state_from`, `state_to`, `event`, `on_transition`) and interval as
they were; what can differ afterwards is the current state, the initialized flag
and the `start` values. -/
theorem C17_calls_do_not_reconfigure (env : Env) (event : Int) (w w1 : World)
    (h : trigger env event w = some w1 ∨ run_machine env w = some w1) :
    w1.fsm.m_transitions = w.fsm.m_transitions ∧
    w1.fsm.m_transitions.length = w.fsm.m_transitions.length ∧
    w1.fsm.m_timed_transitions.length = w.fsm.m_timed_transitions.length ∧
    w1.fsm.m_timed_transitions.map TimedTransition.config
      = w.fsm.m_timed_transitions.map TimedTransition.config := by
  have hs : SameTables w w1 := by
    rcases h with h | h
    · exact sameTables_trigger env event w w1 h
    · exact (sameTables_run_machine env w w1 h).1
  refine ⟨hs.1, by rw [hs.1], ?_, hs.2⟩
  have := congrArg List.length hs.2
  simpa using this

/-- C17 at a concrete input: the `trigger 1` of the timer scenario, which changes
the current state and a `start`. -/
theorem C17_calls_do_not_reconfigure_witness :
    (trigger demoEnv 1 timerWorld = some armedWorld ∨
      run_machine demoEnv timerWorld = some armedWorld) ∧
    armedWorld.fsm.m_transitions = timerWorld.fsm.m_transitions ∧
    armedWorld.fsm.m_transitions.length = timerWorld.fsm.m_transitions.length ∧
    armedWorld.fsm.m_timed_transitions.length = timerWorld.fsm.m_timed_transitions.length ∧
    armedWorld.fsm.m_timed_transitions.map TimedTransition.config
      = timerWorld.fsm.m_timed_transitions.map TimedTransition.config :=
  ⟨Or.inl (by decide),
    C17_calls_do_not_reconfigure demoEnv 1 timerWorld armedWorld (Or.inl (by decide))⟩

/-! ## Clock rollover and the sentinel -/

/-- C18: let the timer at index `i`, out of the current state, have been armed at
true time `t0` (so `start = t0 mod 2^32`), and let the scan reach it at true time
`t0 + e` with `e < 2^32`. The computed `now - start` is `e`, also when the clock
wrapped in between. If `start ≠ 0`, the firing test passes exactly when
`interval ≤ e`: then the iteration logs the firing and runs `make_transition`,
otherwise it only reads the clock. If `start = 0` (the arming reading was exactly
0), the iteration treats the timer as unarmed: it sets `start` to the present
reading and does not fire, whatever `e` is. -/
theorem C18_firing_test_across_rollover (env : Env) (i : Nat) (w : World)
    (tt : TimedTransition) (t0 e : Nat)
    (hi : w.fsm.m_timed_transitions[i]? = some tt)
    (hfrom : tt.transition.state_from = w.fsm.m_current_state)
    (hstart : tt.start = t0 % ULONG_RANGE)
    (hnow : env.millis w.reads = t0 + e) (he : e < ULONG_RANGE) :
    usub (env.millis w.reads % ULONG_RANGE) tt.start = e ∧
    (tt.start ≠ 0 → tt.interval ≤ e →
      check_timed_step env i w
        = (make_transition env tt.transition
            { w with
              reads := w.reads + 1
              fired := w.fired ++
                [Firing.mk i tt (env.millis w.reads % ULONG_RANGE) w.entered] }).map
            (set_start i 0)) ∧
    (tt.start ≠ 0 → e < tt.interval →
      check_timed_step env i w = some { w with reads := w.reads + 1 }) ∧
    (tt.start = 0 →
      check_timed_step env i w
        = some (set_start i (env.millis w.reads % ULONG_RANGE)
            { w with reads := w.reads + 1 })) := by
  have hsub : usub (env.millis w.reads % ULONG_RANGE) tt.start = e := by
    rw [hnow, hstart]
    exact usub_elapsed t0 e he
  refine ⟨hsub, ?_, ?_, ?_⟩
  · intro harmed hdue
    exact check_timed_step_fire env i w tt hi hfrom harmed (by rw [hsub]; exact hdue)
  · intro harmed hnot
    exact check_timed_step_wait env i w tt hi hfrom harmed (by rw [hsub]; exact hnot)
  · intro hzero
    exact check_timed_step_arm env i w tt hi hfrom hzero

/-- C18 at a concrete input: a timer armed at reading 4294967000 and tested at
true time 4294967500, which reads 204 after the wrap; the elapsed time is 500. -/
theorem C18_firing_test_across_rollover_witness :
    usub (wrapEnv.millis wrapWorld.reads % ULONG_RANGE) 4294967000 = 500 ∧
    ((4294967000 : Nat) ≠ 0 → (500 : Nat) ≤ 500 →
      check_timed_step wrapEnv 0 wrapWorld
        = (make_transition wrapEnv ⟨some 2, some 1, 0, none⟩
            { wrapWorld with
              reads := wrapWorld.reads + 1
              fired := wrapWorld.fired ++
                [Firing.mk 0 ⟨⟨some 2, some 1, 0, none⟩, 4294967000, 500⟩
                  (wrapEnv.millis wrapWorld.reads % ULONG_RANGE) wrapWorld.entered] }).map
            (set_start 0 0)) ∧
    ((4294967000 : Nat) ≠ 0 → (500 : Nat) < 500 →
      check_timed_step wrapEnv 0 wrapWorld
        = some { wrapWorld with reads := wrapWorld.reads + 1 }) ∧
    ((4294967000 : Nat) = 0 →
      check_timed_step wrapEnv 0 wrapWorld
        = some (set_start 0 (wrapEnv.millis wrapWorld.reads % ULONG_RANGE)
            { wrapWorld with reads := wrapWorld.reads + 1 })) :=
  C18_firing_test_across_rollover wrapEnv 0 wrapWorld
    ⟨⟨some 2, some 1, 0, none⟩, 4294967000, 500⟩ 4294967000 500 rfl rfl (by decide) rfl
    (by decide)

/-! ## The application -/

/-- C19: the table built by `addTransitions` on `soundFsm` has the six entries of
the six calls (none is rejected), their `(state_from, event)` keys are pairwise
distinct, so at most one entry matches any current state and event and every
registered entry is the one `trigger` finds for its own key, and each of the four
states is the initial state or the target of some entry. -/
theorem C19_application_table_is_deterministic :
    (addTransitions soundFsm).m_transitions =
      [⟨some state_no_sound, some state_piezo_verify, piezo_sinal, none⟩,
       ⟨some state_piezo_verify, some state_no_sound, piezo_no_sinal, none⟩,
       ⟨some state_piezo_verify, some state_play_music, piezos_musical, none⟩,
       ⟨some state_play_music, some state_no_sound, finish_sound, none⟩,
       ⟨some state_piezo_verify, some state_play_note, piezo_sinal, none⟩,
       ⟨some state_play_note, some state_no_sound, finish_sound, none⟩] ∧
    (addTransitions soundFsm).m_transitions.length = 6 ∧
    ((addTransitions soundFsm).m_transitions.map (fun t => (t.state_from, t.event))).Nodup ∧
    (∀ (cur : StatePtr) (event : Int),
      ((addTransitions soundFsm).m_transitions.filter
        (fun t => decide (t.state_from = cur ∧ t.event = event))).length ≤ 1) ∧
    (∀ T ∈ (addTransitions soundFsm).m_transitions,
      (addTransitions soundFsm).m_transitions.find?
        (fun t => decide (t.state_from = T.state_from ∧ t.event = T.event)) = some T) ∧
    (∀ s ∈ [state_no_sound, state_piezo_verify, state_play_music, state_play_note],
      (addTransitions soundFsm).m_current_state = some s ∨
        ∃ T ∈ (addTransitions soundFsm).m_transitions, T.state_to = some s) := by
  have hnodup : ((addTransitions soundFsm).m_transitions.map
      (fun t => (t.state_from, t.event))).Nodup := by decide
  refine ⟨by decide, by decide, hnodup, ?_, by decide, by decide⟩
  intro cur event
  have hkey := filter_key_length_le_one (fun t : Transition => (t.state_from, t.event)) _
    hnodup (cur, event)
  have hsame : (addTransitions soundFsm).m_transitions.filter
        (fun t => decide (t.state_from = cur ∧ t.event = event))
      = (addTransitions soundFsm).m_transitions.filter
        (fun t => decide ((t.state_from, t.event) = (cur, event))) := by
    apply List.filter_congr
    intro t _
    simp only [Prod.mk.injEq]
  rw [hsame]
  exact hkey

/-- C20: for an index `n` in `0..4`, `scale f n` returns a value; it is `scale_1[n]`
exactly when `50 ≤ f < 500`, `scale_2[n]` exactly when `501 ≤ f < 800`, and
`scale_3[n]` exactly for every other `f`. The result is not monotone in `f`: 499
gives `scale_1[n]`, 501 gives `scale_2[n]`, while 500 and every reading below 50
give `scale_3[n]`, which is larger than both. -/
theorem C20_scale_ranges (f : Int) (n : Fin 5) (k : Nat) :
    (∃ v, scale f n = some v) ∧
    (scale f n = array_at scale_1 n ↔ 50 ≤ f ∧ f < 500) ∧
    (scale f n = array_at scale_2 n ↔ 501 ≤ f ∧ f < 800) ∧
    (scale f n = array_at scale_3 n ↔ ¬ (50 ≤ f ∧ f < 500) ∧ ¬ (501 ≤ f ∧ f < 800)) ∧
    scale 499 n = array_at scale_1 n ∧
    scale 500 n = array_at scale_3 n ∧
    scale 501 n = array_at scale_2 n ∧
    scale (49 - k) n = array_at scale_3 n ∧
    (∃ v1 v2 v3, scale 499 n = some v1 ∧ scale 500 n = some v3 ∧ scale 501 n = some v2 ∧
      v1 < v3 ∧ v2 < v3) := by
  have h49 : ¬ ((49 : Int) - k ≥ 50 ∧ (49 : Int) - k < 500) := by omega
  have h49b : ¬ ((49 : Int) - k ≥ 501 ∧ (49 : Int) - k < 800) := by omega
  have hval : ∀ (g : Int),
      (g ≥ 50 ∧ g < 500 → scale g n = array_at scale_1 n) ∧
      (¬ (g ≥ 50 ∧ g < 500) → g ≥ 501 ∧ g < 800 → scale g n = array_at scale_2 n) ∧
      (¬ (g ≥ 50 ∧ g < 500) → ¬ (g ≥ 501 ∧ g < 800) → scale g n = array_at scale_3 n) := by
    intro g
    unfold scale
    exact ⟨fun h => by rw [if_pos h], fun h1 h2 => by rw [if_neg h1, if_pos h2],
      fun h1 h2 => by rw [if_neg h1, if_neg h2]⟩
  have h12 : array_at scale_1 n ≠ array_at scale_2 n := by
    fin_cases n <;> simp [array_at, scale_1, scale_2]
  have h13 : array_at scale_1 n ≠ array_at scale_3 n := by
    fin_cases n <;> simp [array_at, scale_1, scale_3]
  have h23 : array_at scale_2 n ≠ array_at scale_3 n := by
    fin_cases n <;> simp [array_at, scale_2, scale_3]
  obtain ⟨hv1, hv2, hv3⟩ := hval f
  refine ⟨?_, ?_, ?_, ?_, ?_, ?_, ?_, ?_, ?_⟩
  · unfold scale
    split
    · fin_cases n <;> exact ⟨_, rfl⟩
    · split
      · fin_cases n <;> exact ⟨_, rfl⟩
      · fin_cases n <;> exact ⟨_, rfl⟩
  · constructor
    · intro h
      by_contra hc
      by_cases h2 : f ≥ 501 ∧ f < 800
      · rw [hv2 hc h2] at h; exact h12 h.symm
      · rw [hv3 hc h2] at h; exact h13 h.symm
    · exact hv1
  · constructor
    · intro h
      by_cases h1 : f ≥ 50 ∧ f < 500
      · rw [hv1 h1] at h; exact absurd h h12
      · by_contra hc
        rw [hv3 h1 hc] at h; exact h23 h.symm
    · intro h
      exact hv2 (by omega) h
  · constructor
    · intro h
      by_cases h1 : f ≥ 50 ∧ f < 500
      · rw [hv1 h1] at h; exact absurd h h13
      · by_cases h2 : f ≥ 501 ∧ f < 800
        · rw [hv2 h1 h2] at h; exact absurd h h23
        · exact ⟨h1, h2⟩
    · intro h
      exact hv3 h.1 h.2
  · rfl
  · rfl
  · rfl
  · unfold scale
    rw [if_neg h49, if_neg h49b]
  · fin_cases n <;> exact ⟨_, _, _, rfl, rfl, rfl, by decide, by decide⟩

/-! ## Reachable states -/

/-- C15 as stated fails: the constructor accepts a null initial state, and the
engine it builds has a null current state. -/
theorem C15_counterexample :
    ¬ (∀ (env : Env) (initial_state : StatePtr) (ops : List Op) (w : World),
        exec env ops (World.boot initial_state) = some w →
        w.fsm.m_current_state ≠ none) := by
  intro h
  exact h demoEnv none [] (World.boot none) rfl rfl

/-- C11 as stated fails: after `trigger 1` entered state 2 at reading 1000 and
`trigger 2` left it again, the timed transition out of state 2 still has
`start = 1000` while the current state is state 1. -/
theorem C11_counterexample :
    ¬ (∀ (env : Env) (initial_state : StatePtr) (ops : List Op) (w : World),
        exec env ops (World.boot initial_state) = some w →
        ∀ tt ∈ w.fsm.m_timed_transitions, tt.start ≠ 0 →
          tt.transition.state_from = w.fsm.m_current_state) := by
  intro h
  have h1 := h demoEnv (some 1) staleOps staleWorld (by decide)
    ⟨⟨some 2, some 1, 0, none⟩, 1000, 500⟩ (by decide) (by decide)
  exact absurd h1 (by decide)

/-- C11, amended: under a non-decreasing clock that does not wrap, in every state
reachable from a freshly constructed engine, every armed timed transition whose
`state_from` is the current state was armed in the current residency: its `start`
is not before the moment the current state became current. -/
theorem C11_armed_timer_is_from_current_residency (env : Env) (initial_state : StatePtr)
    (ops : List Op) (w : World)
    (hmono : Monotone env.millis) (hrange : ∀ k, env.millis k < ULONG_RANGE)
    (h : exec env ops (World.boot initial_state) = some w) :
    ∀ tt ∈ w.fsm.m_timed_transitions,
      tt.transition.state_from = w.fsm.m_current_state → tt.start ≠ 0 →
        entered_at env w.entered ≤ tt.start := by
  intro tt htt hfrom hne
  have hinv := timerInv_exec env hmono hrange ops _ w (timerInv_boot env hmono initial_state) h
  exact (hinv.2.1 tt htt hfrom hne).1

/-- C11, amended, at a concrete execution: the timer scenario up to the entry into
state 2 at reading 1000, after which the timer out of state 2 has `start = 1000`. -/
theorem C11_armed_timer_is_from_current_residency_witness :
    Monotone boundedEnv.millis ∧ (∀ k, boundedEnv.millis k < ULONG_RANGE) ∧
    exec boundedEnv (timerOps ++ [Op.trigger 1]) (World.boot (some 1)) = some armedWorld ∧
    ∀ tt ∈ armedWorld.fsm.m_timed_transitions,
      tt.transition.state_from = armedWorld.fsm.m_current_state → tt.start ≠ 0 →
        entered_at boundedEnv armedWorld.entered ≤ tt.start :=
  have hmono : Monotone boundedEnv.millis := fun a b hab => by
    show 1000 + 100 * min a 100 ≤ 1000 + 100 * min b 100
    omega
  have hrange : ∀ k, boundedEnv.millis k < ULONG_RANGE := fun k => by
    show 1000 + 100 * min k 100 < 4294967296
    omega
  have hexec : exec boundedEnv (timerOps ++ [Op.trigger 1]) (World.boot (some 1))
      = some armedWorld := by decide
  ⟨hmono, hrange, hexec,
    C11_armed_timer_is_from_current_residency boundedEnv (some 1) (timerOps ++ [Op.trigger 1])
      armedWorld hmono hrange hexec⟩

/-- C13, the code at the failing input: a timed self-loop on state 1 with interval
500, ticks at clock values 1000 (arming) and 1500 (firing). After the firing call
the entry has `start = 0`, not 1500; the tick at 2000, where `2000 - 1500 ≥ 500`,
only arms it again, and the second firing comes at 2500. -/
theorem C13_self_loop_is_left_unarmed :
    run_ticks demoHeap [1000, 1500] selfLoopWorld = some selfLoopFired ∧
    selfLoopFired.fired.map (fun f => (f.index, f.now)) = [(0, 1500)] ∧
    selfLoopFired.fsm.m_timed_transitions.map (fun tt => tt.start) = [0] ∧
    (run_ticks demoHeap [2000] selfLoopFired).map
      (fun w => (w.fired.length, w.fsm.m_timed_transitions.map (fun tt => tt.start)))
      = some (1, [2000]) ∧
    (run_ticks demoHeap [2000, 2500] selfLoopFired).map
      (fun w => w.fired.map (fun f => (f.index, f.now)))
      = some [(0, 1500), (0, 2500)] := by
  decide

/-- C16: in a `run_machine` call on an initialized engine in state `A`, let the
timed entry at index `i` lead from `A` to `B` and fire (the entries out of `A`
before it being armed and not due), let the entry at a later index `j` lead out of
`B` with interval 0, let no entry between them lead out of `B`, and let the clock
reading taken on entering `B` be nonzero. Then the entry at `j` is tested against
`B` and fires in the same call, right after the one at `i`, and every further
firing of the call has an index above `j`: no entry at or before `i` is looked at
again. -/
theorem C16_scan_uses_the_state_in_effect (env : Env) (w : World) (i j a b c : Nat)
    (x y : TimedTransition)
    (hinit : w.fsm.m_initialized = true) (hcur : w.fsm.m_current_state = some a)
    (hwf : TimedWF w)
    (hi : w.fsm.m_timed_transitions[i]? = some x)
    (ha : x.transition.state_from = some a) (hb : x.transition.state_to = some b)
    (hxarmed : x.start ≠ 0)
    (hxdue : x.interval ≤ usub (env.millis (w.reads + rank w i) % ULONG_RANGE) x.start)
    (hbefore : ∀ k z, k < i → w.fsm.m_timed_transitions[k]? = some z →
      z.transition.state_from = some a →
      z.start ≠ 0 ∧
        usub (env.millis (w.reads + rank w k) % ULONG_RANGE) z.start < z.interval)
    (hij : i < j)
    (hj : w.fsm.m_timed_transitions[j]? = some y)
    (hyb : y.transition.state_from = some b) (hyc : y.transition.state_to = some c)
    (hyiv : y.interval = 0)
    (hbetween : ∀ k z, i < k → k < j → w.fsm.m_timed_transitions[k]? = some z →
      z.transition.state_from ≠ some b)
    (hnow : env.millis (w.reads + rank w i + 1) % ULONG_RANGE ≠ 0) :
    ∃ w1 rest, run_machine env w = some w1 ∧
      w1.fired = w.fired ++
        Firing.mk i x (env.millis (w.reads + rank w i) % ULONG_RANGE) w.entered ::
        Firing.mk j { y with start := env.millis (w.reads + rank w i + 1) % ULONG_RANGE }
          (env.millis (w.reads + rank w i + 2) % ULONG_RANGE)
          (some (env.millis (w.reads + rank w i + 1) % ULONG_RANGE)) :: rest ∧
      (∀ f ∈ rest, j < f.index) := by
  rw [run_machine_initialized env w a hcur hinit]
  exact check_timed_transitions_cascade env
    { w with trace := w.trace ++ (env.heap a).on_state.toList } i j a b c x y hwf hi hcur
    ha hb hxarmed hxdue hbefore hij hj hyb hyc hyiv hbetween hnow

/-- C16 at a concrete configuration: timed transitions from state 1 to state 2
(interval 500, armed at 1000) and from state 2 to state 3 (interval 0), registered
in this order; one `run_machine` call with readings 1500, 2000, 2500, 3000 fires
both and ends in state 3. -/
theorem C16_scan_uses_the_state_in_effect_witness :
    (∃ w1 rest, run_machine cascadeEnv cascadeWorld = some w1 ∧
      w1.fired = cascadeWorld.fired ++
        Firing.mk 0 ⟨⟨some 1, some 2, 0, none⟩, 1000, 500⟩
          (cascadeEnv.millis (cascadeWorld.reads + rank cascadeWorld 0) % ULONG_RANGE)
          cascadeWorld.entered ::
        Firing.mk 1
          { (⟨⟨some 2, some 3, 0, none⟩, 0, 0⟩ : TimedTransition) with
            start := cascadeEnv.millis (cascadeWorld.reads + rank cascadeWorld 0 + 1)
              % ULONG_RANGE }
          (cascadeEnv.millis (cascadeWorld.reads + rank cascadeWorld 0 + 2) % ULONG_RANGE)
          (some (cascadeEnv.millis (cascadeWorld.reads + rank cascadeWorld 0 + 1)
            % ULONG_RANGE)) :: rest ∧
      (∀ f ∈ rest, 1 < f.index)) ∧
    (run_machine cascadeEnv cascadeWorld).map
      (fun w => (w.fsm.m_current_state, w.fired.map (fun f => (f.index, f.now))))
      = some (some 3, [(0, 1500), (1, 2500)]) :=
  ⟨C16_scan_uses_the_state_in_effect cascadeEnv cascadeWorld 0 1 1 2 3
    ⟨⟨some 1, some 2, 0, none⟩, 1000, 500⟩ ⟨⟨some 2, some 3, 0, none⟩, 0, 0⟩
    rfl rfl (by unfold TimedWF; decide) rfl rfl rfl (by decide) (by decide)
    (fun k _ hk => absurd hk (Nat.not_lt_zero k)) (by decide) rfl rfl rfl rfl
    (fun k _ h1 h2 => absurd h2 (by omega)) (by decide),
   by decide⟩

/-! ## Ticks that change nothing -/

/-- C8 as stated fails: in `zeroWorld` the only timed transition out of the
current state has `start = 0`, the reading 100 gives `100 - 0 < 500`, so nothing is
due, and no event is delivered, yet `run_machine` changes that entry's `start` to
100. -/
theorem C8_counterexample :
    ¬ (∀ (env : Env) (events : List Int) (w : World) (cur : Nat),
        w.fsm.m_current_state = some cur → w.fsm.m_initialized = true →
        (∀ k tt, w.fsm.m_timed_transitions[k]? = some tt →
          tt.transition.state_from = some cur →
          usub (env.millis (w.reads + rank w k) % ULONG_RANGE) tt.start < tt.interval) →
        (∀ e ∈ events, ∀ t ∈ w.fsm.m_transitions,
          ¬ (t.state_from = some cur ∧ t.event = e)) →
        ∃ w1, run_machine_delivering env events w = some w1 ∧ w1.fsm = w.fsm) := by
  intro h
  obtain ⟨w1, h1, h2⟩ := h zeroEnv [] zeroWorld 2 rfl rfl (by
    intro k tt hk _
    cases k with
    | zero =>
      have : tt = ⟨⟨some 2, some 1, 0, none⟩, 0, 500⟩ := by
        simpa [zeroWorld] using hk.symm
      subst this
      decide
    | succ k => simp [zeroWorld] at hk) (by intro e he; cases he)
  have h3 : run_machine_delivering zeroEnv [] zeroWorld = some
      { zeroWorld with
        fsm := { zeroWorld.fsm with
          m_timed_transitions := [⟨⟨some 2, some 1, 0, none⟩, 100, 500⟩] }
        reads := 2
        trace := [10, 11, 12, 20, 21] } := by
    decide
  rw [h3] at h1
  injection h1 with h1
  subst h1
  exact absurd h2 (by decide)

/-- C8, amended: in an initialized engine in which every timed transition out of
the current state is armed (`start ≠ 0`) and not due at the reading taken for it,
and in which no event is pending (the events the `on_state` callback delivers
match no transition out of the current state), a `run_machine` call invokes only
the current state's `on_state` (if non-null) and leaves the engine (current state,
initialized flag, both tables, every `start`) and the firing log as they were; a
second call under the same conditions does the same. -/
theorem C8_idle_tick_changes_nothing (env : Env) (events events2 : List Int) (w : World)
    (cur : Nat)
    (hcur : w.fsm.m_current_state = some cur) (hinit : w.fsm.m_initialized = true)
    (hidle : ∀ k tt, w.fsm.m_timed_transitions[k]? = some tt →
      tt.transition.state_from = some cur →
      tt.start ≠ 0 ∧
        usub (env.millis (w.reads + rank w k) % ULONG_RANGE) tt.start < tt.interval)
    (hidle2 : ∀ k tt, w.fsm.m_timed_transitions[k]? = some tt →
      tt.transition.state_from = some cur →
      usub (env.millis (w.reads + rank w w.fsm.m_timed_transitions.length + rank w k)
        % ULONG_RANGE) tt.start < tt.interval)
    (hquiet : ∀ e ∈ events ++ events2, ∀ t ∈ w.fsm.m_transitions,
      ¬ (t.state_from = some cur ∧ t.event = e)) :
    ∃ w1 w2, run_machine_delivering env events w = some w1 ∧
      w1.trace = w.trace ++ (env.heap cur).on_state.toList ∧
      w1.fsm = w.fsm ∧ w1.entered = w.entered ∧ w1.fired = w.fired ∧
      run_machine_delivering env events2 w1 = some w2 ∧
      w2.trace = w1.trace ++ (env.heap cur).on_state.toList ∧
      w2.fsm = w.fsm ∧ w2.entered = w.entered ∧ w2.fired = w.fired := by
  obtain ⟨w1, h1, f1, r1, t1, e1, g1⟩ := run_machine_idle_facts env w cur hcur hinit hidle
  obtain ⟨w2, h2, f2, _, t2, e2, g2⟩ := run_machine_idle_facts env w1 cur
    (by rw [f1]; exact hcur) (by rw [f1]; exact hinit)
    (by
      intro k tt hk hfrom
      rw [f1] at hk
      rw [r1, rank_congr w w1 f1]
      exact ⟨(hidle k tt hk hfrom).1, hidle2 k tt hk hfrom⟩)
  have q1 := run_machine_delivering_quiet env events w (by
    intro e he t ht
    rw [hcur]
    exact hquiet e (List.mem_append_left _ he) t ht)
  have q2 := run_machine_delivering_quiet env events2 w1 (by
    intro e he t ht
    rw [f1] at ht ⊢
    rw [hcur]
    exact hquiet e (List.mem_append_right _ he) t ht)
  rw [h1] at q1
  rw [h2] at q2
  exact ⟨w1, w2, q1, t1, f1, e1, g1, q2, t2, f2.trans f1, e2.trans e1, g2.trans g1⟩

/-- C8, amended, at a concrete input: state 2 with its timer armed at 1000 and
interval 500, two calls with readings 1100 and 1200, and an `on_state` that
delivers event 1, which no transition out of state 2 carries. -/
theorem C8_idle_tick_changes_nothing_witness :
    ∃ w1 w2, run_machine_delivering demoEnv [1] armedWorld = some w1 ∧
      w1.trace = armedWorld.trace ++ (demoEnv.heap 2).on_state.toList ∧
      w1.fsm = armedWorld.fsm ∧ w1.entered = armedWorld.entered ∧
      w1.fired = armedWorld.fired ∧
      run_machine_delivering demoEnv [1, 1] w1 = some w2 ∧
      w2.trace = w1.trace ++ (demoEnv.heap 2).on_state.toList ∧
      w2.fsm = armedWorld.fsm ∧ w2.entered = armedWorld.entered ∧
      w2.fired = armedWorld.fired :=
  C8_idle_tick_changes_nothing demoEnv [1] [1, 1] armedWorld 2 rfl rfl
    (by
      intro k tt hk _
      cases k with
      | zero =>
        have : tt = ⟨⟨some 2, some 1, 0, none⟩, 1000, 500⟩ := by
          simpa [armedWorld] using hk.symm
        subst this
        decide
      | succ k => simp [armedWorld] at hk)
    (by
      intro k tt hk _
      cases k with
      | zero =>
        have : tt = ⟨⟨some 2, some 1, 0, none⟩, 1000, 500⟩ := by
          simpa [armedWorld] using hk.symm
        subst this
        decide
      | succ k => simp [armedWorld] at hk)
    (by decide)

/-- C15, amended: for an engine built by the constructor with a non-null initial
state, after every sequence of `add_transition`, `add_timed_transition`, `trigger`
and `run_machine` calls the current state is non-null and is the initial state or
the `state_to` of a registered event or timed transition. -/
theorem C15_current_state_never_null (env : Env) (a : Nat) (ops : List Op) (w : World)
    (h : exec env ops (World.boot (some a)) = some w) :
    w.fsm.m_current_state ≠ none ∧
    (w.fsm.m_current_state = some a ∨
      (∃ t ∈ w.fsm.m_transitions, t.state_to = w.fsm.m_current_state) ∨
      ∃ tt ∈ w.fsm.m_timed_transitions,
        tt.transition.state_to = w.fsm.m_current_state) := by
  obtain ⟨w1, h1, _, _, h2, h3⟩ := stateInv_exec env a ops _ (stateInv_boot a)
  rw [h] at h1
  injection h1 with h1
  subst h1
  exact ⟨h2, h3⟩

/-- C15, amended, at a concrete execution: `staleOps` from initial state 1, which
ends in state 1 after a visit to state 2. -/
theorem C15_current_state_never_null_witness :
    exec demoEnv staleOps (World.boot (some 1)) = some staleWorld ∧
    staleWorld.fsm.m_current_state ≠ none ∧
    (staleWorld.fsm.m_current_state = some 1 ∨
      (∃ t ∈ staleWorld.fsm.m_transitions, t.state_to = staleWorld.fsm.m_current_state) ∨
      ∃ tt ∈ staleWorld.fsm.m_timed_transitions,
        tt.transition.state_to = staleWorld.fsm.m_current_state) :=
  ⟨by decide, C15_current_state_never_null demoEnv 1 staleOps staleWorld (by decide)⟩

/-! ## The first tick -/

/-- C5 as stated fails: an engine constructed with state 4, which defines only
`on_enter`, and given a timed self-loop on state 4 with interval 0 runs that
`on_enter` in the first `run_machine` call and again in the second, where the
self-loop fires. -/
theorem C5_counterexample :
    ¬ (∀ (env : Env) (w : World) (S : Nat) (c : Callback) (events : List Int)
        (more : List (List Int)),
        env.heap S = { on_enter := some c, on_state := none, on_exit := none } →
        w.fsm.m_current_state = some S → w.fsm.m_initialized = false →
        (∀ t ∈ registered w, t.state_from ≠ none ∧ t.state_to ≠ none) →
        (∀ t ∈ registered w, OtherCallbacks env S c t) →
        ∃ wn tr, run_calls env (events :: more) w = some wn ∧
          wn.trace = w.trace ++ c :: tr ∧ c ∉ tr) := by
  intro h
  obtain ⟨wn, tr, h1, h2, h3⟩ := h soloEnv soloLoopWorld 4 40 [] [[]] rfl rfl rfl
    (by decide)
    (by
      intro t ht
      have ht1 : t = ⟨some 4, some 4, 0, none⟩ := by
        simpa [registered, soloLoopWorld] using ht
      subst ht1
      refine ⟨by decide, ?_⟩
      intro p hp hne
      simp only [Option.some.injEq] at hp
      exact absurd hp.symm hne)
  have e1 : (run_calls soloEnv [[], []] soloLoopWorld).map (fun w => w.trace)
      = some [40, 40] := by decide
  rw [h1] at e1
  simp only [Option.map_some', Option.some.injEq] at e1
  rw [e1] at h2
  simp only [soloLoopWorld, List.nil_append, List.cons.injEq, true_and] at h2
  rw [← h2] at h3
  exact h3 (List.mem_singleton.mpr rfl)

/-- C5, amended: let `S` define only `on_enter`, let `S` be the current state of an
engine on which `run_machine` has not run yet, let no registered transition,
event or timed, lead into `S`, and let the function `S.on_enter` not be registered
as any other callback of a transition or of a target state. Then any number of
consecutive `run_machine` calls, one or more, whatever their `on_state` callbacks
deliver, run to the end, and `S.on_enter` is invoked exactly once: it is the first
callback of the first call and is not invoked again. -/
theorem C5_on_enter_exactly_once (env : Env) (w : World) (S : Nat) (c : Callback)
    (events : List Int) (more : List (List Int))
    (hS : env.heap S = { on_enter := some c, on_state := none, on_exit := none })
    (hcur : w.fsm.m_current_state = some S) (hinit : w.fsm.m_initialized = false)
    (hwf : ∀ t ∈ registered w, t.state_from ≠ none ∧ t.state_to ≠ none)
    (hother : ∀ t ∈ registered w, OtherCallbacks env S c t)
    (hinto : ∀ t ∈ registered w, t.state_to ≠ some S) :
    ∃ wn tr, run_calls env (events :: more) w = some wn ∧
      wn.trace = w.trace ++ c :: tr ∧ c ∉ tr := by
  have hap : Apart env S c
      { w with
        fsm := { w.fsm with m_initialized := true }
        trace := w.trace ++ [c] } := by
    refine ⟨fun t ht => ⟨hwf t ht, hinto t ht, hother t ht⟩, S, hcur, ?_, ?_⟩
    · rw [hS]; simp
    · rw [hS]; simp
  obtain ⟨w1, t1, h1, a1, e1, c1, i1⟩ := apart_loop env S c
    w.fsm.m_timed_transitions.length 0 _ hap
  have hfirst : run_machine_delivering env events w = some w1 := by
    unfold run_machine_delivering
    rw [hcur]
    simp only [deref, hS, hinit, invoke]
    exact h1
  obtain ⟨wn, tn, hn, en, cn⟩ := apart_run_calls env S c more w1 a1 (i1.trans rfl)
  refine ⟨wn, t1 ++ tn, ?_, ?_, ?_⟩
  · simp only [run_calls, hfirst]; exact hn
  · rw [en, e1]; simp
  · simp only [List.mem_append, not_or]; exact ⟨c1, cn⟩

/-- C5, amended, at a concrete input: state 4 defines only `on_enter`; a timed
transition leads from it to state 2 and event 1 from there to state 3. In three
calls the engine leaves state 4 and moves on, and callback 40 runs once. -/
theorem C5_on_enter_exactly_once_witness :
    (∃ wn tr, run_calls enterOnlyEnv ([] :: [[], [1]]) leaveWorld = some wn ∧
      wn.trace = leaveWorld.trace ++ 40 :: tr ∧ 40 ∉ tr) ∧
    (run_calls enterOnlyEnv [[], [], [1]] leaveWorld).map
      (fun w => (w.fsm.m_current_state, w.trace)) = some (some 3, [40, 20, 21, 22, 30]) :=
  ⟨C5_on_enter_exactly_once enterOnlyEnv leaveWorld 4 40 [] [[], [1]] rfl rfl rfl
    (by decide)
    (by
      intro t ht
      have ht1 : t = ⟨some 2, some 3, 1, none⟩ ∨ t = ⟨some 4, some 2, 0, none⟩ := by
        simpa [registered, leaveWorld] using ht
      rcases ht1 with ht1 | ht1
      · subst ht1
        refine ⟨by decide, ?_⟩
        intro p hp _
        simp only [Option.some.injEq] at hp
        subst hp
        decide
      · subst ht1
        refine ⟨by decide, ?_⟩
        intro p hp _
        simp only [Option.some.injEq] at hp
        subst hp
        decide)
    (by decide),
   by decide⟩

end DosGuitar
